import Mathlib

/-!
# Verification of the WarFrontIO MapCodec compression pipeline

Shallow embedding of the map codec:
* `MapCodec.ts` (top-level `encodeMap` / `decodeMap` and the data model),
* `MapEncoder.ts` (zone border line stitching, chunk sorting, bit emission),
* `ZoneCalculator.ts` (flood-fill zone construction),
* `MapDecoder.ts` (parsing and directional fill).

JavaScript arrays are modelled as `List`; `Uint16Array` reads out of bounds
yield `undefined` (modelled via `Option`/`getD 0` where the source only tests
truthiness) and writes out of bounds are silently dropped (`List.set` has the
same behaviour).  Indices that can go negative in the source are modelled as
`Int`.  JavaScript `while` loops whose termination is not structural are given
fuel; exhausting the fuel models non-termination of the source and is reported
as `CodecError.diverged` / `none`.

The bit writer (`LazyWriter`) and bit reader (`StreamReader`) are not part of
the sources; they are modelled from the spec (§4.1 BitStream): MSB-first bit
packing, length-prefixed strings, `Truncated` on reading past the end.
-/

namespace MapCodec

/-- MSB-first bit representation of the low `n` bits of `v`
(the writer's `writeBits(n, value)` payload, spec §4.1). -/
def natBits : Nat → Nat → List Bool
  | 0, _ => []
  | n + 1, v => natBits n (v / 2) ++ [v % 2 == 1]

/-- Reassemble a natural number from MSB-first bits. -/
def bitsToNat (bs : List Bool) : Nat :=
  bs.foldl (fun acc b => acc * 2 + (if b then 1 else 0)) 0

/-- `Math.ceil(Math.log2 n)` for `n ≥ 1` (the smallest `k` with `n ≤ 2 ^ k`);
the source never calls it on `0` on the paths we verify (we return `0` there,
where JavaScript would produce `-Infinity`). -/
def ceilLog2Aux : Nat → Nat → Nat → Nat
  | 0, _, _ => 0
  | fuel + 1, n, k => if n ≤ 2 ^ k then k else ceilLog2Aux fuel n (k + 1)

/-- `Math.ceil(Math.log2 n)`. -/
def ceilLog2 (n : Nat) : Nat := ceilLog2Aux n n 0

/-- Error conditions of the codec (spec §7).  `diverged` is the model's name
for a source `while` loop that never terminates.  `invalidInput` is listed in
the spec but, as proved below, never produced by the code. -/
inductive CodecError where
  | unsupportedVersion (v : Nat)
  | unknownTileType (id : Nat)
  | stringTooLong
  | invalidString
  | truncated
  | invalidInput
  | diverged
deriving DecidableEq, Repr

/-- A palette entry (`TileType` in `MapCodec.ts`); strings are modelled as
lists of byte values. -/
structure TileType where
  name : List Nat
  colorBase : List Nat
  colorVariant : Nat
  conquerable : Bool
  navigable : Bool
  expansionTime : Nat
  expansionCost : Nat
deriving DecidableEq, Repr

/-- `RawMapData` from `MapCodec.ts`: `tiles` is the row-major `Uint16Array`. -/
structure RawMapData where
  width : Nat
  height : Nat
  tiles : List Nat
  types : List TileType
deriving DecidableEq, Repr

def CURRENT_VERSION : Nat := 0
def MINIMUM_VERSION : Nat := 0

/-! ### Bit writer (modelled from the spec: `LazyWriter`, spec §4.1) -/

/-- The writer state: the bits emitted so far, oldest first. -/
abbrev W := List Bool

/-- Modelled from the spec: `LazyWriter.writeBits(n, value)` appends the `n`
MSB-first bits of `value`. -/
def writeBits (n value : Nat) (w : W) : W := w ++ natBits n value

/-- Modelled from the spec: `LazyWriter.writeBoolean` writes one bit. -/
def writeBoolean (b : Bool) (w : W) : W := w ++ [b]

/-- Modelled from the spec: `LazyWriter.writeString(maxChars, s)` writes a
`ceil(log2(maxChars+1))`-bit length then the bytes; fails with
`StringTooLong` when the string exceeds `maxChars`. -/
def writeString (maxChars : Nat) (s : List Nat) (w : W) : Except CodecError W :=
  if s.length > maxChars then .error .stringTooLong
  else .ok (s.foldl (fun acc c => writeBits 8 c acc)
    (writeBits (ceilLog2 (maxChars + 1)) s.length w))

/-- Byte packing loop; each step consumes at least one bit, so fuel equal to
the number of bits is always sufficient. -/
def packBytesGo : Nat → List Bool → List Nat
  | 0, _ => []
  | _ + 1, [] => []
  | fuel + 1, b :: rest =>
    let grp := (b :: rest).take 8
    bitsToNat (grp ++ List.replicate (8 - grp.length) false) :: packBytesGo fuel (rest.drop 7)

/-- Modelled from the spec: `LazyWriter.compress` packs the bits into bytes,
padding the final byte with zero bits. -/
def packBytes (bs : List Bool) : List Nat := packBytesGo bs.length bs

/-! ### Bit reader (modelled from the spec: `StreamReader`, spec §4.1) -/

/-- Modelled from the spec: `StreamReader.readBits(n)`; reading past the end
fails with `Truncated`. -/
def readBits (n : Nat) (s : List Bool) : Except CodecError (Nat × List Bool) :=
  if s.length < n then .error .truncated
  else .ok (bitsToNat (s.take n), s.drop n)

/-- Modelled from the spec: `StreamReader.readBoolean()`. -/
def readBoolean (s : List Bool) : Except CodecError (Bool × List Bool) := do
  let (v, s) ← readBits 1 s
  .ok (v == 1, s)

/-- Helper for `readString`: read `n` bytes of 8 bits each. -/
def readStringBytes : Nat → List Bool → List Nat → Except CodecError (List Nat × List Bool)
  | 0, s, acc => .ok (acc, s)
  | n + 1, s, acc => do
    let (c, s) ← readBits 8 s
    readStringBytes n s (acc ++ [c])

/-- Modelled from the spec: `StreamReader.readString(maxChars)`; fails with
`InvalidString` when the declared length exceeds `maxChars`. -/
def readString (maxChars : Nat) (s : List Bool) : Except CodecError (List Nat × List Bool) := do
  let (len, s) ← readBits (ceilLog2 (maxChars + 1)) s
  if len > maxChars then .error .invalidString
  else readStringBytes len s []

/-- The bit stream of a byte array (`new StreamReader(data)`). -/
def bytesToBits (data : List Nat) : List Bool := (data.map (natBits 8)).flatten

/-! ### MapDecoder (`src/MapDecoder.ts`) -/

/-- Write into a `Uint16Array` at a possibly negative / out-of-range index:
such writes are silently dropped in JavaScript. -/
def setCell (res : List Nat) (i : Int) (v : Nat) : List Nat :=
  if i < 0 then res else res.set i.toNat (v % 65536)

/-- `MapDecoder.readTypeMap`, the per-entry loop. -/
def readTypeMapLoop : Nat → List Bool → List TileType → Except CodecError (List TileType × List Bool)
  | 0, s, acc => .ok (acc, s)
  | n + 1, s, acc => do
    let (_, s) ← readBits 3 s
    let (name, s) ← readString 32 s
    let (colorBase, s) ← readString 16 s
    let (colorVariant, s) ← readBits 4 s
    let (conquerable, s) ← readBoolean s
    let (navigable, s) ← readBoolean s
    let (expansionTime, s) ← readBits 8 s
    let (expansionCost, s) ← readBits 8 s
    readTypeMapLoop n s (acc ++
      [⟨name, colorBase, colorVariant, conquerable, navigable, expansionTime, expansionCost⟩])

/-- `MapDecoder.readTypeMap`. -/
def readTypeMap (s : List Bool) : Except CodecError (List TileType × List Bool) := do
  let (typeMapLength, s) ← readBits 16 s
  readTypeMapLoop typeMapLength s []

/-- The `while (reader.readBoolean()) currentChunk++` loop of
`MapDecoder.putLines`. -/
def readChunkAdvance : List Bool → Nat → Except CodecError (Nat × List Bool)
  | [], _ => .error .truncated
  | b :: s, c => if b then readChunkAdvance s (c + 1) else .ok (c, s)

/-- The inner step loop of `MapDecoder.putLines` (`for j = 1; j < length`). -/
def putLineSteps : Nat → List Bool → List Nat → List Int → Int → Nat → Nat →
    Except CodecError (List Nat × List Int × List Bool)
  | 0, s, result, valueMap, _, _, _ => .ok (result, valueMap, s)
  | j + 1, s, result, valueMap, position, type, w => do
    let (diff, s) ← readBits 2 s
    let position := position +
      (if diff = 0 then 1 else if diff = 1 then -1 else if diff = 2 then (w : Int) else -(w : Int))
    let result := setCell result position type
    let valueMap := position :: valueMap
    putLineSteps j s result valueMap position type w

/-- The per-line loop of `MapDecoder.putLines`. -/
def putLinesLoop : Nat → List Bool → List Nat → List Int → Nat → Nat → Nat →
    Except CodecError (List Nat × List Int × List Bool)
  | 0, s, result, valueMap, _, _, _ => .ok (result, valueMap, s)
  | i + 1, s, result, valueMap, currentChunk, w, typeLength => do
    let (currentChunk, s) ← readChunkAdvance s currentChunk
    let (_, s) ← readBits 1 s
    let (lengthMinus1, s) ← readBits 8 s
    let length := lengthMinus1 + 1
    let (type, s) ← readBits typeLength s
    let (pos0, s) ← readBits 10 s
    let chunkWidth := (w + 31) / 32
    let position : Int := (pos0 % 32 : Nat) + (currentChunk % chunkWidth) * 32 +
      (pos0 / 32) * w + (currentChunk / chunkWidth) * 32 * w
    let result := setCell result position type
    let valueMap := position :: valueMap
    let (result, valueMap, s) ← putLineSteps (length - 1) s result valueMap position type w
    putLinesLoop i s result valueMap currentChunk w typeLength

/-- `MapDecoder.putLines`. -/
def putLines (s : List Bool) (result : List Nat) (w : Nat) (typeLength : Nat) :
    Except CodecError (List Nat × List Int × List Bool) := do
  let (lineCount, s) ← readBits 32 s
  putLinesLoop lineCount s result [] 0 w typeLength

/-- `MapDecoder.fillLinesLeftToRight`. -/
def fillLinesLeftToRight (result : List Nat) (valueMap : List Int) : List Nat :=
  ((List.range result.length).foldl (fun st (i : Nat) =>
    let current := if ((i : Int) ∈ valueMap) then st.1.getD i 0 else st.2
    (st.1.set i current, current)) (result, 0)).1

/-- The loop body / index stepping of `MapDecoder.fillLinesTopToBottom`,
with fuel for the non-structural `for` loop. -/
def fillT2BGo : Nat → Nat → List Nat → Nat → List Int → Nat → List Nat
  | 0, _, res, _, _, _ => res
  | fuel + 1, i, res, current, valueMap, w =>
    if i < res.length - 1 then
      let current := if ((i : Int) ∈ valueMap) then res.getD i 0 else current
      let res := res.set i current
      let i' := if i ≥ res.length - w then (i + 1) % w else i + w
      fillT2BGo fuel i' res current valueMap w
    else res

/-- `MapDecoder.fillLinesTopToBottom`.  The loop runs at most
`result.length` times (it stops at the last cell), so that much fuel is
always sufficient. -/
def fillLinesTopToBottom (result : List Nat) (valueMap : List Int) (w : Nat) : List Nat :=
  fillT2BGo result.length 0 result 0 valueMap w

/-- `MapDecoder.readCompressed`. -/
def readCompressed (s : List Bool) (w h : Nat) : Except CodecError (RawMapData × List Bool) := do
  let (_, s) ← readBits 8 s
  let (direction, s) ← readBoolean s
  let (_, s) ← readBits 1 s
  let (tileTypes, s) ← readTypeMap s
  let typeLength := ceilLog2 tileTypes.length
  let result := List.replicate (w * h) 0
  let (result, valueMap, s) ← putLines s result w typeLength
  let result := if direction then fillLinesTopToBottom result valueMap w
    else fillLinesLeftToRight result valueMap
  .ok ({ width := w, height := h, tiles := result, types := tileTypes }, s)

/-- `decodeMap` from `MapCodec.ts`. -/
def decodeMap (data : List Nat) : Except CodecError RawMapData := do
  let s := bytesToBits data
  let (version, s) ← readBits 4 s
  if version > CURRENT_VERSION ∨ version < MINIMUM_VERSION then
    .error (.unsupportedVersion version)
  else do
    let (w, s) ← readBits 16 s
    let (h, s) ← readBits 16 s
    let (result, s) ← readCompressed s w h
    let (_, _s) ← readBits 8 s
    .ok result

/-! ### ZoneCalculator (`src/util/ZoneCalculator.ts`) -/

/-- A zone (`TileZone`).  The source stores in every zone a reference to the
single shared `zoneMap` array (`tileMap`) which is still being mutated by
later flood fills; we model that sharing by returning the final map once from
`buildZones` instead of storing it per zone.  The `leftBorderMap` /
`topBorderMap` membership arrays are maintained in lockstep with the border
lists (an index is set in the map exactly when the cell is pushed onto the
list), so membership in the list is used for them. -/
structure TileZone where
  id : Nat
  leftBorder : List Nat
  topBorder : List Nat
deriving DecidableEq, Repr

/-- The `while (stackPointer > 0)` loop of `ZoneCalculator.exploreZone`.
The JavaScript stack pushes at the end and pops from the end; we push with
`::` and pop the head, which yields the same pop order.  Out-of-range
`zoneMap` reads are `undefined` (falsy, like `0`: `getD _ 0`), out-of-range
writes are dropped (`List.set`), and `Uint16Array` stores values mod `2^16`.
Returns `(zoneMap, leftBorder, topBorder)`. -/
def exploreZoneGo : Nat → List Nat → Nat → List Nat → List Nat → Nat → List Nat → List Nat →
    Option (List Nat × List Nat × List Nat)
  | 0, _, _, _, _, _, _, _ => none
  | fuel + 1, tileTypes, width, stack, zoneMap, zoneId, leftBorder, topBorder =>
    match stack with
    | [] => some (zoneMap, leftBorder, topBorder)
    | current :: stack =>
      if zoneMap.getD current 0 ≠ 0 then
        exploreZoneGo fuel tileTypes width stack zoneMap zoneId leftBorder topBorder
      else
        let zoneMap := zoneMap.set current (zoneId % 65536)
        let (stack, leftBorder) :=
          if current % width ≠ 0 ∧ tileTypes[current - 1]? = tileTypes[current]? then
            ((current - 1) :: stack, leftBorder)
          else if current ∉ leftBorder then (stack, leftBorder ++ [current])
          else (stack, leftBorder)
        let stack :=
          if current % width ≠ width - 1 ∧ tileTypes[current + 1]? = tileTypes[current]? then
            (current + 1) :: stack
          else stack
        let (stack, topBorder) :=
          if current ≥ width ∧ tileTypes[current - width]? = tileTypes[current]? then
            ((current - width) :: stack, topBorder)
          else if current ∉ topBorder then (stack, topBorder ++ [current])
          else (stack, topBorder)
        let stack :=
          if current < tileTypes.length - width ∧ tileTypes[current + width]? = tileTypes[current]? then
            (current + width) :: stack
          else stack
        exploreZoneGo fuel tileTypes width stack zoneMap zoneId leftBorder topBorder

/-- Fuel that is always sufficient for the loops of `buildZones` on inputs on
which the source terminates (each source iteration either pops an
already-marked cell — and at most `1 + 4·marks` cells are ever pushed — or
marks a previously unmarked in-range cell). -/
def exploreFuel (data : RawMapData) : Nat :=
  5 * (data.tiles.length + data.width * data.height) + 5

/-- `ZoneCalculator.exploreZone`. -/
def exploreZone (fuel : Nat) (tile : Nat) (tileTypes : List Nat) (width : Nat)
    (zoneMap : List Nat) (zoneId : Nat) : Option (TileZone × List Nat) :=
  (exploreZoneGo fuel tileTypes width [tile] zoneMap zoneId [] []).map fun r =>
    ({ id := tileTypes.getD tile 0, leftBorder := r.2.1, topBorder := r.2.2 }, r.1)

/-- `ZoneCalculator.buildZones`; returns the zones and the (shared) zone map. -/
def buildZones (data : RawMapData) : Option (List TileZone × List Nat) :=
  (List.range data.tiles.length).foldl (fun st i =>
    match st with
    | none => none
    | some (zones, zoneMap) =>
      if zoneMap.getD i 0 = 0 then
        match exploreZone (exploreFuel data) i data.tiles data.width zoneMap (zones.length + 1) with
        | none => none
        | some (zone, zoneMap) => some (zones ++ [zone], zoneMap)
      else st) (some ([], List.replicate (data.width * data.height) 0))

/-! ### MapEncoder (`src/MapEncoder.ts`) -/

/-- `RawLineData`: a candidate connection between border points `from` and
`to` (indices into the border list) through intermediate cells `path`. -/
structure RawLineData where
  from_ : Nat
  to_ : Nat
  path : List Nat
deriving DecidableEq, Repr

/-- `LineData`: a line to emit, `id` is the (remapped) type id. -/
structure LineData where
  id : Nat
  line : List Nat
deriving DecidableEq, Repr

/-- Read a `Uint16Array` at a possibly negative index (`undefined` if out of
range, which compares unequal to every number). -/
def tileMapAt (tm : List Nat) (i : Int) : Option Nat :=
  if i < 0 then none else tm[i.toNat]?

/-- The BFS loop of `MapEncoder.calculatePaths`; the queue holds
`(point, path)` pairs (source `open` / `paths`), `visited` is the set of
visited cells and `acc` the recorded `(point, path)` results in insertion
order (a JS `Map` iterates in insertion order; each point is recorded at most
once because `visited` prevents re-queuing). -/
def calculatePathsGo : Nat → Nat → List Nat → Nat → List Nat → List (Nat × List Nat) →
    List Nat → List (Nat × List Nat) → Option (List (Nat × List Nat))
  | 0, _, _, _, _, _, _, _ => none
  | fuel + 1, width, pointMap, zoneId, tileMap, queue, visited, acc =>
    match queue with
    | [] => some acc
    | (point, path) :: rest =>
      let acc := if point ∈ pointMap then acc ++ [(point, path.dropLast)] else acc
      if path.length < 8 then
        let step := fun (st : List (Nat × List Nat) × List Nat) (next : Int) =>
          if tileMapAt tileMap next = some zoneId ∧ next.toNat ∉ st.2 then
            (st.1 ++ [(next.toNat, path ++ [next.toNat])], next.toNat :: st.2)
          else st
        let (newEntries, visited) :=
          [(point : Int) - 1, (point : Int) + 1, (point : Int) - width, (point : Int) + width].foldl
            step ([], visited)
        calculatePathsGo fuel width pointMap zoneId tileMap (rest ++ newEntries) visited acc
      else calculatePathsGo fuel width pointMap zoneId tileMap rest visited acc

/-- `MapEncoder.calculatePaths`: BFS from `start` through cells of the zone,
paths limited to 8 tiles. -/
def calculatePaths (fuel : Nat) (start : Nat) (width : Nat) (pointMap : List Nat)
    (zoneId : Nat) (tileMap : List Nat) : Option (List (Nat × List Nat)) :=
  calculatePathsGo fuel width pointMap zoneId tileMap [(start, [])] [start] []

/-- Bucket update for `calculateConnections` (`connectionMap[path.length].push`). -/
def pushBucket (buckets : List (List RawLineData)) (d : Nat) (c : RawLineData) :
    List (List RawLineData) :=
  buckets.set d (buckets.getD d [] ++ [c])

/-- The outer loop of `MapEncoder.calculateConnections`: for each border point
`i`, BFS, then record each connection once (`index < i`).  A recorded point is
always a member of `pointMap`; if it were missing from `points`,
`points.indexOf` would yield `-1` and the source would corrupt its state, so
the model reports `none` (the call sites always pass matching lists). -/
def calculateConnectionsGo (fuel width zoneId : Nat) (points pointMap tileMap : List Nat) :
    Nat → List (List RawLineData) → Option (List (List RawLineData))
  | 0, buckets => some buckets
  | n + 1, buckets => do
    let i := points.length - (n + 1)
    let paths ← calculatePaths fuel (points.getD i 0) width pointMap zoneId tileMap
    let buckets ← paths.foldlM (fun buckets (pp : Nat × List Nat) => do
      match points.findIdx? (· = pp.1) with
      | none => none
      | some index =>
        if index ≥ i then pure buckets
        else pure (pushBucket buckets pp.2.length ⟨i, index, pp.2⟩)) buckets
    calculateConnectionsGo fuel width zoneId points pointMap tileMap n buckets

/-- `MapEncoder.calculateConnections`: all candidate connections, bucketed by
path length (8 buckets). -/
def calculateConnections (fuel width zoneId : Nat) (points pointMap tileMap : List Nat) :
    Option (List (List RawLineData)) :=
  calculateConnectionsGo fuel width zoneId points pointMap tileMap points.length
    (List.replicate 8 [])

/-- `MapEncoder.concatSegment`. -/
def concatSegment (segment : List Nat) (path : List Nat) (ending toAdd : Nat) : List Nat :=
  if segment.head? = some ending then toAdd :: (path ++ segment)
  else segment ++ path.reverse ++ [toAdd]

/-- The value `connectSegments` returns: written on the segment as left by the
in-place mutations of the source (`segmentA.reverse()` mutates `segmentA`). -/
def connectSegmentsRet (a : List Nat) (startA : Nat) : Nat :=
  if a.head? = some startA then a.getLastD 0 else a.headD 0

/-- `MapEncoder.connectSegments`: splice two segments through `path`;
returns the new combined segment (stored in `segmentB`'s slot) and the new
starting value of the combined segment. -/
def connectSegments (segmentA segmentB : List Nat) (startA startB : Nat) (path : List Nat) :
    List Nat × Nat :=
  if segmentB.head? = some startB then
    if segmentA.head? = some startA then
      (segmentA.reverse ++ path ++ segmentB, connectSegmentsRet segmentA.reverse startA)
    else
      (segmentA ++ path ++ segmentB, connectSegmentsRet segmentA startA)
  else
    if segmentA.head? = some startA then
      (segmentB ++ path.reverse ++ segmentA, connectSegmentsRet segmentA startA)
    else
      (segmentB ++ path.reverse ++ segmentA.reverse, connectSegmentsRet segmentA.reverse startA)

/-- `MapEncoder.processConnection`.  Returns `(connected?, segments,
segmentMap)`.  Branches where the source would dereference `undefined`
(a `segmentMap` entry missing although the point's degree is positive —
impossible, as proved below) are modelled as `none`. -/
def processConnection (fromIsNew toIsNew : Bool) (conn : RawLineData)
    (segments : List (List Nat)) (border : List Nat) (segmentMap : List (Nat × Nat)) :
    Option (Bool × List (List Nat) × List (Nat × Nat)) :=
  let valueFrom := border.getD conn.from_ 0
  let valueTo := border.getD conn.to_ 0
  if fromIsNew ∧ toIsNew then
    some (true, segments ++ [valueFrom :: (conn.path ++ [valueTo])],
      (conn.from_, segments.length) :: (conn.to_, segments.length) :: segmentMap)
  else if fromIsNew then
    match segmentMap.lookup conn.to_ with
    | none => none
    | some s =>
      match segments[s]? with
      | none => none
      | some seg =>
        some (true, segments.set s (concatSegment seg conn.path valueTo valueFrom),
          (conn.from_, s) :: segmentMap)
  else if toIsNew then
    match segmentMap.lookup conn.from_ with
    | none => none
    | some s =>
      match segments[s]? with
      | none => none
      | some seg =>
        some (true, segments.set s (concatSegment seg conn.path.reverse valueFrom valueTo),
          (conn.to_, s) :: segmentMap)
  else
    match segmentMap.lookup conn.from_, segmentMap.lookup conn.to_ with
    | some sf, some st =>
      if sf ≠ st then
        match segments[sf]?, segments[st]? with
        | some segA, some segB =>
          let r := connectSegments segA segB valueFrom valueTo conn.path
          let segments := (segments.set st r.1).set sf []
          let segmentMap := match border.findIdx? (· = r.2) with
            | some iu => (iu, st) :: segmentMap
            | none => segmentMap
          some (true, segments, segmentMap)
        | _, _ => none
      else some (false, segments, segmentMap)
    | _, _ => none

/-- One bucket of the stitching loop of `MapEncoder.calculateNeededLines`:
the degree cap (`connectionCount[·] >= 2`) skip, `processConnection`, and the
degree increments. -/
def stitchBucket (border : List Nat) :
    List RawLineData → List (List Nat) × List (Nat × Nat) × List Nat →
    Option (List (List Nat) × List (Nat × Nat) × List Nat)
  | [], st => some st
  | conn :: conns, (segments, segmentMap, degree) =>
    if degree.getD conn.from_ 0 ≥ 2 ∨ degree.getD conn.to_ 0 ≥ 2 then
      stitchBucket border conns (segments, segmentMap, degree)
    else
      match processConnection (degree.getD conn.from_ 0 = 0) (degree.getD conn.to_ 0 = 0)
        conn segments border segmentMap with
      | none => none
      | some (connected, segments, segmentMap) =>
        if connected then
          stitchBucket border conns (segments, segmentMap,
            (degree.set conn.from_ (degree.getD conn.from_ 0 + 1)).set conn.to_
              ((degree.set conn.from_ (degree.getD conn.from_ 0 + 1)).getD conn.to_ 0 + 1))
        else stitchBucket border conns (segments, segmentMap, degree)

/-- The bucket loop (`for depth`) of `MapEncoder.calculateNeededLines`. -/
def stitchAll (border : List Nat) :
    List (List RawLineData) → List (List Nat) × List (Nat × Nat) × List Nat →
    Option (List (List Nat) × List (Nat × Nat) × List Nat)
  | [], st => some st
  | bucket :: buckets, st => do
    let st ← stitchBucket border bucket st
    stitchAll border buckets st

/-- Total number of cells in a list of segments (termination measure for
`cropLines`). -/
def sumLen (ls : List (List Nat)) : Nat := ls.foldr (fun l n => l.length + n) 0

theorem sumLen_append (a b : List (List Nat)) : sumLen (a ++ b) = sumLen a + sumLen b := by
  induction a with
  | nil => simp [sumLen]
  | cons x xs ih => simp [sumLen] at ih ⊢; omega

/-- The loop of `MapEncoder.cropLines` with fuel: each iteration handles one
array slot, and cropping a segment appends one new slot while removing 256
cells, so `ls.length + sumLen ls` iterations always suffice (proved in
`cropLinesGo_length_le` below). -/
def cropLinesGo : Nat → List (List Nat) → List (List Nat)
  | 0, ls => ls
  | _ + 1, [] => []
  | fuel + 1, l :: rest =>
    if l.length > 256 then l.take 256 :: cropLinesGo fuel (rest ++ [l.drop 256])
    else l :: cropLinesGo fuel rest

/-- `MapEncoder.cropLines`: the `for` loop re-reads `lines.length`, so tails
pushed for over-long segments are themselves revisited (and re-cropped) when
the index reaches them. -/
def cropLines (ls : List (List Nat)) : List (List Nat) :=
  cropLinesGo (ls.length + sumLen ls) ls

/-- `MapEncoder.addSingles`: a singleton line for each border point of
degree 0, in border order. -/
def addSingles (border : List Nat) (degree : List Nat) (lines : List (List Nat)) :
    List (List Nat) :=
  lines ++ ((List.range border.length).filter (fun i => degree.getD i 0 = 0)).map
    (fun i => [border.getD i 0])

/-- `MapEncoder.calculateNeededLines`. -/
def calculateNeededLines (fuel width : Nat) (points pointMap : List Nat) (zoneId : Nat)
    (tileMap : List Nat) : Option (List (List Nat)) := do
  let connectionMap ← calculateConnections fuel width zoneId points pointMap tileMap
  let (segments, _, degree) ← stitchAll points connectionMap
    ([], [], List.replicate points.length 0)
  let segments := cropLines segments
  let segments := addSingles points degree segments
  some (segments.filter (fun segment => segment.length > 0))

/-- The starting chunk id of a cell (`chunkY * ceil(width/32) + chunkX`),
as computed in `checkChunk`, `chunkLines` and `calculateCost`. -/
def chunkOfCell (width cell : Nat) : Nat :=
  ((cell / width) / 32) * ((width + 31) / 32) + (cell % width) / 32

/-- The chunk id of a line's first cell. -/
def chunkOfLine (width : Nat) (l : LineData) : Nat := chunkOfCell width (l.line.headD 0)

/-- The ordering the sort comparator of `chunkLines` induces: by the chunk id
of the line's first cell. -/
def chunkLE (width : Nat) (a b : LineData) : Prop := chunkOfLine width a ≤ chunkOfLine width b

instance (width : Nat) : IsTotal LineData (chunkLE width) :=
  ⟨fun a b => Nat.le_total _ _⟩

instance (width : Nat) : IsTrans LineData (chunkLE width) :=
  ⟨fun _ _ _ => Nat.le_trans⟩

instance (width : Nat) : DecidableRel (chunkLE width) :=
  fun _ _ => Nat.decLe _ _

/-- `MapEncoder.chunkLines` sorts the lines in place by the chunk id of their
first cell.  The source calls `Array.prototype.sort` with the comparator
`chunkMap[lines.indexOf(a)] - chunkMap[lines.indexOf(b)]`; per ECMA-262 the
elements are read out before sorting (so `indexOf` sees the original array and
returns each fresh object's original index, i.e. the comparator compares the
precomputed chunk ids) and the sort is stable.  A stable sort by a total key
is extensionally unique, so it is modelled by `List.insertionSort`. -/
def chunkLines (width : Nat) (lines : List LineData) : List LineData :=
  lines.insertionSort (chunkLE width)

/-- `MapEncoder.calculateCost`. -/
def calculateCost (width : Nat) (lines : List LineData) (typeLength : Nat) : Int :=
  (lines.foldl (fun (st : Int × Int) line =>
    let chunk : Int := chunkOfLine width line
    (st.1 + ((line.line.length : Int) - 1) * 2 + 20 + typeLength + (chunk - st.2), chunk))
    (0, 0)).1

/-- Gather the lines of every zone (the two `linesL2R` / `linesT2B` loops of
`MapEncoder.calculateLines`); `useTop` selects the top border. -/
def collectLines (fuel width : Nat) (tileMap : List Nat) (useTop : Bool) :
    Nat → List TileZone → Option (List LineData)
  | _, [] => some []
  | zoneId, zone :: rest => do
    let pts := if useTop then zone.topBorder else zone.leftBorder
    let segs ← calculateNeededLines fuel width pts pts (zoneId + 1) tileMap
    let more ← collectLines fuel width tileMap useTop (zoneId + 1) rest
    some (segs.map (fun line => { id := zone.id, line := line }) ++ more)

/-- `MapEncoder.calculateLines`: build both candidates, chunk-sort them,
compare costs, write the direction boolean, return the cheaper candidate. -/
def calculateLines (wr : W) (fuel width : Nat) (zones : List TileZone) (tileMap : List Nat)
    (typeLength : Nat) : Option (W × List LineData) := do
  let linesL2R ← collectLines fuel width tileMap false 0 zones
  let linesT2B ← collectLines fuel width tileMap true 0 zones
  let linesL2R := chunkLines width linesL2R
  let linesT2B := chunkLines width linesT2B
  let costL2R := calculateCost width linesL2R typeLength
  let costT2B := calculateCost width linesT2B typeLength
  let wr := writeBoolean (costL2R > costT2B) wr
  some (wr, if costL2R > costT2B then linesT2B else linesL2R)

/-- `MapEncoder.validateTileTypeUsage`: check every zone's type id is in
range (else `UnknownTileType`), collect the used types in original order and
remap each zone's id to its index among them. -/
def validateTileTypeUsage (types : List TileType) (zones : List TileZone) :
    Except CodecError (List TileType × List TileZone) :=
  match zones.find? (fun zone => decide (types.length ≤ zone.id)) with
  | some zone => .error (.unknownTileType zone.id)
  | none =>
    let usedIdx := (List.range types.length).filter (fun i => zones.any (fun z => z.id = i))
    let usedTypes := usedIdx.filterMap (fun i => types[i]?)
    .ok (usedTypes, zones.map (fun z => { z with id := usedIdx.indexOf z.id }))

/-- `MapEncoder.checkChunk`: emit one `1` bit per chunk advance and a
terminating `0`.  If the line's chunk were smaller than the current chunk the
source's `while` loop would never terminate; the chunk-sorted call sites make
that impossible. -/
def checkChunk (width currentChunk position : Nat) (wr : W) : Except CodecError (W × Nat) :=
  let chunk := chunkOfCell width position
  if chunk < currentChunk then .error .diverged
  else .ok (wr ++ List.replicate (chunk - currentChunk) true ++ [false], chunk)

/-- The 2-bit step code of `MapEncoder.writeLines`
(`diff === 1 ? 0 : diff === -1 ? 1 : diff === width ? 2 : 3`). -/
def stepCode (width prev cur : Nat) : Nat :=
  let diff : Int := (cur : Int) - (prev : Int)
  if diff = 1 then 0 else if diff = -1 then 1 else if diff = (width : Int) then 2 else 3

/-- The step loop of `MapEncoder.writeLines` (`for i = 1; i < length`). -/
def writeSteps (wr : W) (width : Nat) : Nat → List Nat → W
  | _, [] => wr
  | prev, c :: rest => writeSteps (writeBits 2 (stepCode width prev c) wr) width c rest

/-- The in-chunk position of a line's first cell, 10 bits
(`(x mod 32) + (y mod 32) * 32`). -/
def positionInChunk (width cell : Nat) : Nat :=
  (cell % width) % 32 + (cell / width) % 32 * 32

/-- The per-line loop of `MapEncoder.writeLines`. -/
def writeLinesLoop (width typeLength : Nat) :
    List LineData → W → Nat → Except CodecError W
  | [], wr, _ => .ok wr
  | line :: rest, wr, currentChunk => do
    let (wr, currentChunk) ← checkChunk width currentChunk (line.line.headD 0) wr
    let wr := writeBits 1 0 wr
    let wr := writeBits 8 (line.line.length - 1) wr
    let wr := writeBits typeLength line.id wr
    let wr := writeBits 10 (positionInChunk width (line.line.headD 0)) wr
    let wr := match line.line with
      | [] => wr
      | c :: cs => writeSteps wr width c cs
    writeLinesLoop width typeLength rest wr currentChunk

/-- `MapEncoder.writeLines`. -/
def writeLines (wr : W) (width : Nat) (lines : List LineData) (typeLength : Nat) :
    Except CodecError W :=
  writeLinesLoop width typeLength lines (writeBits 32 lines.length wr) 0

/-- `MapEncoder.writeTypeMap`: note it writes the full original palette. -/
def writeTypeMap (wr : W) (typeMap : List TileType) : Except CodecError W := do
  typeMap.foldlM (fun wr t => do
    let wr := writeBits 3 0 wr
    let wr ← writeString 32 t.name wr
    let wr ← writeString 16 t.colorBase wr
    let wr := writeBits 4 t.colorVariant wr
    let wr := writeBoolean t.conquerable wr
    let wr := writeBoolean t.navigable wr
    let wr := writeBits 8 t.expansionTime wr
    pure (writeBits 8 t.expansionCost wr)) (writeBits 16 typeMap.length wr)

/-- `MapEncoder.writeCompressed`.  The type-id bit width is computed from the
compacted (used) palette, although `writeTypeMap` emits the full palette. -/
def writeCompressed (wr : W) (data : RawMapData) : Except CodecError W := do
  let wr := writeBits 8 0 wr
  let width := data.width
  match buildZones data with
  | none => .error .diverged
  | some (zones, zoneMap) => do
    let (types, zones) ← validateTileTypeUsage data.types zones
    let typeLength := ceilLog2 types.length
    match calculateLines wr (exploreFuel data) width zones zoneMap typeLength with
    | none => .error .diverged
    | some (wr, lines) => do
      let wr := writeBits 1 0 wr
      let wr ← writeTypeMap wr data.types
      writeLines wr width lines typeLength

/-- `encodeMap` from `MapCodec.ts`. -/
def encodeMap (data : RawMapData) : Except CodecError (List Nat) := do
  let wr : W := []
  let wr := writeBits 4 CURRENT_VERSION wr
  let wr := writeBits 16 data.width wr
  let wr := writeBits 16 data.height wr
  let wr ← writeCompressed wr data
  let wr := writeBits 8 0 wr
  .ok (packBytes wr)

/-- The per-line type-id bit width computed inside `MapEncoder.writeCompressed`
(`Math.ceil(Math.log2(types.length))` over the compacted, *used* palette). -/
def writeCompressedTypeLength (data : RawMapData) : Except CodecError Nat :=
  match buildZones data with
  | none => .error .diverged
  | some (zones, _) =>
    (validateTileTypeUsage data.types zones).map (fun r => ceilLog2 r.1.length)

/-- The per-line type-id bit width computed inside `MapDecoder.readCompressed`
(`Math.ceil(Math.log2(tileTypes.length))` over the full *transmitted*
palette), reading from the stream position at which `readCompressed` starts
(after the 4-bit version and the two 16-bit dimensions). -/
def readCompressedTypeLength (s : List Bool) : Except CodecError Nat := do
  let (_, s) ← readBits 8 s
  let (_, s) ← readBoolean s
  let (_, s) ← readBits 1 s
  let (tileTypes, _) ← readTypeMap s
  pure (ceilLog2 tileTypes.length)

end MapCodec

deriving instance DecidableEq for Except

namespace MapCodec

/-! ### Concrete test fixtures -/

/-- A minimal palette entry. -/
def T0 : TileType := ⟨[], [], 0, false, false, 0, 0⟩

/-- A second, distinguishable palette entry. -/
def T1 : TileType := ⟨[], [], 1, true, false, 7, 9⟩

/-- A valid 1×1 map whose single tile uses palette entry 1, leaving entry 0
unused: palette compaction then renumbers the tile to 0 and the encoder emits
0 type bits while the decoder reads `ceil(log2 2) = 1` type bit. -/
def mapC1 : RawMapData := ⟨1, 1, [1], [T0, T1]⟩

/-- A map whose `tiles` array (2 entries) does not match
`width * height = 1`. -/
def mapC8 : RawMapData := ⟨1, 1, [0, 0], [T0]⟩

/-! ### C1: the encode/decode round trip -/

set_option maxRecDepth 100000 in
/-- **C1**: the claim states that for every valid `RawMap` the decode of the
encode returns the same tiles and the same (full) palette.  This fails on the
code: for `mapC1` (tiles `[1]`, palette `[T0, T1]` with `T0` unused) the
encoder remaps the tile to compacted id 0 and writes its type id with
`ceil(log2 1) = 0` bits, while the decoder dereferences the full transmitted
palette, so the decoded tiles are `[0]` instead of `[1]`. -/
theorem roundtrip_fails_on_unused_palette_entry :
    Except.bind (encodeMap mapC1) decodeMap =
      .ok { width := 1, height := 1, tiles := [0], types := [T0, T1] } ∧
    mapC1.tiles = [1] ∧ ([0] : List Nat) ≠ [1] := by
  refine ⟨by decide, by decide, by decide⟩

/-! ### C2: the type-id bit width -/

set_option maxRecDepth 100000 in
/-- **C2**: the claim states that encoder and decoder use the same type-id
width `ceil(log2 |usedTypes|)`.  In the code the encoder does use the used
palette (here: width 0) but the decoder computes the width from the full
transmitted palette (here: `ceil(log2 2) = 1` bit), so the line records are
misparsed whenever some palette entry is unused. -/
theorem typeBits_encoder_decoder_mismatch :
    writeCompressedTypeLength mapC1 = .ok 0 ∧
    (match encodeMap mapC1 with
      | .ok bs => readCompressedTypeLength ((bytesToBits bs).drop 36)
      | .error e => .error e) = .ok 1 := by
  refine ⟨by decide, by decide⟩

/-! ### C7: the version gate -/

/-- `x` is not an `UnsupportedVersion` failure. -/
def NoUV {α : Type} (x : Except CodecError α) : Prop :=
  ∀ v, x ≠ .error (.unsupportedVersion v)

theorem NoUV.bind {α β : Type} {f : Except CodecError α} {g : α → Except CodecError β}
    (hf : NoUV f) (hg : ∀ a, NoUV (g a)) : NoUV (f >>= g) := by
  intro v h
  cases hfe : f with
  | error e =>
    rw [hfe] at h
    have he : e = .unsupportedVersion v := by
      simpa [Bind.bind, Except.bind] using h
    exact hf v (by rw [hfe, he])
  | ok a =>
    rw [hfe] at h
    exact hg a v (by simpa [Bind.bind, Except.bind] using h)

theorem noUV_readBits (n : Nat) (s : List Bool) : NoUV (readBits n s) := by
  intro v
  unfold readBits
  split <;> simp

theorem noUV_readBoolean (s : List Bool) : NoUV (readBoolean s) :=
  NoUV.bind (noUV_readBits 1 s) (fun a => by intro v; simp)

theorem noUV_readStringBytes (n : Nat) : ∀ (s : List Bool) (acc : List Nat),
    NoUV (readStringBytes n s acc) := by
  induction n with
  | zero => intro s acc v; simp [readStringBytes]
  | succ n ih =>
    intro s acc
    exact NoUV.bind (noUV_readBits 8 s) (fun a => ih a.2 (acc ++ [a.1]))

theorem noUV_readString (maxChars : Nat) (s : List Bool) : NoUV (readString maxChars s) := by
  refine NoUV.bind (noUV_readBits _ s) (fun a => ?_)
  show NoUV (if a.1 > maxChars then .error .invalidString else readStringBytes a.1 a.2 [])
  split
  · intro v; simp
  · exact noUV_readStringBytes a.1 a.2 []

theorem noUV_readTypeMapLoop (n : Nat) : ∀ (s : List Bool) (acc : List TileType),
    NoUV (readTypeMapLoop n s acc) := by
  induction n with
  | zero => intro s acc v; simp [readTypeMapLoop]
  | succ n ih =>
    intro s acc
    refine NoUV.bind (noUV_readBits 3 s) (fun a => ?_)
    refine NoUV.bind (noUV_readString 32 a.2) (fun b => ?_)
    refine NoUV.bind (noUV_readString 16 b.2) (fun c => ?_)
    refine NoUV.bind (noUV_readBits 4 c.2) (fun d => ?_)
    refine NoUV.bind (noUV_readBoolean d.2) (fun e => ?_)
    refine NoUV.bind (noUV_readBoolean e.2) (fun f => ?_)
    refine NoUV.bind (noUV_readBits 8 f.2) (fun g => ?_)
    refine NoUV.bind (noUV_readBits 8 g.2) (fun h => ?_)
    exact ih h.2 _

theorem noUV_readTypeMap (s : List Bool) : NoUV (readTypeMap s) :=
  NoUV.bind (noUV_readBits 16 s) (fun a => noUV_readTypeMapLoop a.1 a.2 [])

theorem noUV_readChunkAdvance : ∀ (s : List Bool) (c : Nat), NoUV (readChunkAdvance s c) := by
  intro s
  induction s with
  | nil => intro c v; simp [readChunkAdvance]
  | cons b s ih =>
    intro c v
    show (if b then readChunkAdvance s (c + 1) else .ok (c, s)) ≠ _
    split
    · exact ih (c + 1) v
    · simp

theorem noUV_putLineSteps (j : Nat) : ∀ s result valueMap position type w,
    NoUV (putLineSteps j s result valueMap position type w) := by
  induction j with
  | zero => intro s result valueMap position type w v; simp [putLineSteps]
  | succ j ih =>
    intro s result valueMap position type w
    exact NoUV.bind (noUV_readBits 2 s) (fun a => ih _ _ _ _ _ _)

theorem noUV_putLinesLoop (i : Nat) : ∀ s result valueMap currentChunk w typeLength,
    NoUV (putLinesLoop i s result valueMap currentChunk w typeLength) := by
  induction i with
  | zero => intro s result valueMap currentChunk w typeLength v; simp [putLinesLoop]
  | succ i ih =>
    intro s result valueMap currentChunk w typeLength
    refine NoUV.bind (noUV_readChunkAdvance s currentChunk) (fun a => ?_)
    refine NoUV.bind (noUV_readBits 1 a.2) (fun b => ?_)
    refine NoUV.bind (noUV_readBits 8 b.2) (fun c => ?_)
    refine NoUV.bind (noUV_readBits typeLength c.2) (fun d => ?_)
    refine NoUV.bind (noUV_readBits 10 d.2) (fun e => ?_)
    refine NoUV.bind (noUV_putLineSteps _ _ _ _ _ _ _) (fun f => ?_)
    exact ih _ _ _ _ _ _

theorem noUV_putLines (s : List Bool) (result : List Nat) (w typeLength : Nat) :
    NoUV (putLines s result w typeLength) :=
  NoUV.bind (noUV_readBits 32 s) (fun a => noUV_putLinesLoop a.1 a.2 result [] 0 w typeLength)

theorem noUV_readCompressed (s : List Bool) (w h : Nat) : NoUV (readCompressed s w h) := by
  refine NoUV.bind (noUV_readBits 8 s) (fun a => ?_)
  refine NoUV.bind (noUV_readBoolean a.2) (fun b => ?_)
  refine NoUV.bind (noUV_readBits 1 b.2) (fun c => ?_)
  refine NoUV.bind (noUV_readTypeMap c.2) (fun d => ?_)
  refine NoUV.bind (noUV_putLines _ _ _ _) (fun e => ?_)
  intro v
  simp

/-- The number of bits of `natBits n v`. -/
theorem natBits_length (n v : Nat) : (natBits n v).length = n := by
  induction n generalizing v with
  | zero => simp [natBits]
  | succ n ih => simp [natBits, ih]

/-- Splitting `natBits` into high and low parts. -/
theorem natBits_add (m n v : Nat) : natBits (m + n) v = natBits m (v / 2 ^ n) ++ natBits n v := by
  induction n generalizing v with
  | zero => simp [natBits]
  | succ n ih =>
    have h1 : m + (n + 1) = (m + n) + 1 := rfl
    rw [h1]
    show natBits (m + n) (v / 2) ++ [v % 2 == 1] = _
    rw [ih (v / 2)]
    have h2 : v / 2 / 2 ^ n = v / 2 ^ (n + 1) := by
      rw [Nat.div_div_eq_div_mul, pow_succ, Nat.mul_comm]
    rw [h2]
    show _ = natBits m (v / 2 ^ (n + 1)) ++ (natBits n (v / 2) ++ [v % 2 == 1])
    simp

/-- Reading back `natBits` recovers the value modulo `2 ^ n`. -/
theorem bitsToNat_natBits (n v : Nat) : bitsToNat (natBits n v) = v % 2 ^ n := by
  induction n generalizing v with
  | zero => simp [natBits, bitsToNat, Nat.mod_one]
  | succ n ih =>
    rw [natBits]
    have h1 : bitsToNat (natBits n (v / 2) ++ [v % 2 == 1]) =
        bitsToNat (natBits n (v / 2)) * 2 + (if v % 2 == 1 then 1 else 0) := by
      simp [bitsToNat, List.foldl_append]
    rw [h1, ih]
    have h2 : (if v % 2 == 1 then 1 else 0) = v % 2 := by
      rcases Nat.mod_two_eq_zero_or_one v with h | h <;> simp [h]
    rw [h2]
    have h3 : v % 2 ^ (n + 1) = v / 2 % 2 ^ n * 2 + v % 2 := by
      calc v % 2 ^ (n + 1) = v % (2 * 2 ^ n) := by rw [pow_succ, Nat.mul_comm]
        _ = v % (2 * 2 ^ n) / 2 * 2 + v % (2 * 2 ^ n) % 2 := by omega
        _ = v / 2 % 2 ^ n * 2 + v % 2 := by
            rw [Nat.mod_mul_right_div_self, Nat.mod_mod_of_dvd v ⟨2 ^ n, rfl⟩]
    exact h3.symm

/-- Reading the first 4 bits of a byte stream yields the byte's high nibble. -/
theorem readBits_four_of_byte (b : Nat) (rest : List Nat) (hb : b < 256) :
    readBits 4 (bytesToBits (b :: rest)) =
      .ok (b / 16, (natBits 8 b).drop 4 ++ bytesToBits rest) := by
  have hsplit : bytesToBits (b :: rest) = natBits 8 b ++ bytesToBits rest := by
    simp [bytesToBits]
  have hlen : (natBits 8 b).length = 8 := natBits_length 8 b
  have hsplit8 : natBits 8 b = natBits 4 (b / 16) ++ natBits 4 b := natBits_add 4 4 b
  have hlen4 : (natBits 4 (b / 16)).length = 4 := natBits_length 4 _
  rw [hsplit]
  unfold readBits
  rw [if_neg (by simp [hlen]; omega)]
  have htake : (natBits 8 b ++ bytesToBits rest).take 4 = natBits 4 (b / 16) := by
    rw [List.take_append_of_le_length (by omega), hsplit8,
      List.take_append_of_le_length (by omega), List.take_of_length_le (by omega)]
  have hdrop : (natBits 8 b ++ bytesToBits rest).drop 4 =
      (natBits 8 b).drop 4 ++ bytesToBits rest := by
    rw [List.drop_append_of_le_length (by omega)]
  rw [htake, hdrop, bitsToNat_natBits]
  have : b / 16 < 2 ^ 4 := by omega
  rw [Nat.mod_eq_of_lt this]

set_option maxRecDepth 2000 in
/-- **C7**: `decodeMap` fails with `UnsupportedVersion` exactly when the first
4 bits of the stream (the high nibble of the first byte) are positive; when
they are `0`, decoding proceeds past the version check and can never produce
`UnsupportedVersion` later. -/
theorem decodeMap_version_gate (b : Nat) (rest : List Nat) (hb : b < 256) :
    ((∃ v, decodeMap (b :: rest) = .error (.unsupportedVersion v)) ↔ 0 < b / 16) ∧
    (0 < b / 16 → decodeMap (b :: rest) = .error (.unsupportedVersion (b / 16))) := by
  have hread := readBits_four_of_byte b rest hb
  have hvpos : 0 < b / 16 → decodeMap (b :: rest) = .error (.unsupportedVersion (b / 16)) := by
    intro hpos
    simp only [decodeMap]
    rw [hread]
    simp only [Bind.bind, Except.bind]
    rw [if_pos (by simp [CURRENT_VERSION, MINIMUM_VERSION]; omega)]
  have hv0 : b / 16 = 0 → ∀ v, decodeMap (b :: rest) ≠ .error (.unsupportedVersion v) := by
    intro h0
    simp only [decodeMap]
    rw [hread]
    simp only [Bind.bind, Except.bind]
    rw [if_neg (by simp [CURRENT_VERSION, MINIMUM_VERSION]; omega)]
    exact NoUV.bind (noUV_readBits 16 _) (fun a =>
      NoUV.bind (noUV_readBits 16 _) (fun c =>
        NoUV.bind (noUV_readCompressed _ _ _) (fun d =>
          NoUV.bind (noUV_readBits 8 _) (fun e => by intro v; simp))))
  constructor
  · constructor
    · rintro ⟨v, hv⟩
      by_contra h0
      exact hv0 (by omega) v hv
    · intro hpos
      exact ⟨b / 16, hvpos hpos⟩
  · exact hvpos

/-- **C7** (witness): the byte `0x10` has first nibble 1 and is rejected. -/
theorem decodeMap_version_gate_witness :
    ((∃ v, decodeMap [16] = .error (.unsupportedVersion v)) ↔ 0 < 16 / 16) ∧
    (0 < 16 / 16 → decodeMap [16] = .error (.unsupportedVersion (16 / 16))) :=
  decodeMap_version_gate 16 [] (by decide)

set_option maxRecDepth 100000 in
/-- **C8** (counterexample): the claim states that `encodeMap` fails with
`InvalidInput` whenever `|tiles| ≠ width·height`; but `encodeMap` performs no
such check — on `mapC8` it does not return that error. -/
theorem encodeMap_mismatched_tiles_no_invalidInput :
    encodeMap mapC8 ≠ .error .invalidInput := by decide

set_option maxRecDepth 100000 in
/-- **C8** (amended): `encodeMap` does not validate `|tiles| = width·height`;
on the mismatched map `mapC8` it succeeds and returns bytes. -/
theorem encodeMap_mismatched_tiles_returns_bytes :
    encodeMap mapC8 = .ok [0, 0, 16, 0, 16, 8, 0, 4, 0, 0, 0, 0, 0, 0, 0, 0, 64, 0, 0, 0] ∧
    mapC8.tiles.length ≠ mapC8.width * mapC8.height := by
  refine ⟨by decide, by decide⟩

/-! ### C4: cropping of over-long segments -/

/-- Fuel bound for the cropping loop: with `ls.length + sumLen ls` fuel every
slot (original or pushed tail) is processed, and every output segment is at
most 256 cells long. -/
theorem cropLinesGo_length_le : ∀ (fuel : Nat) (ls : List (List Nat)),
    ls.length + sumLen ls ≤ fuel → ∀ s ∈ cropLinesGo fuel ls, s.length ≤ 256 := by
  intro fuel
  induction fuel with
  | zero =>
    intro ls hle s hs
    have h0 : ls = [] := by
      cases ls with
      | nil => rfl
      | cons l rest => simp at hle
    subst h0
    simp [cropLinesGo] at hs
  | succ fuel ih =>
    intro ls hle s hs
    cases ls with
    | nil => simp [cropLinesGo] at hs
    | cons l rest =>
      have hsum : sumLen (l :: rest) = l.length + sumLen rest := by simp [sumLen]
      simp only [cropLinesGo] at hs
      by_cases hlong : l.length > 256
      · rw [if_pos hlong] at hs
        rcases List.mem_cons.mp hs with h | h
        · subst h
          simp
        · refine ih (rest ++ [l.drop 256]) ?_ s h
          rw [sumLen_append]
          have hdl : sumLen [l.drop 256] = l.length - 256 := by simp [sumLen]
          rw [hdl]
          simp only [List.length_append, List.length_cons, List.length_nil] at hle ⊢
          omega
      · rw [if_neg hlong] at hs
        rcases List.mem_cons.mp hs with h | h
        · subst h
          omega
        · refine ih rest ?_ s h
          simp only [List.length_cons] at hle
          omega

set_option maxRecDepth 100000 in
/-- **C4** (counterexample): the claim states a pushed tail is never cropped
again, so a 513-cell segment should leave a tail longer than 256 cells.  In
the code the `for` loop's bound `lines.length` is re-evaluated after each
push, so the 257-cell tail is itself revisited and split: the output segment
lengths are `[256, 256, 1]` and no segment longer than 256 cells remains. -/
theorem cropLines_recrops_long_tail :
    (cropLines [List.range 513]).map List.length = [256, 256, 1] := by decide

/-- **C4** (amended): `cropLines` re-examines pushed tails (the loop bound is
re-read), so every segment it returns has at most 256 cells — also for inputs
longer than 512 cells. -/
theorem cropLines_all_le_256 (ls : List (List Nat)) :
    ∀ s ∈ cropLines ls, s.length ≤ 256 :=
  cropLinesGo_length_le (ls.length + sumLen ls) ls (Nat.le_refl _)

set_option maxRecDepth 100000 in
/-- **C4** (witness): the 44-cell tail produced for a 300-cell segment is
within the bound. -/
theorem cropLines_all_le_256_witness : ((List.range 300).drop 256).length ≤ 256 :=
  cropLines_all_le_256 [List.range 300] ((List.range 300).drop 256) (by decide)

/-! ### C3: the bit layout of a line record -/

/-- The step-code bits of a line (2 bits per consecutive cell pair). -/
def stepBits (width : Nat) (cells : List Nat) : List Bool :=
  match cells with
  | [] => []
  | c :: cs => writeSteps [] width c cs

theorem writeSteps_append (width : Nat) (cells : List Nat) :
    ∀ (wr : W) (prev : Nat),
      writeSteps wr width prev cells = wr ++ writeSteps [] width prev cells := by
  induction cells with
  | nil => intro wr prev; simp [writeSteps]
  | cons c cs ih =>
    intro wr prev
    show writeSteps (writeBits 2 (stepCode width prev c) wr) width c cs = _
    rw [ih (writeBits 2 (stepCode width prev c) wr) c]
    conv_rhs => rw [show writeSteps ([] : W) width prev (c :: cs) =
      writeSteps (writeBits 2 (stepCode width prev c) []) width c cs from rfl]
    rw [ih (writeBits 2 (stepCode width prev c) []) c]
    simp [writeBits]

/-- One line record as the claim describes it: chunk-advance prefix directly
followed by `lengthMinus1` (no reserved bit in between), then the type id,
the in-chunk position and the step codes.  This is the layout the claim
asserts; the code's actual layout (below) differs by one reserved `0` bit. -/
def claimedLineRecordBits (width typeLength currentChunk : Nat) (l : LineData) : List Bool :=
  List.replicate (chunkOfLine width l - currentChunk) true ++ [false] ++
    natBits 8 (l.line.length - 1) ++ natBits typeLength l.id ++
    natBits 10 (positionInChunk width (l.line.headD 0)) ++ stepBits width l.line

/-- One line record as the code actually writes it: the chunk-advance prefix,
a 1-bit reserved field (written `0`), `lengthMinus1`, the type id, the
in-chunk position, and the step codes. -/
def lineRecordBits (width typeLength currentChunk : Nat) (l : LineData) : List Bool :=
  List.replicate (chunkOfLine width l - currentChunk) true ++ [false] ++ [false] ++
    natBits 8 (l.line.length - 1) ++ natBits typeLength l.id ++
    natBits 10 (positionInChunk width (l.line.headD 0)) ++ stepBits width l.line

/-- All line records, threading the current chunk id (starting at 0 in
`writeLines`). -/
def lineRecordsBits (width typeLength : Nat) : List LineData → Nat → List Bool
  | [], _ => []
  | l :: rest, currentChunk =>
    lineRecordBits width typeLength currentChunk l ++
      lineRecordsBits width typeLength rest (chunkOfLine width l)

theorem writeLinesLoop_eq (width typeLength : Nat) :
    ∀ (lines : List LineData) (wr : W) (currentChunk : Nat),
      List.Chain (· ≤ ·) currentChunk (lines.map (chunkOfLine width)) →
      writeLinesLoop width typeLength lines wr currentChunk =
        .ok (wr ++ lineRecordsBits width typeLength lines currentChunk) := by
  intro lines
  induction lines with
  | nil => intro wr currentChunk _; simp [writeLinesLoop, lineRecordsBits]
  | cons l rest ih =>
    intro wr currentChunk hchain
    rcases hchain with _ | ⟨hle, hchain⟩
    show (do
      let (wr, currentChunk) ← checkChunk width currentChunk (l.line.headD 0) wr
      let wr := writeBits 1 0 wr
      let wr := writeBits 8 (l.line.length - 1) wr
      let wr := writeBits typeLength l.id wr
      let wr := writeBits 10 (positionInChunk width (l.line.headD 0)) wr
      let wr := match l.line with
        | [] => wr
        | c :: cs => writeSteps wr width c cs
      writeLinesLoop width typeLength rest wr currentChunk) = _
    have hnlt : ¬ chunkOfCell width (l.line.headD 0) < currentChunk := by
      simp only [chunkOfLine] at hle
      omega
    have hcheck : checkChunk width currentChunk (l.line.headD 0) wr =
        .ok (wr ++ List.replicate (chunkOfLine width l - currentChunk) true ++ [false],
          chunkOfLine width l) := by
      show (if chunkOfCell width (l.line.headD 0) < currentChunk then
          (Except.error CodecError.diverged : Except CodecError (W × Nat))
        else .ok (wr ++ List.replicate (chunkOfCell width (l.line.headD 0) - currentChunk) true
          ++ [false], chunkOfCell width (l.line.headD 0))) = _
      rw [if_neg hnlt]
      rfl
    rw [hcheck]
    simp only [Bind.bind, Except.bind]
    rw [ih _ (chunkOfLine width l) hchain]
    have hsteps : (match l.line with
        | [] => (wr ++ List.replicate (chunkOfLine width l - currentChunk) true ++ [false])
            ++ natBits 1 0 ++ natBits 8 (l.line.length - 1) ++ natBits typeLength l.id ++
            natBits 10 (positionInChunk width (l.line.headD 0))
        | c :: cs => writeSteps ((wr ++ List.replicate (chunkOfLine width l - currentChunk) true
            ++ [false]) ++ natBits 1 0 ++ natBits 8 (l.line.length - 1) ++
            natBits typeLength l.id ++ natBits 10 (positionInChunk width (l.line.headD 0)))
            width c cs) =
        ((wr ++ List.replicate (chunkOfLine width l - currentChunk) true ++ [false])
          ++ natBits 1 0 ++ natBits 8 (l.line.length - 1) ++ natBits typeLength l.id ++
          natBits 10 (positionInChunk width (l.line.headD 0))) ++ stepBits width l.line := by
      cases hl : l.line with
      | nil => simp [stepBits]
      | cons c cs =>
        show writeSteps _ width c cs = _ ++ stepBits width (c :: cs)
        simp only [stepBits]
        rw [writeSteps_append]
    simp only [writeBits, hsteps]
    congr 1
    show _ = wr ++ (lineRecordBits width typeLength currentChunk l ++ _)
    simp only [lineRecordBits]
    have h10 : natBits 1 0 = [false] := rfl
    rw [h10]
    simp [List.append_assoc]

set_option maxRecDepth 2000 in
/-- **C3** (counterexample): on a single length-1 line in chunk 0 of a
width-1 map, the emitted bits are not the claimed record (chunk prefix
directly followed by `lengthMinus1`): the code inserts one reserved `0` bit
in between. -/
theorem writeLines_not_claimed_layout :
    writeLines [] 1 [⟨0, [0]⟩] 0 ≠
      .ok (natBits 32 1 ++ claimedLineRecordBits 1 0 0 ⟨0, [0]⟩) := by decide

/-- **C3** (amended): each line record consists of, in order: the
chunk-advance prefix (a run of `1` bits counting the chunk advance, then a
terminating `0`), **one reserved `0` bit**, the 8-bit `lengthMinus1`, the
`typeBits`-wide type id, the 10-bit in-chunk position and the `(length-1)`
2-bit step codes — provided the lines are chunk-sorted (otherwise the
source's `checkChunk` loop would not terminate). -/
theorem writeLines_layout (width typeLength : Nat) (lines : List LineData) (wr : W)
    (hchain : List.Chain (· ≤ ·) 0 (lines.map (chunkOfLine width))) :
    writeLines wr width lines typeLength =
      .ok (wr ++ natBits 32 lines.length ++ lineRecordsBits width typeLength lines 0) := by
  unfold writeLines
  rw [writeLinesLoop_eq width typeLength lines (writeBits 32 lines.length wr) 0 hchain]
  simp [writeBits, List.append_assoc]

set_option maxRecDepth 2000 in
/-- **C3** (witness): the layout equation evaluated on one concrete
chunk-sorted line list. -/
theorem writeLines_layout_witness :
    writeLines [] 1 [⟨0, [0, 1]⟩] 0 =
      .ok ([] ++ natBits 32 1 ++ lineRecordsBits 1 0 [⟨0, [0, 1]⟩] 0) :=
  writeLines_layout 1 0 [⟨0, [0, 1]⟩] [] (List.Chain.cons (by decide) List.Chain.nil)

/-! ### C9: the top-to-bottom fill -/

/-- The `k`-th cell in column-major order: column `k / h`, row `k % h`. -/
def colMajorCell (w h k : Nat) : Nat := (k % h) * w + k / h

/-- The column-major enumeration of all cells, as the claim describes the
T2B fill order. -/
def colMajor (w h : Nat) : List Nat := (List.range (w * h)).map (colMajorCell w h)

/-- The fill rule of the directional fills as a fold step:
`if anchor[i] then current := tiles[i]; tiles[i] := current`. -/
def fillStep (valueMap : List Int) (st : List Nat × Nat) (i : Nat) : List Nat × Nat :=
  let current := if ((i : Int) ∈ valueMap) then st.1.getD i 0 else st.2
  (st.1.set i current, current)

theorem colMajorCell_lt (w h k : Nat) (hh : 1 ≤ h) (hk : k < w * h) :
    colMajorCell w h k < w * h := by
  have hrow : k % h < h := Nat.mod_lt _ hh
  have hcol : k / h < w := Nat.div_lt_of_lt_mul (by rw [Nat.mul_comm h w]; omega)
  calc (k % h) * w + k / h < (k % h) * w + w := by omega
    _ = ((k % h) + 1) * w := by ring
    _ ≤ h * w := Nat.mul_le_mul_right w hrow
    _ = w * h := Nat.mul_comm h w

theorem colMajorCell_mod_div (w h k : Nat) (hh : 1 ≤ h) (hk : k < w * h) :
    colMajorCell w h k % w = k / h ∧ colMajorCell w h k / w = k % h := by
  have hcol : k / h < w := Nat.div_lt_of_lt_mul (by rw [Nat.mul_comm h w]; omega)
  constructor
  · show ((k % h) * w + k / h) % w = k / h
    rw [Nat.mul_add_mod', Nat.mod_eq_of_lt hcol]
  · show ((k % h) * w + k / h) / w = k % h
    have hw : 0 < w := by
      rcases Nat.eq_zero_or_pos w with h0 | h0
      · subst h0
        simp at hk
      · exact h0
    rw [Nat.mul_comm (k % h) w, Nat.mul_add_div hw, Nat.div_eq_of_lt hcol, Nat.add_zero]

theorem colMajorCell_last (w h : Nat) (hw : 1 ≤ w) (hh : 1 ≤ h) :
    colMajorCell w h (w * h - 1) = w * h - 1 := by
  have e1 : (w - 1) * h = w * h - h := by rw [Nat.sub_mul, Nat.one_mul]
  have e2 : w * h - 1 = (w - 1) * h + (h - 1) := by
    have : h ≤ w * h := Nat.le_mul_of_pos_left h (by omega)
    omega
  show (w * h - 1) % h * w + (w * h - 1) / h = w * h - 1
  have hmod : (w * h - 1) % h = h - 1 := by
    rw [e2, Nat.mul_add_mod', Nat.mod_eq_of_lt (by omega)]
  have hdiv : (w * h - 1) / h = w - 1 := by
    rw [e2, Nat.mul_comm (w - 1) h, Nat.mul_add_div (by omega),
      Nat.div_eq_of_lt (by omega), Nat.add_zero]
  rw [hmod, hdiv]
  have e3 : (h - 1) * w = w * h - w := by
    rw [Nat.sub_mul, Nat.one_mul, Nat.mul_comm h w]
  have : w ≤ w * h := Nat.le_mul_of_pos_right w (by omega)
  omega

theorem colMajorCell_ne_last (w h k : Nat) (hw : 1 ≤ w) (hh : 1 ≤ h)
    (hk : k < w * h - 1) : colMajorCell w h k ≠ w * h - 1 := by
  intro heq
  obtain ⟨hmod, hdiv⟩ := colMajorCell_mod_div w h k hh (by omega)
  have hlast := colMajorCell_last w h hw hh
  obtain ⟨hmod', hdiv'⟩ := colMajorCell_mod_div w h (w * h - 1) hh (by omega)
  rw [hlast] at hmod' hdiv'
  have h1 : k / h = (w * h - 1) / h := by rw [← hmod, heq, hmod']
  have h2 : k % h = (w * h - 1) % h := by rw [← hdiv, heq, hdiv']
  have h3 := Nat.div_add_mod k h
  have h4 := Nat.div_add_mod (w * h - 1) h
  rw [h1, h2] at h3
  omega

theorem colMajorCell_next (w h k : Nat) (hw : 1 ≤ w) (hh : 1 ≤ h) (hk : k + 1 < w * h) :
    (if colMajorCell w h k ≥ w * h - w then (colMajorCell w h k + 1) % w
      else colMajorCell w h k + w) = colMajorCell w h (k + 1) := by
  have hq := Nat.div_add_mod k h
  have hrow : k % h < h := Nat.mod_lt _ hh
  have hcol : k / h < w := Nat.div_lt_of_lt_mul (by rw [Nat.mul_comm h w]; omega)
  have ewhw : w * h - w = (h - 1) * w := by
    rw [Nat.sub_mul, Nat.one_mul, Nat.mul_comm h w]
  by_cases hlastrow : k % h = h - 1
  · -- wrap to the top of the next column
    have ek1 : k + 1 = (k / h + 1) * h := by
      have hbridge : (k / h + 1) * h = h * (k / h) + h := by ring
      omega
    have hcol1 : k / h + 1 < w := by
      by_contra hcon
      have : k / h + 1 = w := by omega
      rw [ek1, this, Nat.mul_comm] at hk
      omega
    have hmod1 : (k + 1) % h = 0 := by
      rw [ek1, Nat.mul_mod_left]
    have hdiv1 : (k + 1) / h = k / h + 1 := by
      rw [ek1, Nat.mul_div_cancel _ (by omega)]
    have hcellk : colMajorCell w h k = (h - 1) * w + k / h := by
      show k % h * w + k / h = _
      rw [hlastrow]
    have hcond : colMajorCell w h k ≥ w * h - w := by
      rw [hcellk, ewhw]
      exact Nat.le_add_right _ _
    rw [if_pos hcond]
    show (colMajorCell w h k + 1) % w = colMajorCell w h (k + 1)
    have hrhs : colMajorCell w h (k + 1) = k / h + 1 := by
      show (k + 1) % h * w + (k + 1) / h = _
      rw [hmod1, hdiv1, Nat.zero_mul, Nat.zero_add]
    rw [hcellk, hrhs]
    have : (h - 1) * w + k / h + 1 = (h - 1) * w + (k / h + 1) := by omega
    rw [this, Nat.mul_comm (h - 1) w, Nat.mul_add_mod, Nat.mod_eq_of_lt hcol1]
  · -- step down within the column
    have hrow2 : k % h + 1 < h := by omega
    have ek1 : k + 1 = (k / h) * h + (k % h + 1) := by
      rw [Nat.mul_comm]
      omega
    have hmod1 : (k + 1) % h = k % h + 1 := by
      rw [ek1, Nat.mul_comm (k / h) h, Nat.mul_add_mod, Nat.mod_eq_of_lt hrow2]
    have hdiv1 : (k + 1) / h = k / h := by
      rw [ek1, Nat.mul_comm (k / h) h, Nat.mul_add_div (by omega),
        Nat.div_eq_of_lt hrow2, Nat.add_zero]
    have hguard : ¬ colMajorCell w h k ≥ w * h - w := by
      show ¬ k % h * w + k / h ≥ w * h - w
      rw [ewhw]
      have h1 : k % h * w + w ≤ (h - 1) * w := by
        have : (k % h + 1) * w ≤ (h - 1) * w := Nat.mul_le_mul_right w (by omega)
        calc k % h * w + w = (k % h + 1) * w := by ring
          _ ≤ (h - 1) * w := this
      omega
    rw [if_neg hguard]
    show k % h * w + k / h + w = (k + 1) % h * w + (k + 1) / h
    rw [hmod1, hdiv1]
    ring

theorem fillT2BGo_spec (w h : Nat) (hw : 1 ≤ w) (hh : 1 ≤ h) (valueMap : List Int) :
    ∀ (n k : Nat) (res : List Nat) (cur : Nat) (fuel : Nat),
      res.length = w * h → k + n = w * h - 1 → n ≤ fuel →
      fillT2BGo fuel (colMajorCell w h k) res cur valueMap w =
        (((List.range n).map (fun j => colMajorCell w h (k + j))).foldl
          (fillStep valueMap) (res, cur)).1 := by
  intro n
  induction n with
  | zero =>
    intro k res cur fuel hlen hkn hfuel
    have hk : k = w * h - 1 := by omega
    have hcell : colMajorCell w h k = w * h - 1 := by
      rw [hk]
      exact colMajorCell_last w h hw hh
    cases fuel with
    | zero => simp [fillT2BGo]
    | succ f =>
      simp only [fillT2BGo, hcell, hlen]
      rw [if_neg (by omega)]
      simp
  | succ n ih =>
    intro k res cur fuel hlen hkn hfuel
    have hk1 : k + 1 < w * h := by omega
    have hcell_lt : colMajorCell w h k < w * h - 1 := by
      have h1 : colMajorCell w h k < w * h := colMajorCell_lt w h k hh (by omega)
      have h2 : colMajorCell w h k ≠ w * h - 1 :=
        colMajorCell_ne_last w h k hw hh (by omega)
      omega
    cases fuel with
    | zero => omega
    | succ f =>
      simp only [fillT2BGo, hlen]
      rw [if_pos (by omega)]
      have hnext : (if colMajorCell w h k ≥ w * h - w then (colMajorCell w h k + 1) % w
          else colMajorCell w h k + w) = colMajorCell w h (k + 1) :=
        colMajorCell_next w h k hw hh hk1
      rw [List.length_set, hlen, hnext]
      have hlen' : (res.set (colMajorCell w h k)
          (if ((colMajorCell w h k : Int) ∈ valueMap)
            then res.getD (colMajorCell w h k) 0 else cur)).length = w * h := by
        rw [List.length_set, hlen]
      rw [ih (k + 1) _ _ f hlen' (by omega) (by omega)]
      have hrange : (List.range (n + 1)).map (fun j => colMajorCell w h (k + j)) =
          colMajorCell w h k ::
            (List.range n).map (fun j => colMajorCell w h (k + 1 + j)) := by
        rw [List.range_succ_eq_map]
        simp only [List.map_cons, List.map_map, Nat.add_zero]
        refine congrArg (List.cons _) ?_
        apply List.map_congr_left
        intro j _
        show colMajorCell w h (k + (j + 1)) = colMajorCell w h (k + 1 + j)
        congr 1
        omega
      rw [hrange, List.foldl_cons]
      rfl

/-- The final cell is untouched by a fold over visits that avoid it. -/
theorem foldl_fillStep_get_last (valueMap : List Int) (m : Nat) :
    ∀ (visits : List Nat) (res : List Nat) (cur : Nat), (∀ i ∈ visits, i ≠ m) →
      ((visits.foldl (fillStep valueMap) (res, cur)).1)[m]? = res[m]? := by
  intro visits
  induction visits with
  | nil => intro res cur _; rfl
  | cons i rest ih =>
    intro res cur hne
    rw [List.foldl_cons]
    have h1 := ih ((fillStep valueMap (res, cur) i).1) (fillStep valueMap (res, cur) i).2
      (fun j hj => hne j (List.mem_cons_of_mem _ hj))
    rw [show rest.foldl (fillStep valueMap) (fillStep valueMap (res, cur) i) =
      rest.foldl (fillStep valueMap)
        ((fillStep valueMap (res, cur) i).1, (fillStep valueMap (res, cur) i).2) from rfl]
    rw [h1]
    show (res.set i _)[m]? = res[m]?
    exact List.getElem?_set_ne (hne i (List.mem_cons_self i rest))

set_option maxRecDepth 2000 in
/-- **C9**: when the direction bit is 1, the decoder's fill visits exactly the
first `w·h − 1` cells of the column-major enumeration (step `+width`, wrapping
by `(i+1) mod width`), applies the rule `if anchor[i] then current :=
tiles[i]; tiles[i] := current` at each, and never writes the final cell
`w·h − 1`, which keeps the value the line-placement phase stored there. -/
theorem fillLinesTopToBottom_colMajor (w h : Nat) (hw : 1 ≤ w) (hh : 1 ≤ h)
    (result : List Nat) (valueMap : List Int) (hlen : result.length = w * h) :
    fillLinesTopToBottom result valueMap w =
      (((colMajor w h).take (w * h - 1)).foldl (fillStep valueMap) (result, 0)).1 ∧
    ((colMajor w h).take (w * h - 1)).length = w * h - 1 ∧
    (w * h - 1) ∉ (colMajor w h).take (w * h - 1) ∧
    (fillLinesTopToBottom result valueMap w)[w * h - 1]? = result[w * h - 1]? := by
  have htake : (colMajor w h).take (w * h - 1) =
      (List.range (w * h - 1)).map (colMajorCell w h) := by
    rw [colMajor, ← List.map_take, List.take_range, Nat.min_def]
    rw [if_pos (by omega)]
  have hvisits : (List.range (w * h - 1)).map (fun j => colMajorCell w h (0 + j)) =
      (List.range (w * h - 1)).map (colMajorCell w h) := by
    apply List.map_congr_left
    intro j _
    rw [Nat.zero_add]
  have hmain : fillLinesTopToBottom result valueMap w =
      (((colMajor w h).take (w * h - 1)).foldl (fillStep valueMap) (result, 0)).1 := by
    have h0 : colMajorCell w h 0 = 0 := by
      show 0 % h * w + 0 / h = 0
      simp
    have hspec := fillT2BGo_spec w h hw hh valueMap (w * h - 1) 0 result 0 (w * h) hlen
      (by omega) (by omega)
    rw [h0, hvisits] at hspec
    show fillT2BGo result.length 0 result 0 valueMap w = _
    rw [hlen, htake]
    exact hspec
  have hnotmem : (w * h - 1) ∉ (colMajor w h).take (w * h - 1) := by
    rw [htake]
    intro hmem
    obtain ⟨j, hj, hcell⟩ := List.mem_map.mp hmem
    rw [List.mem_range] at hj
    exact colMajorCell_ne_last w h j hw hh hj hcell
  refine ⟨hmain, ?_, hnotmem, ?_⟩
  · rw [htake, List.length_map, List.length_range]
  · rw [hmain]
    exact foldl_fillStep_get_last valueMap (w * h - 1) _ result 0
      (fun i hi => by
        intro hieq
        rw [hieq] at hi
        exact hnotmem hi)

/-- **C9** (witness): a 3×2 grid; the fill equals the fold over the first
five column-major cells `[0, 3, 1, 4, 2]` and cell 5 is untouched. -/
theorem fillLinesTopToBottom_colMajor_witness :
    fillLinesTopToBottom [7, 7, 7, 7, 7, 9] [0] 3 =
      (((colMajor 3 2).take (3 * 2 - 1)).foldl (fillStep [0]) ([7, 7, 7, 7, 7, 9], 0)).1 ∧
    ((colMajor 3 2).take (3 * 2 - 1)).length = 3 * 2 - 1 ∧
    (3 * 2 - 1) ∉ (colMajor 3 2).take (3 * 2 - 1) ∧
    (fillLinesTopToBottom [7, 7, 7, 7, 7, 9] [0] 3)[3 * 2 - 1]? = [7, 7, 7, 7, 7, 9][3 * 2 - 1]? :=
  fillLinesTopToBottom_colMajor 3 2 (by decide) (by decide) [7, 7, 7, 7, 7, 9] [0] (by decide)

/-! ### C6: validity of the stitched lines -/

/-- Two cell indices differ by exactly one of `+1`, `-1`, `+width`,
`-width` (the 4-neighbour step of the claim, stated on `Nat`). -/
def isStep (width a b : Nat) : Prop :=
  b = a + 1 ∨ a = b + 1 ∨ b = a + width ∨ a = b + width

theorem isStep_symm {width a b : Nat} (h : isStep width a b) : isStep width b a := by
  unfold isStep at h ⊢
  tauto

/-- A segment all of whose cells carry the zone id, consecutive cells being
4-neighbour steps. -/
def GoodSeg (width zoneId : Nat) (tileMap : List Nat) (s : List Nat) : Prop :=
  List.Chain' (isStep width) s ∧ ∀ c ∈ s, tileMap[c]? = some zoneId

theorem chain'_isStep_reverse {width : Nat} {l : List Nat}
    (h : List.Chain' (isStep width) l) : List.Chain' (isStep width) l.reverse := by
  rw [List.chain'_reverse]
  exact h.imp (fun _ _ hs => isStep_symm hs)

/-- Reversing the claimed connection chain. -/
theorem chain'_conn_reverse {width a b : Nat} {p : List Nat}
    (h : List.Chain' (isStep width) (a :: (p ++ [b]))) :
    List.Chain' (isStep width) (b :: (p.reverse ++ [a])) := by
  have h2 := chain'_isStep_reverse h
  have e : (a :: (p ++ [b])).reverse = b :: (p.reverse ++ [a]) := by simp
  rw [e] at h2
  exact h2

/-- Removing the last element known through `getLast?`. -/
theorem dropLast_append_of_getLast? {l : List Nat} {x : Nat} (h : l.getLast? = some x) :
    l.dropLast ++ [x] = l := by
  cases l with
  | nil => simp at h
  | cons a as =>
    have hne : (a :: as) ≠ [] := by simp
    have h2 : (a :: as).getLast hne = x := by
      have he := List.getLast?_eq_getLast (a :: as) hne
      rw [he] at h
      exact Option.some_inj.mp h
    rw [← h2]
    exact List.dropLast_append_getLast hne

/-- `findIdx?` returns an in-range index whose entry satisfies the test. -/
theorem findIdx?_getD (p : Nat → Bool) :
    ∀ (l : List Nat) (i : Nat), l.findIdx? p = some i →
      i < l.length ∧ p (l.getD i 0) = true := by
  intro l
  induction l with
  | nil => intro i h; simp [List.findIdx?] at h
  | cons x xs ih =>
    intro i h
    rw [List.findIdx?_cons] at h
    by_cases hx : p x = true
    · rw [if_pos hx] at h
      cases h
      exact ⟨Nat.succ_pos _, by simpa using hx⟩
    · rw [if_neg hx, List.findIdx?_succ] at h
      simp only [Option.map_eq_some'] at h
      obtain ⟨j, hj, hij⟩ := h
      obtain ⟨hjlt, hpj⟩ := ih j hj
      subst hij
      refine ⟨by simpa using Nat.succ_lt_succ hjlt, ?_⟩
      simpa using hpj

/-- On a duplicate-free list, looking up the `i`-th value finds index `i`. -/
theorem findIdx?_nodup (points : List Nat) (hnd : points.Nodup) :
    ∀ (i : Nat), i < points.length →
      points.findIdx? (· = points.getD i 0) = some i := by
  induction points with
  | nil => intro i hi; simp at hi
  | cons x xs ih =>
    intro i hi
    cases i with
    | zero => simp [List.findIdx?_cons]
    | succ j =>
      have hgd : (x :: xs).getD (j + 1) 0 = xs.getD j 0 := by simp
      rw [hgd, List.findIdx?_cons]
      have hjlt : j < xs.length := by simpa using hi
      have hmem : xs.getD j 0 ∈ xs := by
        rw [List.getD_eq_getElem xs 0 hjlt]
        exact List.getElem_mem hjlt
      have hx : ¬ (x = xs.getD j 0) := by
        intro hxe
        rw [hxe] at hnd
        exact (List.nodup_cons.mp hnd).1 hmem
      rw [if_neg (by simpa using hx), List.findIdx?_succ,
        ih (List.nodup_cons.mp hnd).2 j hjlt]
      rfl

/-- Distinct indices of a duplicate-free list hold distinct values. -/
theorem nodup_getD_inj (points : List Nat) (hnd : points.Nodup) {i j : Nat}
    (hi : i < points.length) (hj : j < points.length)
    (hij : points.getD i 0 = points.getD j 0) : i = j := by
  rw [List.getD_eq_getElem points 0 hi, List.getD_eq_getElem points 0 hj] at hij
  exact (List.Nodup.getElem_inj_iff hnd).mp hij

/-- The queue invariant of the BFS of `calculatePaths`, for entries
`(pt, path)`: `path` leads from `start` to `pt` inside the zone. -/
def PathOK (width zoneId : Nat) (tileMap : List Nat) (start : Nat) (e : Nat × List Nat) : Prop :=
  (e.2 = [] ∧ e.1 = start) ∨
  (e.2.getLast? = some e.1 ∧ List.Chain' (isStep width) (start :: e.2) ∧
    ∀ c ∈ e.2, tileMap[c]? = some zoneId)

/-- What the BFS records for a reachable border point `(q, p')`: either the
degenerate self-entry, or a zone-interior chain from `start` to `q`. -/
def RecOK (width zoneId : Nat) (tileMap : List Nat) (start : Nat) (r : Nat × List Nat) : Prop :=
  (r.1 = start ∧ r.2 = []) ∨
  (List.Chain' (isStep width) (start :: (r.2 ++ [r.1])) ∧
    ∀ c ∈ r.2 ++ [r.1], tileMap[c]? = some zoneId)

/-- A valid neighbour candidate is a 4-neighbour step within the zone. -/
theorem neighbor_step {width : Nat} (pt : Nat) (next : Int)
    (hmem : next ∈ [(pt : Int) - 1, (pt : Int) + 1, (pt : Int) - width, (pt : Int) + width])
    (hnn : 0 ≤ next) : isStep width pt next.toNat := by
  have hcast : (next.toNat : Int) = next := Int.toNat_of_nonneg hnn
  simp only [List.mem_cons, List.not_mem_nil, or_false] at hmem
  rcases hmem with h | h | h | h
  · right; left
    omega
  · left
    omega
  · right; right; right
    omega
  · right; right; left
    omega

/-- The neighbour fold of the BFS only adds entries for valid in-zone
neighbour cells of the popped entry. -/
theorem bfs_fold_spec (width zoneId : Nat) (tileMap : List Nat) (path : List Nat) :
    ∀ (cands : List Int) (init : List (Nat × List Nat)) (vis : List Nat),
      ∀ e ∈ (cands.foldl (fun (st : List (Nat × List Nat) × List Nat) (next : Int) =>
          if tileMapAt tileMap next = some zoneId ∧ next.toNat ∉ st.2 then
            (st.1 ++ [(next.toNat, path ++ [next.toNat])], next.toNat :: st.2)
          else st) (init, vis)).1,
        e ∈ init ∨ ∃ next ∈ cands, e = (next.toNat, path ++ [next.toNat]) ∧
          tileMapAt tileMap next = some zoneId := by
  intro cands
  induction cands with
  | nil => intro init vis e he; exact Or.inl he
  | cons c cs ih =>
    intro init vis e he
    rw [List.foldl_cons] at he
    by_cases hc : tileMapAt tileMap c = some zoneId ∧ c.toNat ∉ vis
    · rw [if_pos hc] at he
      rcases ih _ _ e he with hin | ⟨nx, hnx, hee, hz⟩
      · rcases List.mem_append.mp hin with h | h
        · exact Or.inl h
        · rcases List.mem_singleton.mp h with rfl
          exact Or.inr ⟨c, List.mem_cons_self _ _, rfl, hc.1⟩
      · exact Or.inr ⟨nx, List.mem_cons_of_mem _ hnx, hee, hz⟩
    · rw [if_neg hc] at he
      rcases ih _ _ e he with hin | ⟨nx, hnx, hee, hz⟩
      · exact Or.inl hin
      · exact Or.inr ⟨nx, List.mem_cons_of_mem _ hnx, hee, hz⟩

/-- `tileMapAt` unpacked. -/
theorem tileMapAt_eq_some {tileMap : List Nat} {i : Int} {z : Nat}
    (h : tileMapAt tileMap i = some z) : 0 ≤ i ∧ tileMap[i.toNat]? = some z := by
  unfold tileMapAt at h
  split at h
  · cases h
  · constructor
    · omega
    · exact h

/-- The BFS result invariant: every recorded pair is reached by a zone
chain (or is the degenerate self-record). -/
theorem calculatePathsGo_rec (width zoneId : Nat) (pointMap tileMap : List Nat) (start : Nat) :
    ∀ (fuel : Nat) (queue : List (Nat × List Nat)) (visited : List Nat)
      (acc res : List (Nat × List Nat)),
      (∀ e ∈ queue, PathOK width zoneId tileMap start e) →
      (∀ r ∈ acc, RecOK width zoneId tileMap start r) →
      calculatePathsGo fuel width pointMap zoneId tileMap queue visited acc = some res →
      ∀ r ∈ res, RecOK width zoneId tileMap start r := by
  intro fuel
  induction fuel with
  | zero => intro queue visited acc res _ _ h; cases h
  | succ fuel ih =>
    intro queue visited acc res hq hacc hrun
    cases queue with
    | nil =>
      simp only [calculatePathsGo] at hrun
      cases hrun
      exact hacc
    | cons e rest =>
      obtain ⟨pt, path⟩ := e
      have hptOK : (path = [] ∧ pt = start) ∨
          (path.getLast? = some pt ∧ List.Chain' (isStep width) (start :: path) ∧
            ∀ c ∈ path, tileMap[c]? = some zoneId) :=
        hq (pt, path) (List.mem_cons_self _ _)
      have hrest : ∀ e ∈ rest, PathOK width zoneId tileMap start e :=
        fun e he => hq e (List.mem_cons_of_mem _ he)
      have hacc' : ∀ r ∈ (if pt ∈ pointMap then acc ++ [(pt, path.dropLast)] else acc),
          RecOK width zoneId tileMap start r := by
        intro r hr
        by_cases hpm : pt ∈ pointMap
        · rw [if_pos hpm] at hr
          rcases List.mem_append.mp hr with h | h
          · exact hacc r h
          · rcases List.mem_singleton.mp h with rfl
            rcases hptOK with ⟨hnil, hpt⟩ | ⟨hlast, hchain, hzone⟩
            · left
              refine ⟨hpt, ?_⟩
              show path.dropLast = []
              rw [hnil]
              rfl
            · right
              have hrec : path.dropLast ++ [pt] = path := dropLast_append_of_getLast? hlast
              show List.Chain' (isStep width) (start :: (path.dropLast ++ [pt])) ∧
                ∀ c ∈ path.dropLast ++ [pt], tileMap[c]? = some zoneId
              rw [hrec]
              exact ⟨hchain, hzone⟩
        · rw [if_neg hpm] at hr
          exact hacc r hr
      simp only [calculatePathsGo] at hrun
      by_cases hlen : path.length < 8
      · rw [if_pos hlen] at hrun
        refine ih _ _ _ res ?_ hacc' hrun
        intro e he
        rcases List.mem_append.mp he with h | h
        · exact hrest e h
        · -- a freshly pushed neighbour entry
          have hsp := bfs_fold_spec width zoneId tileMap path
            [(pt : Int) - 1, (pt : Int) + 1, (pt : Int) - width, (pt : Int) + width] [] visited e h
          rcases hsp with hin | ⟨nx, hnx, hee, hz⟩
          · cases hin
          · obtain ⟨hnn, hzz⟩ := tileMapAt_eq_some hz
            subst hee
            have hstep : isStep width pt nx.toNat := neighbor_step pt nx hnx hnn
            right
            refine ⟨by simp, ?_, ?_⟩
            · -- chain start :: path ++ [nx.toNat]
              rcases hptOK with ⟨hnil, hpt⟩ | ⟨hlast, hchain, _⟩
              · have hp : path = [] := hnil
                have hq2 : pt = start := hpt
                subst hp
                subst hq2
                simp only [List.nil_append]
                exact List.chain'_pair.mpr hstep
              · have hne : path ≠ [] := by
                  intro h0
                  rw [h0] at hlast
                  simp at hlast
                rw [show start :: (path ++ [nx.toNat]) = (start :: path) ++ [nx.toNat] by simp]
                rw [List.chain'_append]
                refine ⟨hchain, List.chain'_singleton _, ?_⟩
                intro x hx y hy
                simp only [List.head?_cons, Option.mem_def] at hy
                cases hy
                have hlast2 : (start :: path).getLast? = some pt := by
                  rw [show start :: path = [start] ++ path from rfl,
                    List.getLast?_append_of_ne_nil _ hne]
                  exact hlast
                rw [hlast2] at hx
                simp only [Option.mem_def] at hx
                cases hx
                exact hstep
            · intro c hc
              rcases List.mem_append.mp hc with h1 | h1
              · rcases hptOK with ⟨hnil, _⟩ | ⟨_, _, hzone⟩
                · rw [hnil] at h1
                  cases h1
                · exact hzone c h1
              · rcases List.mem_singleton.mp h1 with rfl
                exact hzz
      · rw [if_neg hlen] at hrun
        exact ih _ _ _ res hrest hacc' hrun


/-- Anything in `l.set i v` is `v` or was already in `l`. -/
theorem mem_set_cases {α : Type} : ∀ (l : List α) (i : Nat) (v x : α),
    x ∈ l.set i v → x = v ∨ x ∈ l := by
  intro l
  induction l with
  | nil => intro i v x hx; simp at hx
  | cons a as ih =>
    intro i v x hx
    cases i with
    | zero =>
      rcases List.mem_cons.mp hx with h | h
      · exact Or.inl h
      · exact Or.inr (List.mem_cons_of_mem _ h)
    | succ j =>
      rcases List.mem_cons.mp hx with h | h
      · exact Or.inr (h ▸ List.mem_cons_self _ _)
      · rcases ih j v x h with h2 | h2
        · exact Or.inl h2
        · exact Or.inr (List.mem_cons_of_mem _ h2)

/-- A candidate connection as the stitcher consumes it: border-list indices
with `to < from`, and a zone-interior step chain from `points[from]` through
`path` to `points[to]`. -/
def ConnOK (width zoneId : Nat) (points tileMap : List Nat) (c : RawLineData) : Prop :=
  c.to_ < c.from_ ∧ c.from_ < points.length ∧
  List.Chain' (isStep width) (points.getD c.from_ 0 :: (c.path ++ [points.getD c.to_ 0])) ∧
  ∀ x ∈ c.path, tileMap[x]? = some zoneId

/-- The bucket-filling fold of `calculateConnections` only adds well-formed
connections. -/
theorem foldlM_buckets_good (width zoneId i : Nat) (points tileMap : List Nat) :
    ∀ (paths : List (Nat × List Nat)) (buckets res : List (List RawLineData)),
      (∀ bk ∈ buckets, ∀ c ∈ bk, ConnOK width zoneId points tileMap c) →
      (∀ pp ∈ paths, ∀ index, points.findIdx? (· = pp.1) = some index → index < i →
        ConnOK width zoneId points tileMap ⟨i, index, pp.2⟩) →
      (paths.foldlM (fun buckets (pp : Nat × List Nat) => do
        match points.findIdx? (· = pp.1) with
        | none => none
        | some index =>
          if index ≥ i then pure buckets
          else pure (pushBucket buckets pp.2.length ⟨i, index, pp.2⟩)) buckets) = some res →
      ∀ bk ∈ res, ∀ c ∈ bk, ConnOK width zoneId points tileMap c := by
  intro paths
  induction paths with
  | nil =>
    intro buckets res hb _ hrun
    simp only [List.foldlM_nil] at hrun
    cases hrun
    exact hb
  | cons pp pps ih =>
    intro buckets res hb hpush hrun
    rw [List.foldlM_cons] at hrun
    cases hidx : points.findIdx? (· = pp.1) with
    | none =>
      simp only [hidx] at hrun
      simp at hrun
    | some index =>
      simp only [hidx] at hrun
      by_cases hge : index ≥ i
      · rw [if_pos hge] at hrun
        simp only [Option.pure_def, Option.bind_eq_bind, Option.some_bind] at hrun
        exact ih buckets res hb (fun q hq => hpush q (List.mem_cons_of_mem _ hq)) hrun
      · rw [if_neg hge] at hrun
        simp only [Option.pure_def, Option.bind_eq_bind, Option.some_bind] at hrun
        refine ih _ res ?_ (fun q hq => hpush q (List.mem_cons_of_mem _ hq)) hrun
        intro bk hbk c hc
        rcases mem_set_cases _ _ _ bk hbk with h | h
        · subst h
          rcases List.mem_append.mp hc with h2 | h2
          · exact hb _ (by
              by_cases hd : pp.2.length < buckets.length
              · rw [List.getD_eq_getElem _ _ hd]
                exact List.getElem_mem hd
              · exfalso
                rw [List.getD_eq_default _ _ (by omega)] at h2
                cases h2) c h2
          · rcases List.mem_singleton.mp h2 with rfl
            exact hpush pp (List.mem_cons_self _ _) index hidx (by omega)
        · exact hb bk h c hc

/-- Every connection `calculateConnections` produces is well-formed:
it joins two distinct border points through a zone-interior step chain. -/
theorem calculateConnectionsGo_connOK (fuel width zoneId : Nat) (points tileMap : List Nat)
    (hnd : points.Nodup) :
    ∀ (n : Nat) (buckets res : List (List RawLineData)),
      n ≤ points.length →
      (∀ bk ∈ buckets, ∀ c ∈ bk, ConnOK width zoneId points tileMap c) →
      calculateConnectionsGo fuel width zoneId points points tileMap n buckets = some res →
      ∀ bk ∈ res, ∀ c ∈ bk, ConnOK width zoneId points tileMap c := by
  intro n
  induction n with
  | zero =>
    intro buckets res _ hb hrun
    simp only [calculateConnectionsGo] at hrun
    cases hrun
    exact hb
  | succ n ih =>
    intro buckets res hle hb hrun
    simp only [calculateConnectionsGo] at hrun
    cases hpaths : calculatePaths fuel (points.getD (points.length - (n + 1)) 0) width points
        zoneId tileMap with
    | none =>
      rw [hpaths] at hrun
      simp at hrun
    | some paths =>
      rw [hpaths] at hrun
      simp only [Option.bind_eq_bind, Option.some_bind] at hrun
      cases hfold : (paths.foldlM (fun buckets (pp : Nat × List Nat) => do
          match points.findIdx? (· = pp.1) with
          | none => none
          | some index =>
            if index ≥ points.length - (n + 1) then pure buckets
            else pure (pushBucket buckets pp.2.length
              ⟨points.length - (n + 1), index, pp.2⟩)) buckets) with
      | none =>
        rw [hfold] at hrun
        simp at hrun
      | some buckets2 =>
        rw [hfold] at hrun
        simp only [Option.some_bind] at hrun
        have hrec : ∀ r ∈ paths, RecOK width zoneId tileMap
            (points.getD (points.length - (n + 1)) 0) r :=
          calculatePathsGo_rec width zoneId points tileMap _ fuel _ _ _ paths
            (by
              intro e he
              rcases List.mem_singleton.mp he with rfl
              left
              exact ⟨rfl, rfl⟩)
            (by intro r hr; cases hr) hpaths
        have hb2 : ∀ bk ∈ buckets2, ∀ c ∈ bk, ConnOK width zoneId points tileMap c := by
          refine foldlM_buckets_good width zoneId _ points tileMap paths buckets buckets2 hb
            ?_ hfold
          intro pp hpp index hidx hlt
          obtain ⟨hixlt, hpix⟩ := findIdx?_getD _ points index hidx
          have hqval : points.getD index 0 = pp.1 := by simpa using hpix
          have hi : points.length - (n + 1) < points.length := by omega
          rcases hrec pp hpp with ⟨hq, hp⟩ | ⟨hchain, hzone⟩
          · -- the degenerate self record would have index = i, excluded
            exfalso
            have hfi : points.findIdx? (· = pp.1) = some (points.length - (n + 1)) := by
              rw [hq]
              exact findIdx?_nodup points hnd _ hi
            rw [hfi] at hidx
            cases hidx
            omega
          · refine ⟨hlt, hi, ?_, ?_⟩
            · show List.Chain' (isStep width)
                (points.getD (points.length - (n + 1)) 0 :: (pp.2 ++ [points.getD index 0]))
              rw [hqval]
              exact hchain
            · intro x hx
              exact hzone x (List.mem_append.mpr (Or.inl hx))
        exact ih buckets2 res (by omega) hb2 hrun

theorem getElem?_append_lt {α : Type} (l l2 : List α) (i : Nat) (h : i < l.length) :
    (l ++ l2)[i]? = l[i]? := by
  rw [List.getElem?_append]
  rw [if_pos h]

theorem getElem?_set_self {α : Type} (l : List α) (i : Nat) (v : α) (h : i < l.length) :
    (l.set i v)[i]? = some v := by
  rw [List.getElem?_set_self', List.getElem?_eq_getElem h]
  rfl

theorem lookup_cons_self (k v : Nat) (es : List (Nat × Nat)) :
    List.lookup k ((k, v) :: es) = some v := by
  rw [List.lookup_cons]
  simp

theorem lookup_cons_ne {a k : Nat} (v : Nat) (es : List (Nat × Nat)) (h : a ≠ k) :
    List.lookup a ((k, v) :: es) = List.lookup a es := by
  have hbe : (a == k) = false := beq_eq_false_iff_ne.mpr h
  rw [List.lookup_cons, hbe]

theorem getD_mem (points : List Nat) (i : Nat) (h : i < points.length) :
    points.getD i 0 ∈ points := by
  rw [List.getD_eq_getElem points 0 h]
  exact List.getElem_mem h

theorem headD_of_head? {l : List Nat} {u : Nat} (h : l.head? = some u) : l.headD 0 = u := by
  cases l with
  | nil => simp at h
  | cons a as =>
    simp only [List.head?_cons, Option.some.injEq] at h
    simpa using h

theorem getLastD_of_getLast? {l : List Nat} {u : Nat} (h : l.getLast? = some u) :
    l.getLastD 0 = u := by
  rw [List.getLastD_eq_getLast?, h]
  rfl

theorem exists_head?_ne_nil {l : List Nat} (h : l ≠ []) : ∃ x, l.head? = some x := by
  cases l with
  | nil => exact absurd rfl h
  | cons a as => exact ⟨a, rfl⟩

theorem exists_getLast?_ne_nil {l : List Nat} (h : l ≠ []) : ∃ x, l.getLast? = some x :=
  ⟨l.getLast h, List.getLast?_eq_getLast l h⟩

theorem getD_set_ne (l : List Nat) (i j v : Nat) (h : j ≠ i) :
    (l.set i v).getD j 0 = l.getD j 0 := by
  rw [List.getD_eq_getElem?_getD, List.getD_eq_getElem?_getD,
    List.getElem?_set_ne (Ne.symm h)]

theorem getD_set_self (l : List Nat) (i v : Nat) (h : i < l.length) :
    (l.set i v).getD i 0 = v := by
  rw [List.getD_eq_getElem?_getD, getElem?_set_self l i v h]
  rfl

/-- Gluing two chains through a connecting path. -/
theorem chain'_glue2 {R : Nat → Nat → Prop} {l1 l2 p : List Nat} {a b : Nat}
    (h1 : List.Chain' R l1) (h2 : List.Chain' R l2)
    (ha : l1.getLast? = some a) (hb : l2.head? = some b)
    (hc : List.Chain' R (a :: (p ++ [b]))) :
    List.Chain' R (l1 ++ p ++ l2) := by
  obtain ⟨hhead, htail⟩ := List.chain'_cons'.mp hc
  obtain ⟨hp, _, hlinkp⟩ := List.chain'_append.mp htail
  rw [List.append_assoc, List.chain'_append]
  refine ⟨h1, ?_, ?_⟩
  · rw [List.chain'_append]
    refine ⟨hp, h2, ?_⟩
    intro x hx y hy
    rw [hb] at hy
    have hyb : b = y := by simpa using hy
    subst hyb
    exact hlinkp x hx b (by simp)
  · intro x hx y hy
    rw [ha] at hx
    have hxa : a = x := by simpa using hx
    subst hxa
    apply hhead
    cases p with
    | nil =>
      simp only [List.nil_append] at hy ⊢
      rw [hb] at hy
      have hyb : b = y := by simpa using hy
      subst hyb
      simp
    | cons q qs =>
      simpa using hy

/-- What `concatSegment` produces: a good segment again, the attached end
replaced by the newly added point, the other end untouched. -/
theorem concatSegment_spec (width zoneId : Nat) (tileMap : List Nat)
    (seg path : List Nat) (ending toAdd : Nat)
    (hgood : GoodSeg width zoneId tileMap seg)
    (hlen2 : 2 ≤ seg.length)
    (hend : seg.head? = some ending ∨ seg.getLast? = some ending)
    (hchain : List.Chain' (isStep width) (toAdd :: (path ++ [ending])))
    (hzadd : tileMap[toAdd]? = some zoneId)
    (hzpath : ∀ x ∈ path, tileMap[x]? = some zoneId) :
    GoodSeg width zoneId tileMap (concatSegment seg path ending toAdd) ∧
    2 ≤ (concatSegment seg path ending toAdd).length ∧
    ((seg.head? = some ending ∧
        (concatSegment seg path ending toAdd).head? = some toAdd ∧
        (concatSegment seg path ending toAdd).getLast? = seg.getLast?) ∨
      (¬ seg.head? = some ending ∧ seg.getLast? = some ending ∧
        (concatSegment seg path ending toAdd).head? = seg.head? ∧
        (concatSegment seg path ending toAdd).getLast? = some toAdd)) := by
  have hsegne : seg ≠ [] := by
    intro h0
    rw [h0] at hlen2
    simp at hlen2
  unfold concatSegment
  by_cases hh : seg.head? = some ending
  · rw [if_pos hh]
    refine ⟨⟨?_, ?_⟩, ?_, Or.inl ⟨hh, ?_, ?_⟩⟩
    · show List.Chain' (isStep width) ([toAdd] ++ path ++ seg)
      exact chain'_glue2 (by simp) hgood.1 rfl hh hchain
    · intro c hc
      rcases List.mem_cons.mp hc with h | h
      · subst h
        exact hzadd
      · rcases List.mem_append.mp h with h | h
        · exact hzpath c h
        · exact hgood.2 c h
    · simp only [List.length_cons, List.length_append]
      omega
    · rfl
    · show ((toAdd :: path) ++ seg).getLast? = seg.getLast?
      exact List.getLast?_append_of_ne_nil _ hsegne
  · rw [if_neg hh]
    have hlastend : seg.getLast? = some ending := by
      rcases hend with h | h
      · exact absurd h hh
      · exact h
    refine ⟨⟨?_, ?_⟩, ?_, Or.inr ⟨hh, hlastend, ?_, ?_⟩⟩
    · exact chain'_glue2 hgood.1 (by simp) hlastend rfl (chain'_conn_reverse hchain)
    · intro c hc
      rcases List.mem_append.mp hc with h | h
      · rcases List.mem_append.mp h with h | h
        · exact hgood.2 c h
        · exact hzpath c (List.mem_reverse.mp h)
      · rcases List.mem_singleton.mp h with rfl
        exact hzadd
    · simp only [List.length_append, List.length_reverse, List.length_cons,
        List.length_nil]
      omega
    · rw [List.append_assoc]
      exact List.head?_append_of_ne_nil _ hsegne
    · exact List.getLast?_concat _

/-- What `connectSegments` produces: the splice of the two segments is again a
good segment whose ends are the two former far ends, and the reported new
starting point is segment `A`'s former far end. -/
theorem connectSegments_spec (width zoneId : Nat) (tileMap : List Nat)
    (A B : List Nat) (startA startB : Nat) (path : List Nat) (u wv : Nat)
    (hgA : GoodSeg width zoneId tileMap A) (hgB : GoodSeg width zoneId tileMap B)
    (hA2 : 2 ≤ A.length) (hB2 : 2 ≤ B.length)
    (hAe : A.head? = some startA ∨ A.getLast? = some startA)
    (hBe : B.head? = some startB ∨ B.getLast? = some startB)
    (hu : (if A.head? = some startA then A.getLast? else A.head?) = some u)
    (hw : (if B.head? = some startB then B.getLast? else B.head?) = some wv)
    (hchain : List.Chain' (isStep width) (startA :: (path ++ [startB])))
    (hzpath : ∀ x ∈ path, tileMap[x]? = some zoneId) :
    GoodSeg width zoneId tileMap (connectSegments A B startA startB path).1 ∧
    2 ≤ (connectSegments A B startA startB path).1.length ∧
    (connectSegments A B startA startB path).2 = u ∧
    (((connectSegments A B startA startB path).1.head? = some u ∧
        (connectSegments A B startA startB path).1.getLast? = some wv) ∨
      ((connectSegments A B startA startB path).1.head? = some wv ∧
        (connectSegments A B startA startB path).1.getLast? = some u)) := by
  have hAne : A ≠ [] := by intro h0; rw [h0] at hA2; simp at hA2
  have hBne : B ≠ [] := by intro h0; rw [h0] at hB2; simp at hB2
  have hARne : A.reverse ≠ [] := by simpa using hAne
  have hzAr : ∀ c ∈ A.reverse, tileMap[c]? = some zoneId :=
    fun c hc => hgA.2 c (List.mem_reverse.mp hc)
  have hzpr : ∀ c ∈ path.reverse, tileMap[c]? = some zoneId :=
    fun c hc => hzpath c (List.mem_reverse.mp hc)
  unfold connectSegments
  by_cases hBh : B.head? = some startB
  · rw [if_pos hBh]
    rw [if_pos hBh] at hw
    by_cases hAh : A.head? = some startA
    · rw [if_pos hAh]
      rw [if_pos hAh] at hu
      refine ⟨⟨?_, ?_⟩, ?_, ?_, Or.inl ⟨?_, ?_⟩⟩
      · show List.Chain' (isStep width) (A.reverse ++ path ++ B)
        refine chain'_glue2 (chain'_isStep_reverse hgA.1) hgB.1 ?_ hBh hchain
        rw [List.getLast?_reverse, hAh]
      · intro c hc
        rcases List.mem_append.mp hc with h | h
        · rcases List.mem_append.mp h with h | h
          · exact hzAr c h
          · exact hzpath c h
        · exact hgB.2 c h
      · show 2 ≤ (A.reverse ++ path ++ B).length
        simp only [List.length_append, List.length_reverse]
        omega
      · show connectSegmentsRet A.reverse startA = u
        unfold connectSegmentsRet
        rw [List.head?_reverse]
        by_cases hd : A.getLast? = some startA
        · rw [if_pos hd]
          have hust : startA = u := Option.some.inj (hd.symm.trans hu)
          refine getLastD_of_getLast? ?_
          rw [List.getLast?_reverse, hAh, hust]
        · rw [if_neg hd]
          refine headD_of_head? ?_
          rw [List.head?_reverse, hu]
      · show (A.reverse ++ path ++ B).head? = some u
        rw [List.append_assoc, List.head?_append_of_ne_nil _ hARne,
          List.head?_reverse, hu]
      · show (A.reverse ++ path ++ B).getLast? = some wv
        rw [List.getLast?_append_of_ne_nil _ hBne, hw]
    · rw [if_neg hAh]
      rw [if_neg hAh] at hu
      have hAl : A.getLast? = some startA := by
        rcases hAe with h | h
        · exact absurd h hAh
        · exact h
      refine ⟨⟨?_, ?_⟩, ?_, ?_, Or.inl ⟨?_, ?_⟩⟩
      · show List.Chain' (isStep width) (A ++ path ++ B)
        exact chain'_glue2 hgA.1 hgB.1 hAl hBh hchain
      · intro c hc
        rcases List.mem_append.mp hc with h | h
        · rcases List.mem_append.mp h with h | h
          · exact hgA.2 c h
          · exact hzpath c h
        · exact hgB.2 c h
      · show 2 ≤ (A ++ path ++ B).length
        simp only [List.length_append]
        omega
      · show connectSegmentsRet A startA = u
        unfold connectSegmentsRet
        rw [if_neg hAh]
        exact headD_of_head? hu
      · show (A ++ path ++ B).head? = some u
        rw [List.append_assoc, List.head?_append_of_ne_nil _ hAne, hu]
      · show (A ++ path ++ B).getLast? = some wv
        rw [List.getLast?_append_of_ne_nil _ hBne, hw]
  · rw [if_neg hBh]
    rw [if_neg hBh] at hw
    have hBl : B.getLast? = some startB := by
      rcases hBe with h | h
      · exact absurd h hBh
      · exact h
    by_cases hAh : A.head? = some startA
    · rw [if_pos hAh]
      rw [if_pos hAh] at hu
      refine ⟨⟨?_, ?_⟩, ?_, ?_, Or.inr ⟨?_, ?_⟩⟩
      · show List.Chain' (isStep width) (B ++ path.reverse ++ A)
        exact chain'_glue2 hgB.1 hgA.1 hBl hAh (chain'_conn_reverse hchain)
      · intro c hc
        rcases List.mem_append.mp hc with h | h
        · rcases List.mem_append.mp h with h | h
          · exact hgB.2 c h
          · exact hzpr c h
        · exact hgA.2 c h
      · show 2 ≤ (B ++ path.reverse ++ A).length
        simp only [List.length_append, List.length_reverse]
        omega
      · show connectSegmentsRet A startA = u
        unfold connectSegmentsRet
        rw [if_pos hAh]
        exact getLastD_of_getLast? hu
      · show (B ++ path.reverse ++ A).head? = some wv
        rw [List.append_assoc, List.head?_append_of_ne_nil _ hBne, hw]
      · show (B ++ path.reverse ++ A).getLast? = some u
        rw [List.getLast?_append_of_ne_nil _ hAne, hu]
    · rw [if_neg hAh]
      rw [if_neg hAh] at hu
      have hAl : A.getLast? = some startA := by
        rcases hAe with h | h
        · exact absurd h hAh
        · exact h
      refine ⟨⟨?_, ?_⟩, ?_, ?_, Or.inr ⟨?_, ?_⟩⟩
      · show List.Chain' (isStep width) (B ++ path.reverse ++ A.reverse)
        refine chain'_glue2 hgB.1 (chain'_isStep_reverse hgA.1) hBl ?_
          (chain'_conn_reverse hchain)
        rw [List.head?_reverse, hAl]
      · intro c hc
        rcases List.mem_append.mp hc with h | h
        · rcases List.mem_append.mp h with h | h
          · exact hgB.2 c h
          · exact hzpr c h
        · exact hzAr c h
      · show 2 ≤ (B ++ path.reverse ++ A.reverse).length
        simp only [List.length_append, List.length_reverse]
        omega
      · show connectSegmentsRet A.reverse startA = u
        unfold connectSegmentsRet
        rw [List.head?_reverse, if_pos hAl]
        refine getLastD_of_getLast? ?_
        rw [List.getLast?_reverse, hu]
      · show (B ++ path.reverse ++ A.reverse).head? = some wv
        rw [List.append_assoc, List.head?_append_of_ne_nil _ hBne, hw]
      · show (B ++ path.reverse ++ A.reverse).getLast? = some u
        rw [List.getLast?_append_of_ne_nil _ hARne, List.getLast?_reverse, hu]

theorem mem_of_lookup_eq_some : ∀ (l : List (Nat × Nat)) (a b : Nat),
    l.lookup a = some b → (a, b) ∈ l := by
  intro l
  induction l with
  | nil => intro a b h; simp [List.lookup] at h
  | cons e es ih =>
    intro a b h
    obtain ⟨k, v⟩ := e
    by_cases hak : a = k
    · subst hak
      rw [lookup_cons_self] at h
      have hvb : v = b := Option.some.inj h
      subst hvb
      exact List.mem_cons_self _ _
    · rw [lookup_cons_ne _ _ hak] at h
      exact List.mem_cons_of_mem _ (ih a b h)

theorem lt_length_of_getElem?_eq_some {α : Type} {l : List α} {i : Nat} {a : α}
    (h : l[i]? = some a) : i < l.length := by
  by_contra hlt
  rw [List.getElem?_eq_none (Nat.le_of_not_lt hlt)] at h
  simp at h

/-- The invariant of the stitching loop of `calculateNeededLines`: the degree
array spans the border points, slot indices stored in the segment map address
the segments array, every nonempty segment is a good two-or-more-cell segment,
and every point of degree 1 whose `segmentMap` entry resolves to a live
segment sits at one of that segment's two ends. -/
def StInv (width zoneId : Nat) (points tileMap : List Nat)
    (segments : List (List Nat)) (segmentMap : List (Nat × Nat)) (degree : List Nat) : Prop :=
  degree.length = points.length ∧
  (∀ e ∈ segmentMap, e.2 < segments.length) ∧
  (∀ seg ∈ segments, seg ≠ [] → GoodSeg width zoneId tileMap seg ∧ 2 ≤ seg.length) ∧
  (∀ i s seg, i < points.length → degree.getD i 0 = 1 → segmentMap.lookup i = some s →
    segments[s]? = some seg →
    seg.head? = some (points.getD i 0) ∨ seg.getLast? = some (points.getD i 0))

theorem stInv_init (width zoneId : Nat) (points tileMap : List Nat) :
    StInv width zoneId points tileMap [] [] (List.replicate points.length 0) := by
  refine ⟨List.length_replicate _ _, ?_, ?_, ?_⟩
  · intro e he
    simp at he
  · intro seg hseg
    simp at hseg
  · intro i s seg hi hdeg hlook hseg
    simp [List.lookup] at hlook

/-- One `processConnection` step of the stitching loop (with the accompanying
degree bumps) preserves the stitching invariant. -/
theorem processConnection_inv (width zoneId : Nat) (points tileMap : List Nat)
    (hnd : points.Nodup) (hpts : ∀ p ∈ points, tileMap[p]? = some zoneId)
    (conn : RawLineData) (hconn : ConnOK width zoneId points tileMap conn)
    (segments : List (List Nat)) (segmentMap : List (Nat × Nat)) (degree : List Nat)
    (hinv : StInv width zoneId points tileMap segments segmentMap degree)
    (hcapF : degree.getD conn.from_ 0 ≤ 1) (hcapT : degree.getD conn.to_ 0 ≤ 1)
    (c' : Bool) (segments' : List (List Nat)) (segmentMap' : List (Nat × Nat))
    (hrun : processConnection (degree.getD conn.from_ 0 = 0) (degree.getD conn.to_ 0 = 0)
      conn segments points segmentMap = some (c', segments', segmentMap')) :
    StInv width zoneId points tileMap segments' segmentMap'
      (if c' then
        (degree.set conn.from_ (degree.getD conn.from_ 0 + 1)).set conn.to_
          ((degree.set conn.from_ (degree.getD conn.from_ 0 + 1)).getD conn.to_ 0 + 1)
      else degree) := by
  obtain ⟨hlen, hI3, hI1, hI2⟩ := hinv
  obtain ⟨htf, hflt, hchain, hzpath⟩ := hconn
  have htlt : conn.to_ < points.length := Nat.lt_trans htf hflt
  have hft_ne : conn.from_ ≠ conn.to_ := Nat.ne_of_gt htf
  have htf_ne : conn.to_ ≠ conn.from_ := Nat.ne_of_lt htf
  have hzF : tileMap[points.getD conn.from_ 0]? = some zoneId :=
    hpts _ (getD_mem points conn.from_ hflt)
  have hzT : tileMap[points.getD conn.to_ 0]? = some zoneId :=
    hpts _ (getD_mem points conn.to_ htlt)
  have hflen : conn.from_ < degree.length := by rw [hlen]; exact hflt
  have htlen : conn.to_ < degree.length := by rw [hlen]; exact htlt
  have htlen2 : conn.to_ <
      (degree.set conn.from_ (degree.getD conn.from_ 0 + 1)).length := by
    rw [List.length_set]
    exact htlen
  by_cases hdF : degree.getD conn.from_ 0 = 0
  · by_cases hdT : degree.getD conn.to_ 0 = 0
    · -- both endpoints new: a fresh segment is appended
      have eF : (decide (degree.getD conn.from_ 0 = 0)) = true := decide_eq_true hdF
      have eT : (decide (degree.getD conn.to_ 0 = 0)) = true := decide_eq_true hdT
      unfold processConnection at hrun
      simp only [eF, eT, Bool.false_eq_true, eq_self_iff_true, and_self, and_true, true_and,
        and_false, false_and, if_true, if_false, Option.some.injEq, Prod.mk.injEq] at hrun
      obtain ⟨rfl, rfl, rfl⟩ := hrun
      rw [if_pos rfl]
      refine ⟨?_, ?_, ?_, ?_⟩
      · rw [List.length_set, List.length_set]
        exact hlen
      · intro e he
        rcases List.mem_cons.mp he with rfl | he2
        · show segments.length < (segments ++ [_]).length
          simp only [List.length_append, List.length_cons, List.length_nil]
          omega
        rcases List.mem_cons.mp he2 with rfl | he3
        · show segments.length < (segments ++ [_]).length
          simp only [List.length_append, List.length_cons, List.length_nil]
          omega
        · have h3 := hI3 e he3
          simp only [List.length_append, List.length_cons, List.length_nil]
          omega
      · intro seg hseg hne
        rcases List.mem_append.mp hseg with h | h
        · exact hI1 seg h hne
        · rcases List.mem_singleton.mp h with rfl
          refine ⟨⟨hchain, ?_⟩, ?_⟩
          · intro c hc
            rcases List.mem_cons.mp hc with rfl | hc2
            · exact hzF
            rcases List.mem_append.mp hc2 with hc3 | hc3
            · exact hzpath c hc3
            · rcases List.mem_singleton.mp hc3 with rfl
              exact hzT
          · simp only [List.length_cons, List.length_append, List.length_nil]
            omega
      · intro i s seg hi hdeg hlook hseg
        by_cases hif : i = conn.from_
        · subst hif
          rw [lookup_cons_self] at hlook
          obtain rfl : s = segments.length := (Option.some.inj hlook).symm
          rw [List.getElem?_concat_length] at hseg
          obtain rfl := Option.some.inj hseg
          exact Or.inl rfl
        by_cases hit : i = conn.to_
        · subst hit
          rw [lookup_cons_ne _ _ htf_ne, lookup_cons_self] at hlook
          obtain rfl : s = segments.length := (Option.some.inj hlook).symm
          rw [List.getElem?_concat_length] at hseg
          obtain rfl := Option.some.inj hseg
          refine Or.inr ?_
          show ((points.getD conn.from_ 0 :: conn.path) ++
            [points.getD conn.to_ 0]).getLast? = _
          exact List.getLast?_concat _
        · rw [lookup_cons_ne _ _ hif, lookup_cons_ne _ _ hit] at hlook
          rw [getD_set_ne _ _ _ _ hit, getD_set_ne _ _ _ _ hif] at hdeg
          by_cases hslt : s < segments.length
          · rw [getElem?_append_lt _ _ _ hslt] at hseg
            exact hI2 i s seg hi hdeg hlook hseg
          · have hmem := mem_of_lookup_eq_some segmentMap i s hlook
            exact absurd (hI3 (i, s) hmem) hslt
    · -- only `from` is new: its point is attached to `to`'s segment
      have hdT1 : degree.getD conn.to_ 0 = 1 := by omega
      have eF : (decide (degree.getD conn.from_ 0 = 0)) = true := decide_eq_true hdF
      have eT : (decide (degree.getD conn.to_ 0 = 0)) = false := decide_eq_false hdT
      unfold processConnection at hrun
      simp only [eF, eT, Bool.false_eq_true, eq_self_iff_true, and_self, and_true, true_and,
        and_false, false_and, if_true, if_false] at hrun
      cases hlookT : segmentMap.lookup conn.to_ with
      | none =>
        simp only [hlookT] at hrun
        exact Option.noConfusion hrun
      | some s =>
        simp only [hlookT] at hrun
        cases hsegT : segments[s]? with
        | none =>
          simp only [hsegT] at hrun
          exact Option.noConfusion hrun
        | some seg =>
          simp only [hsegT, Option.some.injEq, Prod.mk.injEq] at hrun
          obtain ⟨rfl, rfl, rfl⟩ := hrun
          rw [if_pos rfl]
          have hend := hI2 conn.to_ s seg htlt hdT1 hlookT hsegT
          have hsegne : seg ≠ [] := by
            intro h0
            subst h0
            simp at hend
          obtain ⟨hgood, hlen2⟩ := hI1 seg (List.getElem?_mem hsegT) hsegne
          have hslt : s < segments.length := lt_length_of_getElem?_eq_some hsegT
          obtain ⟨hg2, hl2, hends⟩ := concatSegment_spec width zoneId tileMap seg conn.path
            (points.getD conn.to_ 0) (points.getD conn.from_ 0) hgood hlen2 hend hchain
            hzF hzpath
          refine ⟨?_, ?_, ?_, ?_⟩
          · rw [List.length_set, List.length_set]
            exact hlen
          · intro e he
            rcases List.mem_cons.mp he with rfl | he2
            · show s < (segments.set _ _).length
              rw [List.length_set]
              exact hslt
            · have h3 := hI3 e he2
              rw [List.length_set]
              exact h3
          · intro sg hsg hne
            rcases mem_set_cases segments s _ sg hsg with rfl | h2
            · exact ⟨hg2, hl2⟩
            · exact hI1 sg h2 hne
          · intro i s2 sg hi hdeg hlook hseg2
            by_cases hif : i = conn.from_
            · subst hif
              rw [lookup_cons_self] at hlook
              obtain rfl : s2 = s := (Option.some.inj hlook).symm
              rw [getElem?_set_self _ _ _ hslt] at hseg2
              obtain rfl := Option.some.inj hseg2
              rcases hends with ⟨_, hh, _⟩ | ⟨_, _, _, hl⟩
              · exact Or.inl hh
              · exact Or.inr hl
            by_cases hit : i = conn.to_
            · subst hit
              rw [getD_set_self _ _ _ htlen2] at hdeg
              rw [getD_set_ne _ _ _ _ htf_ne, hdT1] at hdeg
              exact absurd hdeg (by decide)
            · rw [getD_set_ne _ _ _ _ hit, getD_set_ne _ _ _ _ hif] at hdeg
              rw [lookup_cons_ne _ _ hif] at hlook
              by_cases hs2 : s2 = s
              · subst hs2
                rw [getElem?_set_self _ _ _ hslt] at hseg2
                obtain rfl := Option.some.inj hseg2
                have hold := hI2 i s2 seg hi hdeg hlook hsegT
                rcases hends with ⟨hhv, _, hlpres⟩ | ⟨hnh, hlv, hhpres, _⟩
                · rcases hold with hh | hl
                  · have hvv : points.getD i 0 = points.getD conn.to_ 0 :=
                      (Option.some.inj (hhv.symm.trans hh)).symm
                    exact absurd (nodup_getD_inj points hnd hi htlt hvv) hit
                  · exact Or.inr (hlpres.trans hl)
                · rcases hold with hh | hl
                  · exact Or.inl (hhpres.trans hh)
                  · have hvv : points.getD i 0 = points.getD conn.to_ 0 :=
                      (Option.some.inj (hlv.symm.trans hl)).symm
                    exact absurd (nodup_getD_inj points hnd hi htlt hvv) hit
              · rw [List.getElem?_set_ne (fun h => hs2 h.symm)] at hseg2
                exact hI2 i s2 sg hi hdeg hlook hseg2
  · have hdF1 : degree.getD conn.from_ 0 = 1 := by omega
    by_cases hdT : degree.getD conn.to_ 0 = 0
    · -- only `to` is new: its point is attached to `from`'s segment
      have eF : (decide (degree.getD conn.from_ 0 = 0)) = false := decide_eq_false hdF
      have eT : (decide (degree.getD conn.to_ 0 = 0)) = true := decide_eq_true hdT
      unfold processConnection at hrun
      simp only [eF, eT, Bool.false_eq_true, eq_self_iff_true, and_self, and_true, true_and,
        and_false, false_and, if_true, if_false] at hrun
      cases hlookF : segmentMap.lookup conn.from_ with
      | none =>
        simp only [hlookF] at hrun
        exact Option.noConfusion hrun
      | some s =>
        simp only [hlookF] at hrun
        cases hsegF : segments[s]? with
        | none =>
          simp only [hsegF] at hrun
          exact Option.noConfusion hrun
        | some seg =>
          simp only [hsegF, Option.some.injEq, Prod.mk.injEq] at hrun
          obtain ⟨rfl, rfl, rfl⟩ := hrun
          rw [if_pos rfl]
          have hend := hI2 conn.from_ s seg hflt hdF1 hlookF hsegF
          have hsegne : seg ≠ [] := by
            intro h0
            subst h0
            simp at hend
          obtain ⟨hgood, hlen2⟩ := hI1 seg (List.getElem?_mem hsegF) hsegne
          have hslt : s < segments.length := lt_length_of_getElem?_eq_some hsegF
          have hzr : ∀ x ∈ conn.path.reverse, tileMap[x]? = some zoneId :=
            fun x hx => hzpath x (List.mem_reverse.mp hx)
          obtain ⟨hg2, hl2, hends⟩ := concatSegment_spec width zoneId tileMap seg
            conn.path.reverse (points.getD conn.from_ 0) (points.getD conn.to_ 0) hgood
            hlen2 hend (chain'_conn_reverse hchain) hzT hzr
          refine ⟨?_, ?_, ?_, ?_⟩
          · rw [List.length_set, List.length_set]
            exact hlen
          · intro e he
            rcases List.mem_cons.mp he with rfl | he2
            · show s < (segments.set _ _).length
              rw [List.length_set]
              exact hslt
            · have h3 := hI3 e he2
              rw [List.length_set]
              exact h3
          · intro sg hsg hne
            rcases mem_set_cases segments s _ sg hsg with rfl | h2
            · exact ⟨hg2, hl2⟩
            · exact hI1 sg h2 hne
          · intro i s2 sg hi hdeg hlook hseg2
            by_cases hit : i = conn.to_
            · subst hit
              rw [lookup_cons_self] at hlook
              obtain rfl : s2 = s := (Option.some.inj hlook).symm
              rw [getElem?_set_self _ _ _ hslt] at hseg2
              obtain rfl := Option.some.inj hseg2
              rcases hends with ⟨_, hh, _⟩ | ⟨_, _, _, hl⟩
              · exact Or.inl hh
              · exact Or.inr hl
            by_cases hif : i = conn.from_
            · subst hif
              rw [getD_set_ne _ _ _ _ hft_ne] at hdeg
              rw [getD_set_self _ _ _ hflen, hdF1] at hdeg
              exact absurd hdeg (by decide)
            · rw [getD_set_ne _ _ _ _ hit, getD_set_ne _ _ _ _ hif] at hdeg
              rw [lookup_cons_ne _ _ hit] at hlook
              by_cases hs2 : s2 = s
              · subst hs2
                rw [getElem?_set_self _ _ _ hslt] at hseg2
                obtain rfl := Option.some.inj hseg2
                have hold := hI2 i s2 seg hi hdeg hlook hsegF
                rcases hends with ⟨hhv, _, hlpres⟩ | ⟨hnh, hlv, hhpres, _⟩
                · rcases hold with hh | hl
                  · have hvv : points.getD i 0 = points.getD conn.from_ 0 :=
                      (Option.some.inj (hhv.symm.trans hh)).symm
                    exact absurd (nodup_getD_inj points hnd hi hflt hvv) hif
                  · exact Or.inr (hlpres.trans hl)
                · rcases hold with hh | hl
                  · exact Or.inl (hhpres.trans hh)
                  · have hvv : points.getD i 0 = points.getD conn.from_ 0 :=
                      (Option.some.inj (hlv.symm.trans hl)).symm
                    exact absurd (nodup_getD_inj points hnd hi hflt hvv) hif
              · rw [List.getElem?_set_ne (fun h => hs2 h.symm)] at hseg2
                exact hI2 i s2 sg hi hdeg hlook hseg2
    · -- neither endpoint is new: two live segments are merged (or skipped)
      have hdT1 : degree.getD conn.to_ 0 = 1 := by omega
      have eF : (decide (degree.getD conn.from_ 0 = 0)) = false := decide_eq_false hdF
      have eT : (decide (degree.getD conn.to_ 0 = 0)) = false := decide_eq_false hdT
      unfold processConnection at hrun
      simp only [eF, eT, Bool.false_eq_true, eq_self_iff_true, and_self, and_true, true_and,
        and_false, false_and, if_true, if_false] at hrun
      cases hlookF : segmentMap.lookup conn.from_ with
      | none =>
        cases hlookT : segmentMap.lookup conn.to_ with
        | none =>
          simp only [hlookF, hlookT] at hrun
          exact Option.noConfusion hrun
        | some st =>
          simp only [hlookF, hlookT] at hrun
          exact Option.noConfusion hrun
      | some sf =>
        cases hlookT : segmentMap.lookup conn.to_ with
        | none =>
          simp only [hlookF, hlookT] at hrun
          exact Option.noConfusion hrun
        | some st =>
          simp only [hlookF, hlookT] at hrun
          by_cases hsfst : sf = st
          · rw [if_neg (fun h => h hsfst)] at hrun
            simp only [Option.some.injEq, Prod.mk.injEq] at hrun
            obtain ⟨rfl, rfl, rfl⟩ := hrun
            rw [if_neg (by simp)]
            exact ⟨hlen, hI3, hI1, hI2⟩
          · rw [if_pos hsfst] at hrun
            cases hsegF : segments[sf]? with
            | none =>
              cases hsegT : segments[st]? with
              | none =>
                simp only [hsegF, hsegT] at hrun
                exact Option.noConfusion hrun
              | some B =>
                simp only [hsegF, hsegT] at hrun
                exact Option.noConfusion hrun
            | some A =>
              cases hsegT : segments[st]? with
              | none =>
                simp only [hsegF, hsegT] at hrun
                exact Option.noConfusion hrun
              | some B =>
                simp only [hsegF, hsegT] at hrun
                have hendF := hI2 conn.from_ sf A hflt hdF1 hlookF hsegF
                have hendT := hI2 conn.to_ st B htlt hdT1 hlookT hsegT
                have hAne : A ≠ [] := by
                  intro h0
                  subst h0
                  simp at hendF
                have hBne : B ≠ [] := by
                  intro h0
                  subst h0
                  simp at hendT
                obtain ⟨hgA, hA2⟩ := hI1 A (List.getElem?_mem hsegF) hAne
                obtain ⟨hgB, hB2⟩ := hI1 B (List.getElem?_mem hsegT) hBne
                have hsfl : sf < segments.length := lt_length_of_getElem?_eq_some hsegF
                have hstl : st < segments.length := lt_length_of_getElem?_eq_some hsegT
                obtain ⟨u, hu⟩ : ∃ u, (if A.head? = some (points.getD conn.from_ 0)
                    then A.getLast? else A.head?) = some u := by
                  by_cases hAh : A.head? = some (points.getD conn.from_ 0)
                  · rw [if_pos hAh]
                    exact exists_getLast?_ne_nil hAne
                  · rw [if_neg hAh]
                    exact exists_head?_ne_nil hAne
                obtain ⟨wv, hw⟩ : ∃ wv, (if B.head? = some (points.getD conn.to_ 0)
                    then B.getLast? else B.head?) = some wv := by
                  by_cases hBh : B.head? = some (points.getD conn.to_ 0)
                  · rw [if_pos hBh]
                    exact exists_getLast?_ne_nil hBne
                  · rw [if_neg hBh]
                    exact exists_head?_ne_nil hBne
                obtain ⟨hgC, hlC, hret, hendsC⟩ := connectSegments_spec width zoneId tileMap
                  A B (points.getD conn.from_ 0) (points.getD conn.to_ 0) conn.path u wv
                  hgA hgB hA2 hB2 hendF hendT hu hw hchain hzpath
                have hAends : ∀ x : Nat, (A.head? = some x ∨ A.getLast? = some x) →
                    x = points.getD conn.from_ 0 ∨ x = u := by
                  intro x hx
                  by_cases hAh : A.head? = some (points.getD conn.from_ 0)
                  · rw [if_pos hAh] at hu
                    rcases hx with h | h
                    · exact Or.inl (Option.some.inj (hAh.symm.trans h)).symm
                    · exact Or.inr (Option.some.inj (hu.symm.trans h)).symm
                  · rw [if_neg hAh] at hu
                    have hAl : A.getLast? = some (points.getD conn.from_ 0) :=
                      hendF.resolve_left hAh
                    rcases hx with h | h
                    · exact Or.inr (Option.some.inj (hu.symm.trans h)).symm
                    · exact Or.inl (Option.some.inj (hAl.symm.trans h)).symm
                have hBends : ∀ x : Nat, (B.head? = some x ∨ B.getLast? = some x) →
                    x = points.getD conn.to_ 0 ∨ x = wv := by
                  intro x hx
                  by_cases hBh : B.head? = some (points.getD conn.to_ 0)
                  · rw [if_pos hBh] at hw
                    rcases hx with h | h
                    · exact Or.inl (Option.some.inj (hBh.symm.trans h)).symm
                    · exact Or.inr (Option.some.inj (hw.symm.trans h)).symm
                  · rw [if_neg hBh] at hw
                    have hBl : B.getLast? = some (points.getD conn.to_ 0) :=
                      hendT.resolve_left hBh
                    rcases hx with h | h
                    · exact Or.inr (Option.some.inj (hw.symm.trans h)).symm
                    · exact Or.inl (Option.some.inj (hBl.symm.trans h)).symm
                rw [hret] at hrun
                cases hfind : points.findIdx? (· = u) with
                | none =>
                  simp only [hfind, Option.some.injEq, Prod.mk.injEq] at hrun
                  obtain ⟨rfl, rfl, rfl⟩ := hrun
                  rw [if_pos rfl]
                  have hnou : ∀ j : Nat, j < points.length → points.getD j 0 ≠ u := by
                    intro j hj hju
                    have hfb := List.findIdx?_eq_none_iff.mp hfind (points.getD j 0)
                      (getD_mem points j hj)
                    rw [hju] at hfb
                    simp at hfb
                  refine ⟨?_, ?_, ?_, ?_⟩
                  · rw [List.length_set, List.length_set]
                    exact hlen
                  · intro e he
                    have h3 := hI3 e he
                    rw [List.length_set, List.length_set]
                    exact h3
                  · intro sg hsg hne
                    rcases mem_set_cases _ _ _ sg hsg with rfl | h2
                    · exact absurd rfl hne
                    rcases mem_set_cases segments st _ sg h2 with rfl | h3
                    · exact ⟨hgC, hlC⟩
                    · exact hI1 sg h3 hne
                  · intro i s2 sg hi hdeg hlook hseg2
                    by_cases hif : i = conn.from_
                    · subst hif
                      rw [getD_set_ne _ _ _ _ hft_ne] at hdeg
                      rw [getD_set_self _ _ _ hflen, hdF1] at hdeg
                      exact absurd hdeg (by decide)
                    by_cases hit : i = conn.to_
                    · subst hit
                      rw [getD_set_self _ _ _ htlen2] at hdeg
                      rw [getD_set_ne _ _ _ _ htf_ne, hdT1] at hdeg
                      exact absurd hdeg (by decide)
                    · rw [getD_set_ne _ _ _ _ hit, getD_set_ne _ _ _ _ hif] at hdeg
                      by_cases hs2sf : s2 = sf
                      · subst hs2sf
                        have hold := hI2 i s2 A hi hdeg hlook hsegF
                        rcases hAends _ hold with hv | hv
                        · have hiv := nodup_getD_inj points hnd hi hflt hv
                          exact absurd hiv hif
                        · exact absurd hv (hnou i hi)
                      · rw [List.getElem?_set_ne (fun h => hs2sf h.symm)] at hseg2
                        by_cases hs2st : s2 = st
                        · subst hs2st
                          rw [getElem?_set_self _ _ _ hstl] at hseg2
                          obtain rfl := Option.some.inj hseg2
                          have hold := hI2 i s2 B hi hdeg hlook hsegT
                          rcases hBends _ hold with hv | hv
                          · have hiv := nodup_getD_inj points hnd hi htlt hv
                            exact absurd hiv hit
                          · rcases hendsC with ⟨_, hl⟩ | ⟨hh, _⟩
                            · refine Or.inr ?_
                              rw [hv]
                              exact hl
                            · refine Or.inl ?_
                              rw [hv]
                              exact hh
                        · rw [List.getElem?_set_ne (fun h => hs2st h.symm)] at hseg2
                          exact hI2 i s2 sg hi hdeg hlook hseg2
                | some iu =>
                  simp only [hfind, Option.some.injEq, Prod.mk.injEq] at hrun
                  obtain ⟨rfl, rfl, rfl⟩ := hrun
                  rw [if_pos rfl]
                  obtain ⟨hiult, hpu⟩ := findIdx?_getD _ points iu hfind
                  have hpu2 : points.getD iu 0 = u := of_decide_eq_true hpu
                  refine ⟨?_, ?_, ?_, ?_⟩
                  · rw [List.length_set, List.length_set]
                    exact hlen
                  · intro e he
                    rcases List.mem_cons.mp he with rfl | he2
                    · show st < ((segments.set _ _).set _ _).length
                      rw [List.length_set, List.length_set]
                      exact hstl
                    · have h3 := hI3 e he2
                      rw [List.length_set, List.length_set]
                      exact h3
                  · intro sg hsg hne
                    rcases mem_set_cases _ _ _ sg hsg with rfl | h2
                    · exact absurd rfl hne
                    rcases mem_set_cases segments st _ sg h2 with rfl | h3
                    · exact ⟨hgC, hlC⟩
                    · exact hI1 sg h3 hne
                  · intro i s2 sg hi hdeg hlook hseg2
                    by_cases hif : i = conn.from_
                    · subst hif
                      rw [getD_set_ne _ _ _ _ hft_ne] at hdeg
                      rw [getD_set_self _ _ _ hflen, hdF1] at hdeg
                      exact absurd hdeg (by decide)
                    by_cases hit : i = conn.to_
                    · subst hit
                      rw [getD_set_self _ _ _ htlen2] at hdeg
                      rw [getD_set_ne _ _ _ _ htf_ne, hdT1] at hdeg
                      exact absurd hdeg (by decide)
                    · rw [getD_set_ne _ _ _ _ hit, getD_set_ne _ _ _ _ hif] at hdeg
                      by_cases hiiu : i = iu
                      · subst hiiu
                        rw [lookup_cons_self] at hlook
                        obtain rfl : s2 = st := (Option.some.inj hlook).symm
                        rw [List.getElem?_set_ne hsfst, getElem?_set_self _ _ _ hstl] at hseg2
                        obtain rfl := Option.some.inj hseg2
                        rcases hendsC with ⟨hh, _⟩ | ⟨_, hl⟩
                        · refine Or.inl ?_
                          rw [hpu2]
                          exact hh
                        · refine Or.inr ?_
                          rw [hpu2]
                          exact hl
                      · rw [lookup_cons_ne _ _ hiiu] at hlook
                        by_cases hs2sf : s2 = sf
                        · subst hs2sf
                          have hold := hI2 i s2 A hi hdeg hlook hsegF
                          rcases hAends _ hold with hv | hv
                          · have hiv := nodup_getD_inj points hnd hi hflt hv
                            exact absurd hiv hif
                          · rw [← hpu2] at hv
                            have hiv := nodup_getD_inj points hnd hi hiult hv
                            exact absurd hiv hiiu
                        · rw [List.getElem?_set_ne (fun h => hs2sf h.symm)] at hseg2
                          by_cases hs2st : s2 = st
                          · subst hs2st
                            rw [getElem?_set_self _ _ _ hstl] at hseg2
                            obtain rfl := Option.some.inj hseg2
                            have hold := hI2 i s2 B hi hdeg hlook hsegT
                            rcases hBends _ hold with hv | hv
                            · have hiv := nodup_getD_inj points hnd hi htlt hv
                              exact absurd hiv hit
                            · rcases hendsC with ⟨_, hl⟩ | ⟨hh, _⟩
                              · refine Or.inr ?_
                                rw [hv]
                                exact hl
                              · refine Or.inl ?_
                                rw [hv]
                                exact hh
                          · rw [List.getElem?_set_ne (fun h => hs2st h.symm)] at hseg2
                            exact hI2 i s2 sg hi hdeg hlook hseg2

/-- Every bucket pass of the stitching loop preserves the invariant. -/
theorem stitchBucket_inv (width zoneId : Nat) (points tileMap : List Nat)
    (hnd : points.Nodup) (hpts : ∀ p ∈ points, tileMap[p]? = some zoneId) :
    ∀ (conns : List RawLineData) (segments : List (List Nat))
      (segmentMap : List (Nat × Nat)) (degree : List Nat)
      (st' : List (List Nat) × List (Nat × Nat) × List Nat),
      (∀ c ∈ conns, ConnOK width zoneId points tileMap c) →
      StInv width zoneId points tileMap segments segmentMap degree →
      stitchBucket points conns (segments, segmentMap, degree) = some st' →
      StInv width zoneId points tileMap st'.1 st'.2.1 st'.2.2 := by
  intro conns
  induction conns with
  | nil =>
    intro segments segmentMap degree st' _ hinv hrun
    simp only [stitchBucket, Option.some.injEq] at hrun
    rw [← hrun]
    exact hinv
  | cons conn conns ih =>
    intro segments segmentMap degree st' hok hinv hrun
    simp only [stitchBucket] at hrun
    by_cases hcap : degree.getD conn.from_ 0 ≥ 2 ∨ degree.getD conn.to_ 0 ≥ 2
    · rw [if_pos hcap] at hrun
      exact ih segments segmentMap degree st'
        (fun c hc => hok c (List.mem_cons_of_mem _ hc)) hinv hrun
    · rw [if_neg hcap] at hrun
      push_neg at hcap
      obtain ⟨hc1, hc2⟩ := hcap
      have hcapF : degree.getD conn.from_ 0 ≤ 1 := by omega
      have hcapT : degree.getD conn.to_ 0 ≤ 1 := by omega
      cases hpc : processConnection (degree.getD conn.from_ 0 = 0)
          (degree.getD conn.to_ 0 = 0) conn segments points segmentMap with
      | none =>
        simp only [hpc] at hrun
        exact Option.noConfusion hrun
      | some trip =>
        obtain ⟨c2, segments2, segmentMap2⟩ := trip
        simp only [hpc] at hrun
        have hinv2 := processConnection_inv width zoneId points tileMap hnd hpts conn
          (hok conn (List.mem_cons_self _ _)) segments segmentMap degree hinv hcapF hcapT
          c2 segments2 segmentMap2 hpc
        cases c2 with
        | true =>
          rw [if_pos rfl] at hinv2
          rw [if_pos rfl] at hrun
          exact ih _ _ _ st' (fun c hc => hok c (List.mem_cons_of_mem _ hc)) hinv2 hrun
        | false =>
          rw [if_neg (by simp)] at hinv2
          rw [if_neg (by simp)] at hrun
          exact ih _ _ _ st' (fun c hc => hok c (List.mem_cons_of_mem _ hc)) hinv2 hrun

/-- The whole stitching loop preserves the invariant. -/
theorem stitchAll_inv (width zoneId : Nat) (points tileMap : List Nat)
    (hnd : points.Nodup) (hpts : ∀ p ∈ points, tileMap[p]? = some zoneId) :
    ∀ (buckets : List (List RawLineData)) (segments : List (List Nat))
      (segmentMap : List (Nat × Nat)) (degree : List Nat)
      (st' : List (List Nat) × List (Nat × Nat) × List Nat),
      (∀ bk ∈ buckets, ∀ c ∈ bk, ConnOK width zoneId points tileMap c) →
      StInv width zoneId points tileMap segments segmentMap degree →
      stitchAll points buckets (segments, segmentMap, degree) = some st' →
      StInv width zoneId points tileMap st'.1 st'.2.1 st'.2.2 := by
  intro buckets
  induction buckets with
  | nil =>
    intro segments segmentMap degree st' _ hinv hrun
    simp only [stitchAll, Option.some.injEq] at hrun
    rw [← hrun]
    exact hinv
  | cons bucket buckets ih =>
    intro segments segmentMap degree st' hok hinv hrun
    simp only [stitchAll, Option.pure_def, Option.bind_eq_bind] at hrun
    cases hb : stitchBucket points bucket (segments, segmentMap, degree) with
    | none =>
      rw [hb, Option.none_bind] at hrun
      exact Option.noConfusion hrun
    | some st1 =>
      obtain ⟨segs1, map1, deg1⟩ := st1
      rw [hb, Option.some_bind] at hrun
      have hmid := stitchBucket_inv width zoneId points tileMap hnd hpts bucket
        segments segmentMap degree (segs1, map1, deg1)
        (hok bucket (List.mem_cons_self _ _)) hinv hb
      exact ih segs1 map1 deg1 st'
        (fun bk hbk => hok bk (List.mem_cons_of_mem _ hbk)) hmid hrun

/-- One list occurring contiguously inside another. -/
def SliceOf (s t : List Nat) : Prop := ∃ a b, t = a ++ s ++ b

theorem sliceOf_refl (s : List Nat) : SliceOf s s := ⟨[], [], by simp⟩

theorem sliceOf_take (s : List Nat) (n : Nat) : SliceOf (s.take n) s :=
  ⟨[], s.drop n, by simp⟩

theorem sliceOf_drop (s : List Nat) (n : Nat) : SliceOf (s.drop n) s :=
  ⟨s.take n, [], by simp⟩

theorem sliceOf_trans {s t r : List Nat} (h1 : SliceOf s t) (h2 : SliceOf t r) :
    SliceOf s r := by
  obtain ⟨a, b, rfl⟩ := h1
  obtain ⟨c, d, rfl⟩ := h2
  exact ⟨c ++ a, b ++ d, by simp⟩

theorem chain'_of_sliceOf {R : Nat → Nat → Prop} {s t : List Nat} (hs : SliceOf s t)
    (h : List.Chain' R t) : List.Chain' R s := by
  obtain ⟨a, b, rfl⟩ := hs
  have h1 := (List.chain'_append.mp h).1
  exact (List.chain'_append.mp h1).2.1

theorem mem_of_sliceOf {s t : List Nat} {c : Nat} (hs : SliceOf s t) (h : c ∈ s) : c ∈ t := by
  obtain ⟨a, b, rfl⟩ := hs
  simp [h]

/-- Every segment produced by the cropping loop is a contiguous slice of one
of the input segments. -/
theorem cropLinesGo_sliceOf : ∀ (fuel : Nat) (ls : List (List Nat)),
    ∀ s ∈ cropLinesGo fuel ls, ∃ t ∈ ls, SliceOf s t := by
  intro fuel
  induction fuel with
  | zero =>
    intro ls s hs
    exact ⟨s, hs, sliceOf_refl s⟩
  | succ n ih =>
    intro ls s hs
    cases ls with
    | nil => simp [cropLinesGo] at hs
    | cons l rest =>
      simp only [cropLinesGo] at hs
      by_cases hl : l.length > 256
      · rw [if_pos hl] at hs
        rcases List.mem_cons.mp hs with rfl | hs2
        · exact ⟨l, List.mem_cons_self _ _, sliceOf_take l 256⟩
        · obtain ⟨t, ht, hslice⟩ := ih (rest ++ [l.drop 256]) s hs2
          rcases List.mem_append.mp ht with h | h
          · exact ⟨t, List.mem_cons_of_mem _ h, hslice⟩
          · rcases List.mem_singleton.mp h with rfl
            exact ⟨l, List.mem_cons_self _ _, sliceOf_trans hslice (sliceOf_drop l 256)⟩
      · rw [if_neg hl] at hs
        rcases List.mem_cons.mp hs with rfl | hs2
        · exact ⟨s, List.mem_cons_self _ _, sliceOf_refl s⟩
        · obtain ⟨t, ht, hs3⟩ := ih rest s hs2
          exact ⟨t, List.mem_cons_of_mem _ ht, hs3⟩

set_option maxRecDepth 100000 in
/-- **C6**: every line produced by `calculateNeededLines` for a zone consists
of cells that carry that zone's id (given that the border points it is handed
do), every pair of consecutive cells differs by exactly one of `+1`, `-1`,
`+width`, `-width`, and the line's length is between 1 and 256 cells. -/
theorem calculateNeededLines_line_validity (fuel width zoneId : Nat)
    (points tileMap : List Nat) (segs : List (List Nat))
    (hnd : points.Nodup) (hpts : ∀ p ∈ points, tileMap[p]? = some zoneId)
    (hrun : calculateNeededLines fuel width points points zoneId tileMap = some segs) :
    ∀ s ∈ segs, (∀ c ∈ s, tileMap[c]? = some zoneId) ∧
      List.Chain' (isStep width) s ∧ 1 ≤ s.length ∧ s.length ≤ 256 := by
  unfold calculateNeededLines at hrun
  cases hconn : calculateConnections fuel width zoneId points points tileMap with
  | none =>
    simp only [hconn, Option.pure_def, Option.bind_eq_bind, Option.none_bind] at hrun
    exact Option.noConfusion hrun
  | some buckets =>
    simp only [hconn, Option.pure_def, Option.bind_eq_bind, Option.some_bind] at hrun
    cases hstitch : stitchAll points buckets ([], [], List.replicate points.length 0) with
    | none =>
      rw [hstitch, Option.none_bind] at hrun
      exact Option.noConfusion hrun
    | some st =>
      obtain ⟨segments, segmentMap, degree⟩ := st
      rw [hstitch, Option.some_bind] at hrun
      have hsegs := Option.some.inj hrun
      have hok : ∀ bk ∈ buckets, ∀ c ∈ bk, ConnOK width zoneId points tileMap c := by
        refine calculateConnectionsGo_connOK fuel width zoneId points tileMap hnd
          points.length (List.replicate 8 []) buckets (Nat.le_refl _) ?_ hconn
        intro bk hbk c hc
        rw [(List.mem_replicate.mp hbk).2] at hc
        simp at hc
      have hinv := stitchAll_inv width zoneId points tileMap hnd hpts buckets [] []
        (List.replicate points.length 0) (segments, segmentMap, degree) hok
        (stInv_init width zoneId points tileMap) hstitch
      intro s hs
      rw [← hsegs] at hs
      obtain ⟨hmem, hposb⟩ := List.mem_filter.mp hs
      have hpos : 0 < s.length := of_decide_eq_true hposb
      unfold addSingles at hmem
      rcases List.mem_append.mp hmem with hcs | hsingle
      · have hcs2 : s ∈ cropLinesGo (segments.length + sumLen segments) segments := hcs
        obtain ⟨t, ht, hslice⟩ := cropLinesGo_sliceOf _ _ s hcs2
        have htne : t ≠ [] := by
          intro h0
          subst h0
          obtain ⟨a, b, hab⟩ := hslice
          obtain ⟨hab1, _⟩ := List.append_eq_nil.mp hab.symm
          obtain ⟨_, hs0⟩ := List.append_eq_nil.mp hab1
          rw [hs0] at hpos
          simp at hpos
        obtain ⟨⟨hchain, hzone⟩, _⟩ := hinv.2.2.1 t ht htne
        refine ⟨fun c hc => hzone c (mem_of_sliceOf hslice hc),
          chain'_of_sliceOf hslice hchain, hpos, ?_⟩
        exact cropLinesGo_length_le (segments.length + sumLen segments) segments
          (Nat.le_refl _) s hcs2
      · obtain ⟨i, hi, rfl⟩ := List.mem_map.mp hsingle
        have hi2 : i < points.length := List.mem_range.mp (List.mem_of_mem_filter hi)
        refine ⟨?_, List.chain'_singleton _, by simp, ?_⟩
        · intro c hc
          rcases List.mem_singleton.mp hc with rfl
          exact hpts _ (getD_mem points i hi2)
        · have h1 : ([points.getD i 0] : List Nat).length = 1 := rfl
          rw [h1]
          omega

set_option maxRecDepth 100000 in
/-- **C6** (witness): on a 3-cell single-row zone the produced line list is
`[[2, 1, 0]]`, and the theorem's guarantees hold for that line. -/
theorem calculateNeededLines_line_validity_witness :
    List.Chain' (isStep 3) [2, 1, 0] ∧ 1 ≤ ([2, 1, 0] : List Nat).length ∧
      ([2, 1, 0] : List Nat).length ≤ 256 :=
  (calculateNeededLines_line_validity 20 3 1 [0, 1, 2] [1, 1, 1] [[2, 1, 0]]
    (by decide) (by decide) (by rfl) [2, 1, 0] (by decide)).2

theorem getD_replicate_zero (n j : Nat) : (List.replicate n (0 : Nat)).getD j 0 = 0 := by
  rw [List.getD_eq_getElem?_getD, List.getElem?_replicate]
  by_cases h : j < n
  · rw [if_pos h]
    rfl
  · rw [if_neg h]
    rfl

/-- The flood-fill loop never changes an already-marked cell. -/
theorem exploreZoneGo_keep : ∀ (fuel : Nat) (tileTypes : List Nat) (width : Nat)
    (stack zoneMap : List Nat) (zoneId : Nat) (lb tb zm lb2 tb2 : List Nat),
    exploreZoneGo fuel tileTypes width stack zoneMap zoneId lb tb = some (zm, lb2, tb2) →
    ∀ j, zoneMap.getD j 0 ≠ 0 → zm.getD j 0 = zoneMap.getD j 0 := by
  intro fuel
  induction fuel with
  | zero =>
    intro tileTypes width stack zoneMap zoneId lb tb zm lb2 tb2 hrun j hj
    simp [exploreZoneGo] at hrun
  | succ n ih =>
    intro tileTypes width stack zoneMap zoneId lb tb zm lb2 tb2 hrun j hj
    cases stack with
    | nil =>
      simp only [exploreZoneGo, Option.some.injEq, Prod.mk.injEq] at hrun
      obtain ⟨rfl, -, -⟩ := hrun
      rfl
    | cons current rest =>
      simp only [exploreZoneGo] at hrun
      by_cases hcur : zoneMap.getD current 0 ≠ 0
      · rw [if_pos hcur] at hrun
        exact ih _ _ _ _ _ _ _ _ _ _ hrun j hj
      · rw [if_neg hcur] at hrun
        have hcur0 : zoneMap.getD current 0 = 0 := not_not.mp hcur
        have hjc : j ≠ current := by
          intro h
          rw [h, hcur0] at hj
          exact hj rfl
        have hkeep : (zoneMap.set current (zoneId % 65536)).getD j 0 = zoneMap.getD j 0 :=
          getD_set_ne _ _ _ _ hjc
        have hne2 : (zoneMap.set current (zoneId % 65536)).getD j 0 ≠ 0 := by
          rw [hkeep]
          exact hj
        repeat' split at hrun
        all_goals exact (ih _ _ _ _ _ _ _ _ _ _ hrun j hne2).trans hkeep

/-- The flood-fill loop preserves the length of the zone map. -/
theorem exploreZoneGo_len : ∀ (fuel : Nat) (tileTypes : List Nat) (width : Nat)
    (stack zoneMap : List Nat) (zoneId : Nat) (lb tb zm lb2 tb2 : List Nat),
    exploreZoneGo fuel tileTypes width stack zoneMap zoneId lb tb = some (zm, lb2, tb2) →
    zm.length = zoneMap.length := by
  intro fuel
  induction fuel with
  | zero =>
    intro tileTypes width stack zoneMap zoneId lb tb zm lb2 tb2 hrun
    simp [exploreZoneGo] at hrun
  | succ n ih =>
    intro tileTypes width stack zoneMap zoneId lb tb zm lb2 tb2 hrun
    cases stack with
    | nil =>
      simp only [exploreZoneGo, Option.some.injEq, Prod.mk.injEq] at hrun
      obtain ⟨rfl, -, -⟩ := hrun
      rfl
    | cons current rest =>
      simp only [exploreZoneGo] at hrun
      by_cases hcur : zoneMap.getD current 0 ≠ 0
      · rw [if_pos hcur] at hrun
        exact ih _ _ _ _ _ _ _ _ _ _ hrun
      · rw [if_neg hcur] at hrun
        repeat' split at hrun
        all_goals exact (ih _ _ _ _ _ _ _ _ _ _ hrun).trans (List.length_set _ _ _)

/-- The flood-fill loop only writes `zoneId % 65536`, so a bound satisfied by
the initial map and by that value holds for the final map. -/
theorem exploreZoneGo_bound : ∀ (fuel : Nat) (tileTypes : List Nat) (width : Nat)
    (stack zoneMap : List Nat) (zoneId : Nat) (lb tb zm lb2 tb2 : List Nat) (B : Nat),
    exploreZoneGo fuel tileTypes width stack zoneMap zoneId lb tb = some (zm, lb2, tb2) →
    (∀ j, zoneMap.getD j 0 ≤ B) → zoneId % 65536 ≤ B →
    ∀ j, zm.getD j 0 ≤ B := by
  intro fuel
  induction fuel with
  | zero =>
    intro tileTypes width stack zoneMap zoneId lb tb zm lb2 tb2 B hrun hB hv j
    simp [exploreZoneGo] at hrun
  | succ n ih =>
    intro tileTypes width stack zoneMap zoneId lb tb zm lb2 tb2 B hrun hB hv j
    cases stack with
    | nil =>
      simp only [exploreZoneGo, Option.some.injEq, Prod.mk.injEq] at hrun
      obtain ⟨rfl, -, -⟩ := hrun
      exact hB j
    | cons current rest =>
      simp only [exploreZoneGo] at hrun
      by_cases hcur : zoneMap.getD current 0 ≠ 0
      · rw [if_pos hcur] at hrun
        exact ih _ _ _ _ _ _ _ _ _ _ B hrun hB hv j
      · rw [if_neg hcur] at hrun
        have hB2 : ∀ k, (zoneMap.set current (zoneId % 65536)).getD k 0 ≤ B := by
          intro k
          by_cases hkc : k = current
          · subst hkc
            by_cases hlt : k < zoneMap.length
            · rw [getD_set_self _ _ _ hlt]
              exact hv
            · rw [List.set_eq_of_length_le (Nat.le_of_not_lt hlt)]
              exact hB k
          · rw [getD_set_ne _ _ _ _ hkc]
            exact hB k
        repeat' split at hrun
        all_goals exact ih _ _ _ _ _ _ _ _ _ _ B hrun hB2 hv j

/-- The flood-fill loop marks the cell on top of the stack with
`zoneId % 65536` (when that value is nonzero, the mark survives). -/
theorem exploreZoneGo_seed (fuel : Nat) (tileTypes : List Nat) (width : Nat)
    (tile : Nat) (rest zoneMap : List Nat) (zoneId : Nat) (lb tb zm lb2 tb2 : List Nat)
    (hrun : exploreZoneGo fuel tileTypes width (tile :: rest) zoneMap zoneId lb tb =
      some (zm, lb2, tb2))
    (h0 : zoneMap.getD tile 0 = 0) (hlt : tile < zoneMap.length)
    (hnz : zoneId % 65536 ≠ 0) :
    zm.getD tile 0 = zoneId % 65536 := by
  cases fuel with
  | zero => simp [exploreZoneGo] at hrun
  | succ n =>
    simp only [exploreZoneGo] at hrun
    rw [if_neg (fun hx => hx h0)] at hrun
    have hset : (zoneMap.set tile (zoneId % 65536)).getD tile 0 = zoneId % 65536 :=
      getD_set_self _ _ _ hlt
    have hne2 : (zoneMap.set tile (zoneId % 65536)).getD tile 0 ≠ 0 := by
      rw [hset]
      exact hnz
    repeat' split at hrun
    all_goals exact (exploreZoneGo_keep n _ _ _ _ _ _ _ _ _ _ hrun tile hne2).trans hset

/-- The facts about `exploreZone` used for the `buildZones` invariant. -/
theorem exploreZone_facts (fuel tile : Nat) (tileTypes : List Nat) (width : Nat)
    (zoneMap : List Nat) (zoneId : Nat) (zone : TileZone) (zm1 : List Nat)
    (hexp : exploreZone fuel tile tileTypes width zoneMap zoneId = some (zone, zm1)) :
    zm1.length = zoneMap.length ∧
    (∀ j, zoneMap.getD j 0 ≠ 0 → zm1.getD j 0 = zoneMap.getD j 0) ∧
    (zoneMap.getD tile 0 = 0 → tile < zoneMap.length → zoneId % 65536 ≠ 0 →
      zm1.getD tile 0 = zoneId % 65536) ∧
    (∀ B, (∀ j, zoneMap.getD j 0 ≤ B) → zoneId % 65536 ≤ B →
      ∀ j, zm1.getD j 0 ≤ B) := by
  unfold exploreZone at hexp
  cases hgo : exploreZoneGo fuel tileTypes width [tile] zoneMap zoneId [] [] with
  | none =>
    rw [hgo] at hexp
    exact Option.noConfusion hexp
  | some r =>
    obtain ⟨zmr, lbr, tbr⟩ := r
    rw [hgo] at hexp
    simp only [Option.map_some', Prod.mk.injEq] at hexp
    obtain ⟨-, rfl⟩ := hexp
    refine ⟨exploreZoneGo_len fuel _ _ _ _ _ _ _ _ _ _ hgo,
      fun j hj => exploreZoneGo_keep fuel _ _ _ _ _ _ _ _ _ _ hgo j hj,
      fun h0 hlt hnz => exploreZoneGo_seed fuel _ _ _ _ _ _ _ _ _ _ _ hgo h0 hlt hnz,
      fun B hB hv j => exploreZoneGo_bound fuel _ _ _ _ _ _ _ _ _ _ B hgo hB hv j⟩

/-- One step of the scan loop of `buildZones`. -/
def buildZonesStep (data : RawMapData) (st : Option (List TileZone × List Nat)) (i : Nat) :
    Option (List TileZone × List Nat) :=
  match st with
  | none => none
  | some (zones, zoneMap) =>
    if zoneMap.getD i 0 = 0 then
      match exploreZone (exploreFuel data) i data.tiles data.width zoneMap
          (zones.length + 1) with
      | none => none
      | some (zone, zoneMap) => some (zones ++ [zone], zoneMap)
    else st

theorem buildZones_eq (data : RawMapData) :
    buildZones data = (List.range data.tiles.length).foldl (buildZonesStep data)
      (some ([], List.replicate (data.width * data.height) 0)) := rfl

theorem buildZonesFold_none (data : RawMapData) :
    ∀ (idxs : List Nat), List.foldl (buildZonesStep data) none idxs = none := by
  intro idxs
  induction idxs with
  | nil => rfl
  | cons i idxs ih =>
    rw [List.foldl_cons]
    exact ih

/-- The scan loop only grows the zone list, preserves the map length, and
never changes a marked cell. -/
theorem buildZonesFold_keep (data : RawMapData) : ∀ (idxs : List Nat)
    (zA : List TileZone) (zM : List Nat) (zones : List TileZone) (zm : List Nat),
    List.foldl (buildZonesStep data) (some (zA, zM)) idxs = some (zones, zm) →
    zA.length ≤ zones.length ∧ zm.length = zM.length ∧
      (∀ j, zM.getD j 0 ≠ 0 → zm.getD j 0 = zM.getD j 0) := by
  intro idxs
  induction idxs with
  | nil =>
    intro zA zM zones zm hrun
    simp only [List.foldl_nil, Option.some.injEq, Prod.mk.injEq] at hrun
    obtain ⟨rfl, rfl⟩ := hrun
    exact ⟨Nat.le_refl _, rfl, fun j hj => rfl⟩
  | cons i idxs ih =>
    intro zA zM zones zm hrun
    rw [List.foldl_cons] at hrun
    have hstep : buildZonesStep data (some (zA, zM)) i =
        if zM.getD i 0 = 0 then
          match exploreZone (exploreFuel data) i data.tiles data.width zM
              (zA.length + 1) with
          | none => none
          | some (zone, zoneMap) => some (zA ++ [zone], zoneMap)
        else some (zA, zM) := rfl
    rw [hstep] at hrun
    by_cases hz : zM.getD i 0 = 0
    · rw [if_pos hz] at hrun
      cases hexp : exploreZone (exploreFuel data) i data.tiles data.width zM
          (zA.length + 1) with
      | none =>
        rw [hexp] at hrun
        rw [buildZonesFold_none data idxs] at hrun
        exact Option.noConfusion hrun
      | some pr =>
        obtain ⟨zone, zM1⟩ := pr
        simp only [hexp] at hrun
        obtain ⟨hlen1, hkeep1, -, -⟩ := exploreZone_facts _ _ _ _ _ _ _ _ hexp
        obtain ⟨h1, h2, h3⟩ := ih (zA ++ [zone]) zM1 zones zm hrun
        refine ⟨?_, ?_, ?_⟩
        · refine Nat.le_trans ?_ h1
          simp
        · rw [h2, hlen1]
        · intro j hj
          have hj1 : zM1.getD j 0 ≠ 0 := by
            rw [hkeep1 j hj]
            exact hj
          rw [h3 j hj1, hkeep1 j hj]
    · rw [if_neg hz] at hrun
      exact ih zA zM zones zm hrun

/-- Every cell the scan loop visits ends up marked, provided at most 65535
zones are ever created. -/
theorem buildZonesFold_scanned (data : RawMapData) : ∀ (idxs : List Nat)
    (zA : List TileZone) (zM : List Nat) (zones : List TileZone) (zm : List Nat),
    List.foldl (buildZonesStep data) (some (zA, zM)) idxs = some (zones, zm) →
    zones.length ≤ 65535 →
    ∀ i ∈ idxs, i < zM.length → zm.getD i 0 ≠ 0 := by
  intro idxs
  induction idxs with
  | nil =>
    intro zA zM zones zm hrun hcount i hi
    simp at hi
  | cons i0 idxs ih =>
    intro zA zM zones zm hrun hcount i hi hilen
    rw [List.foldl_cons] at hrun
    have hstep : buildZonesStep data (some (zA, zM)) i0 =
        if zM.getD i0 0 = 0 then
          match exploreZone (exploreFuel data) i0 data.tiles data.width zM
              (zA.length + 1) with
          | none => none
          | some (zone, zoneMap) => some (zA ++ [zone], zoneMap)
        else some (zA, zM) := rfl
    rw [hstep] at hrun
    by_cases hz : zM.getD i0 0 = 0
    · rw [if_pos hz] at hrun
      cases hexp : exploreZone (exploreFuel data) i0 data.tiles data.width zM
          (zA.length + 1) with
      | none =>
        rw [hexp] at hrun
        rw [buildZonesFold_none data idxs] at hrun
        exact Option.noConfusion hrun
      | some pr =>
        obtain ⟨zone, zM1⟩ := pr
        simp only [hexp] at hrun
        obtain ⟨hlen1, hkeep1, hseed1, -⟩ := exploreZone_facts _ _ _ _ _ _ _ _ hexp
        obtain ⟨h1, -, h3⟩ := buildZonesFold_keep data idxs (zA ++ [zone]) zM1 zones zm hrun
        have hid_le : zA.length + 1 ≤ 65535 := by
          have : (zA ++ [zone]).length ≤ zones.length := h1
          simp only [List.length_append, List.length_cons, List.length_nil] at this
          omega
        have hmod : (zA.length + 1) % 65536 = zA.length + 1 :=
          Nat.mod_eq_of_lt (by omega)
        rcases List.mem_cons.mp hi with rfl | htail
        · have hmarked : zM1.getD i 0 = (zA.length + 1) % 65536 :=
            hseed1 hz hilen (by rw [hmod]; omega)
          have hne : zM1.getD i 0 ≠ 0 := by
            rw [hmarked, hmod]
            omega
          rw [h3 i hne]
          exact hne
        · exact ih (zA ++ [zone]) zM1 zones zm hrun hcount i htail (by rw [hlen1]; exact hilen)
    · rw [if_neg hz] at hrun
      rcases List.mem_cons.mp hi with rfl | htail
      · obtain ⟨-, -, h3⟩ := buildZonesFold_keep data idxs zA zM zones zm hrun
        rw [h3 i hz]
        exact hz
      · exact ih zA zM zones zm hrun hcount i htail hilen

theorem buildZonesFold_bound (data : RawMapData) : ∀ (idxs : List Nat)
    (zA : List TileZone) (zM : List Nat) (zones : List TileZone) (zm : List Nat),
    List.foldl (buildZonesStep data) (some (zA, zM)) idxs = some (zones, zm) →
    (∀ j, zM.getD j 0 ≤ zA.length) →
    ∀ j, zm.getD j 0 ≤ zones.length := by
  intro idxs
  induction idxs with
  | nil =>
    intro zA zM zones zm hrun hB j
    simp only [List.foldl_nil, Option.some.injEq, Prod.mk.injEq] at hrun
    obtain ⟨rfl, rfl⟩ := hrun
    exact hB j
  | cons i0 idxs ih =>
    intro zA zM zones zm hrun hB j
    rw [List.foldl_cons] at hrun
    have hstep : buildZonesStep data (some (zA, zM)) i0 =
        if zM.getD i0 0 = 0 then
          match exploreZone (exploreFuel data) i0 data.tiles data.width zM
              (zA.length + 1) with
          | none => none
          | some (zone, zoneMap) => some (zA ++ [zone], zoneMap)
        else some (zA, zM) := rfl
    rw [hstep] at hrun
    by_cases hz : zM.getD i0 0 = 0
    · rw [if_pos hz] at hrun
      cases hexp : exploreZone (exploreFuel data) i0 data.tiles data.width zM
          (zA.length + 1) with
      | none =>
        rw [hexp] at hrun
        rw [buildZonesFold_none data idxs] at hrun
        exact Option.noConfusion hrun
      | some pr =>
        obtain ⟨zone, zM1⟩ := pr
        simp only [hexp] at hrun
        obtain ⟨-, -, -, hbound1⟩ := exploreZone_facts _ _ _ _ _ _ _ _ hexp
        have hB1 : ∀ k, zM1.getD k 0 ≤ (zA ++ [zone]).length := by
          have := hbound1 (zA.length + 1)
            (fun k => Nat.le_trans (hB k) (Nat.le_succ _)) (Nat.mod_le _ _)
          intro k
          simp only [List.length_append, List.length_cons, List.length_nil]
          exact this k
        exact ih (zA ++ [zone]) zM1 zones zm hrun hB1 j
    · rw [if_neg hz] at hrun
      exact ih zA zM zones zm hrun hB j

theorem mem_ite_single {P : Prop} [Decidable P] {x y : Nat}
    (h : y ∈ (if P then [x] else ([] : List Nat))) : P ∧ y = x := by
  by_cases hp : P
  · rw [if_pos hp] at h
    exact ⟨hp, List.mem_singleton.mp h⟩
  · rw [if_neg hp] at h
    simp at h

theorem getD_set_changed {l : List Nat} {c v j : Nat}
    (h : (l.set c v).getD j 0 ≠ l.getD j 0) :
    j = c ∧ c < l.length ∧ (l.set c v).getD j 0 = v := by
  by_cases hjc : j = c
  · subst hjc
    by_cases hlt : j < l.length
    · exact ⟨rfl, hlt, getD_set_self _ _ _ hlt⟩
    · rw [List.set_eq_of_length_le (Nat.le_of_not_lt hlt)] at h
      exact absurd rfl h
  · rw [getD_set_ne _ _ _ _ hjc] at h
    exact absurd rfl h

theorem getD_set_ne_zero {l : List Nat} {c v b : Nat} (hv : v ≠ 0)
    (h : l.getD b 0 ≠ 0) : (l.set c v).getD b 0 ≠ 0 := by
  by_cases hbc : b = c
  · subst hbc
    by_cases hlt : b < l.length
    · rw [getD_set_self _ _ _ hlt]
      exact hv
    · rw [List.set_eq_of_length_le (Nat.le_of_not_lt hlt)]
      exact h
  · rw [getD_set_ne _ _ _ _ hbc]
    exact h

/-- The cell adjacency explored by `exploreZone`, transcribing its four
neighbour guards: same tile type and one step left, right, up or down (on a
valid map this is exactly 4-neighbour same-type adjacency, the spec's notion
of two cells lying in one zone). -/
def zoneAdj (tileTypes : List Nat) (width : Nat) (a b : Nat) : Prop :=
  ((a % width ≠ 0 ∧ b = a - 1) ∨
   (a % width ≠ width - 1 ∧ b = a + 1) ∨
   (a ≥ width ∧ b = a - width) ∨
   (a < tileTypes.length - width ∧ b = a + width)) ∧
  tileTypes[b]? = tileTypes[a]?

/-- Two cells lie in the same zone: connected by a chain of `zoneAdj` steps. -/
def zoneReach (tileTypes : List Nat) (width : Nat) : Nat → Nat → Prop :=
  Relation.ReflTransGen (zoneAdj tileTypes width)

/-- A zone's first cell in row-major order: no cell of its zone comes
earlier.  The scan of `buildZones` first encounters a zone exactly at its
seed. -/
def zoneSeed (tileTypes : List Nat) (width : Nat) (s : Nat) : Prop :=
  ∀ j, zoneReach tileTypes width s j → s ≤ j

theorem zoneAdj_bound (tileTypes : List Nat) (width height : Nat)
    (hL : tileTypes.length = width * height) {a b : Nat}
    (hadj : zoneAdj tileTypes width a b) (ha : a < tileTypes.length) :
    b < tileTypes.length := by
  obtain ⟨hdisj, -⟩ := hadj
  rcases hdisj with ⟨h1, rfl⟩ | ⟨h1, rfl⟩ | ⟨h1, rfl⟩ | ⟨h1, rfl⟩
  · omega
  · by_cases hw : width = 0
    · subst hw
      rw [Nat.zero_mul] at hL
      omega
    · have hw0 : 0 < width := Nat.pos_of_ne_zero hw
      have hdm : width * (a / width) + a % width = a := Nat.div_add_mod a width
      have hmlt : a % width < width := Nat.mod_lt a hw0
      have hq : a / width < height := by
        rw [Nat.div_lt_iff_lt_mul hw0]
        calc a < tileTypes.length := ha
          _ = width * height := hL
          _ = height * width := Nat.mul_comm width height
      have hmul : width * (a / width + 1) ≤ width * height := Nat.mul_le_mul_left width hq
      rw [Nat.mul_succ] at hmul
      rw [hL]
      omega
  · omega
  · omega

theorem zoneAdj_symm (tileTypes : List Nat) (width height : Nat)
    (hL : tileTypes.length = width * height) {a b : Nat}
    (ha : a < tileTypes.length) (hadj : zoneAdj tileTypes width a b) :
    zoneAdj tileTypes width b a := by
  obtain ⟨hdisj, hty⟩ := hadj
  refine ⟨?_, hty.symm⟩
  have hwpos : 0 < width := by
    by_contra hw
    have hw0 : width = 0 := by omega
    subst hw0
    rw [Nat.zero_mul] at hL
    omega
  have hdm : width * (a / width) + a % width = a := Nat.div_add_mod a width
  have hmlt : a % width < width := Nat.mod_lt a hwpos
  rcases hdisj with ⟨h1, rfl⟩ | ⟨h1, rfl⟩ | ⟨h1, rfl⟩ | ⟨h1, rfl⟩
  · refine Or.inr (Or.inl ⟨?_, ?_⟩)
    · have ha1 : a - 1 = width * (a / width) + (a % width - 1) := by omega
      have hlt1 : a % width - 1 < width := by omega
      rw [ha1, Nat.mul_add_mod, Nat.mod_eq_of_lt hlt1]
      omega
    · omega
  · refine Or.inl ⟨?_, ?_⟩
    · have ha1 : a + 1 = width * (a / width) + (a % width + 1) := by omega
      have hlt1 : a % width + 1 < width := by omega
      rw [ha1, Nat.mul_add_mod, Nat.mod_eq_of_lt hlt1]
      omega
    · omega
  · refine Or.inr (Or.inr (Or.inr ⟨?_, ?_⟩))
    · omega
    · omega
  · refine Or.inr (Or.inr (Or.inl ⟨?_, ?_⟩))
    · omega
    · omega

theorem zoneReach_bound (tileTypes : List Nat) (width height : Nat)
    (hL : tileTypes.length = width * height) {t j : Nat}
    (ht : t < tileTypes.length) (h : zoneReach tileTypes width t j) :
    j < tileTypes.length := by
  induction h with
  | refl => exact ht
  | tail hab hadj ih => exact zoneAdj_bound tileTypes width height hL hadj ih

theorem zoneReach_symm (tileTypes : List Nat) (width height : Nat)
    (hL : tileTypes.length = width * height) {t j : Nat}
    (ht : t < tileTypes.length) (h : zoneReach tileTypes width t j) :
    zoneReach tileTypes width j t := by
  induction h with
  | refl => exact Relation.ReflTransGen.refl
  | @tail b c hab hadj ih =>
    have hbL : b < tileTypes.length := zoneReach_bound tileTypes width height hL ht hab
    exact Relation.ReflTransGen.head (zoneAdj_symm tileTypes width height hL hbL hadj) ih

theorem exploreZoneGo_cons_marked (n : Nat) (tileTypes : List Nat) (width current : Nat)
    (rest zoneMap : List Nat) (zoneId : Nat) (lb tb : List Nat)
    (h : zoneMap.getD current 0 ≠ 0) :
    exploreZoneGo (n + 1) tileTypes width (current :: rest) zoneMap zoneId lb tb =
    exploreZoneGo n tileTypes width rest zoneMap zoneId lb tb := by
  simp only [exploreZoneGo]
  rw [if_pos h]

set_option maxHeartbeats 1600000 in
/-- Unfolding one marking step of the flood-fill loop: the popped cell is
written, the guarded neighbours are pushed (bottom on top), and the border
lists grow where the left/top guards failed. -/
theorem exploreZoneGo_cons_unmarked (n : Nat) (tileTypes : List Nat) (width current : Nat)
    (rest zoneMap : List Nat) (zoneId : Nat) (lb tb : List Nat)
    (h : zoneMap.getD current 0 = 0) :
    exploreZoneGo (n + 1) tileTypes width (current :: rest) zoneMap zoneId lb tb =
    exploreZoneGo n tileTypes width
      ((if current < tileTypes.length - width ∧
          tileTypes[current + width]? = tileTypes[current]? then [current + width] else []) ++
       (if current ≥ width ∧ tileTypes[current - width]? = tileTypes[current]?
          then [current - width] else []) ++
       (if current % width ≠ width - 1 ∧ tileTypes[current + 1]? = tileTypes[current]?
          then [current + 1] else []) ++
       (if current % width ≠ 0 ∧ tileTypes[current - 1]? = tileTypes[current]?
          then [current - 1] else []) ++ rest)
      (zoneMap.set current (zoneId % 65536)) zoneId
      (if current % width ≠ 0 ∧ tileTypes[current - 1]? = tileTypes[current]? then lb
        else if current ∉ lb then lb ++ [current] else lb)
      (if current ≥ width ∧ tileTypes[current - width]? = tileTypes[current]? then tb
        else if current ∉ tb then tb ++ [current] else tb) := by
  simp only [exploreZoneGo]
  rw [if_neg (fun hx => hx h)]
  by_cases c1 : current % width ≠ 0 ∧ tileTypes[current - 1]? = tileTypes[current]? <;>
    by_cases c2 : current % width ≠ width - 1 ∧
      tileTypes[current + 1]? = tileTypes[current]? <;>
    by_cases c3 : current ≥ width ∧ tileTypes[current - width]? = tileTypes[current]? <;>
    by_cases c4 : current < tileTypes.length - width ∧
      tileTypes[current + width]? = tileTypes[current]? <;>
    by_cases c5 : current ∈ lb <;>
    by_cases c6 : current ∈ tb <;>
    simp [c1, c2, c3, c4, c5, c6]

/-- A cell of the stack built by one marking step is either a `zoneAdj`
neighbour of the marked cell or was already pending. -/
theorem mem_bigstack (tileTypes : List Nat) (width current : Nat) (rest : List Nat)
    (x : Nat)
    (h : x ∈ (if current < tileTypes.length - width ∧
          tileTypes[current + width]? = tileTypes[current]? then [current + width] else []) ++
        (if current ≥ width ∧ tileTypes[current - width]? = tileTypes[current]?
          then [current - width] else []) ++
        (if current % width ≠ width - 1 ∧ tileTypes[current + 1]? = tileTypes[current]?
          then [current + 1] else []) ++
        (if current % width ≠ 0 ∧ tileTypes[current - 1]? = tileTypes[current]?
          then [current - 1] else []) ++ rest) :
    zoneAdj tileTypes width current x ∨ x ∈ rest := by
  rcases List.mem_append.mp h with h4 | hrest
  · rcases List.mem_append.mp h4 with h3 | hleft
    · rcases List.mem_append.mp h3 with h2 | hright
      · rcases List.mem_append.mp h2 with hdown | hup
        · obtain ⟨⟨hc, hty⟩, rfl⟩ := mem_ite_single hdown
          exact Or.inl ⟨Or.inr (Or.inr (Or.inr ⟨hc, rfl⟩)), hty⟩
        · obtain ⟨⟨hc, hty⟩, rfl⟩ := mem_ite_single hup
          exact Or.inl ⟨Or.inr (Or.inr (Or.inl ⟨hc, rfl⟩)), hty⟩
      · obtain ⟨⟨hc, hty⟩, rfl⟩ := mem_ite_single hright
        exact Or.inl ⟨Or.inr (Or.inl ⟨hc, rfl⟩), hty⟩
    · obtain ⟨⟨hc, hty⟩, rfl⟩ := mem_ite_single hleft
      exact Or.inl ⟨Or.inl ⟨hc, rfl⟩, hty⟩
  · exact Or.inr hrest

/-- Conversely, every `zoneAdj` neighbour of the marked cell is pushed. -/
theorem adj_mem_bigstack (tileTypes : List Nat) (width current : Nat) (rest : List Nat)
    (b : Nat) (hadj : zoneAdj tileTypes width current b) :
    b ∈ (if current < tileTypes.length - width ∧
          tileTypes[current + width]? = tileTypes[current]? then [current + width] else []) ++
        (if current ≥ width ∧ tileTypes[current - width]? = tileTypes[current]?
          then [current - width] else []) ++
        (if current % width ≠ width - 1 ∧ tileTypes[current + 1]? = tileTypes[current]?
          then [current + 1] else []) ++
        (if current % width ≠ 0 ∧ tileTypes[current - 1]? = tileTypes[current]?
          then [current - 1] else []) ++ rest := by
  obtain ⟨hdisj, hty⟩ := hadj
  rcases hdisj with ⟨h1, rfl⟩ | ⟨h1, rfl⟩ | ⟨h1, rfl⟩ | ⟨h1, rfl⟩
  · refine List.mem_append_left _ (List.mem_append_right _ ?_)
    rw [if_pos ⟨h1, hty⟩]
    exact List.mem_singleton.mpr rfl
  · refine List.mem_append_left _ (List.mem_append_left _ (List.mem_append_right _ ?_))
    rw [if_pos ⟨h1, hty⟩]
    exact List.mem_singleton.mpr rfl
  · refine List.mem_append_left _
      (List.mem_append_left _ (List.mem_append_left _ (List.mem_append_right _ ?_)))
    rw [if_pos ⟨h1, hty⟩]
    exact List.mem_singleton.mpr rfl
  · refine List.mem_append_left _
      (List.mem_append_left _ (List.mem_append_left _ (List.mem_append_left _ ?_)))
    rw [if_pos ⟨h1, hty⟩]
    exact List.mem_singleton.mpr rfl

/-- Soundness of the flood fill: every cell it changes is reachable from a
cell of the initial stack. -/
theorem exploreZoneGo_sound (tileTypes : List Nat) (width t : Nat) :
    ∀ (fuel : Nat) (stack zoneMap : List Nat) (zoneId : Nat) (lb tb zm lb2 tb2 : List Nat),
      exploreZoneGo fuel tileTypes width stack zoneMap zoneId lb tb = some (zm, lb2, tb2) →
      (∀ c ∈ stack, zoneReach tileTypes width t c) →
      ∀ j, zm.getD j 0 ≠ zoneMap.getD j 0 → zoneReach tileTypes width t j := by
  intro fuel
  induction fuel with
  | zero =>
    intro stack zoneMap zoneId lb tb zm lb2 tb2 hrun hstk j hj
    simp [exploreZoneGo] at hrun
  | succ n ih =>
    intro stack zoneMap zoneId lb tb zm lb2 tb2 hrun hstk j hj
    cases stack with
    | nil =>
      simp only [exploreZoneGo, Option.some.injEq, Prod.mk.injEq] at hrun
      obtain ⟨rfl, -, -⟩ := hrun
      exact absurd rfl hj
    | cons current rest =>
      by_cases hcur : zoneMap.getD current 0 ≠ 0
      · rw [exploreZoneGo_cons_marked n _ _ _ _ _ _ _ _ hcur] at hrun
        exact ih _ _ _ _ _ _ _ _ hrun
          (fun c hc => hstk c (List.mem_cons_of_mem _ hc)) j hj
      · have hcur0 : zoneMap.getD current 0 = 0 := not_not.mp hcur
        rw [exploreZoneGo_cons_unmarked n _ _ _ _ _ _ _ _ hcur0] at hrun
        by_cases hj1 : zm.getD j 0 = (zoneMap.set current (zoneId % 65536)).getD j 0
        · have hch : (zoneMap.set current (zoneId % 65536)).getD j 0 ≠
              zoneMap.getD j 0 := by
            rw [← hj1]
            exact hj
          have hjc := (getD_set_changed hch).1
          subst hjc
          exact hstk _ (List.mem_cons_self _ _)
        · refine ih _ _ _ _ _ _ _ _ hrun ?_ j hj1
          intro c hc
          rcases mem_bigstack _ _ _ _ _ hc with hadj | hmem
          · exact Relation.ReflTransGen.tail
              (hstk current (List.mem_cons_self _ _)) hadj
          · exact hstk c (List.mem_cons_of_mem _ hmem)

/-- Every cell the flood fill changes receives `zoneId % 65536`. -/
theorem exploreZoneGo_writes (tileTypes : List Nat) (width : Nat) :
    ∀ (fuel : Nat) (stack zoneMap : List Nat) (zoneId : Nat) (lb tb zm lb2 tb2 : List Nat),
      exploreZoneGo fuel tileTypes width stack zoneMap zoneId lb tb = some (zm, lb2, tb2) →
      ∀ j, zm.getD j 0 ≠ zoneMap.getD j 0 → zm.getD j 0 = zoneId % 65536 := by
  intro fuel
  induction fuel with
  | zero =>
    intro stack zoneMap zoneId lb tb zm lb2 tb2 hrun j hj
    simp [exploreZoneGo] at hrun
  | succ n ih =>
    intro stack zoneMap zoneId lb tb zm lb2 tb2 hrun j hj
    cases stack with
    | nil =>
      simp only [exploreZoneGo, Option.some.injEq, Prod.mk.injEq] at hrun
      obtain ⟨rfl, -, -⟩ := hrun
      exact absurd rfl hj
    | cons current rest =>
      by_cases hcur : zoneMap.getD current 0 ≠ 0
      · rw [exploreZoneGo_cons_marked n _ _ _ _ _ _ _ _ hcur] at hrun
        exact ih _ _ _ _ _ _ _ _ hrun j hj
      · have hcur0 : zoneMap.getD current 0 = 0 := not_not.mp hcur
        rw [exploreZoneGo_cons_unmarked n _ _ _ _ _ _ _ _ hcur0] at hrun
        by_cases hj1 : zm.getD j 0 = (zoneMap.set current (zoneId % 65536)).getD j 0
        · have hch : (zoneMap.set current (zoneId % 65536)).getD j 0 ≠
              zoneMap.getD j 0 := by
            rw [← hj1]
            exact hj
          rw [hj1]
          exact (getD_set_changed hch).2.2
        · exact ih _ _ _ _ _ _ _ _ hrun j hj1

/-- Completeness invariant of the flood fill: on return, every cell marked by
this call has all of its `zoneAdj` neighbours marked. -/
theorem exploreZoneGo_closed (tileTypes : List Nat) (width height : Nat)
    (hL : tileTypes.length = width * height) (mOld : List Nat) :
    ∀ (fuel : Nat) (stack zoneMap : List Nat) (zoneId : Nat) (lb tb zm lb2 tb2 : List Nat),
      exploreZoneGo fuel tileTypes width stack zoneMap zoneId lb tb = some (zm, lb2, tb2) →
      zoneId % 65536 ≠ 0 →
      zoneMap.length = tileTypes.length →
      (∀ c ∈ stack, c < tileTypes.length) →
      (∀ j, zoneMap.getD j 0 ≠ 0 → mOld.getD j 0 ≠ 0 ∨
        ∀ b, zoneAdj tileTypes width j b → zoneMap.getD b 0 ≠ 0 ∨ b ∈ stack) →
      ∀ j, zm.getD j 0 ≠ 0 → mOld.getD j 0 ≠ 0 ∨
        ∀ b, zoneAdj tileTypes width j b → zm.getD b 0 ≠ 0 := by
  intro fuel
  induction fuel with
  | zero =>
    intro stack zoneMap zoneId lb tb zm lb2 tb2 hrun hid hmlen hstkb hinv j hj
    simp [exploreZoneGo] at hrun
  | succ n ih =>
    intro stack zoneMap zoneId lb tb zm lb2 tb2 hrun hid hmlen hstkb hinv j hj
    cases stack with
    | nil =>
      simp only [exploreZoneGo, Option.some.injEq, Prod.mk.injEq] at hrun
      obtain ⟨rfl, -, -⟩ := hrun
      rcases hinv j hj with h | h
      · exact Or.inl h
      · refine Or.inr (fun b hb => ?_)
        rcases h b hb with h2 | h2
        · exact h2
        · simp at h2
    | cons current rest =>
      by_cases hcur : zoneMap.getD current 0 ≠ 0
      · rw [exploreZoneGo_cons_marked n _ _ _ _ _ _ _ _ hcur] at hrun
        refine ih _ _ _ _ _ _ _ _ hrun hid hmlen
          (fun c hc => hstkb c (List.mem_cons_of_mem _ hc)) ?_ j hj
        intro j2 hj2
        rcases hinv j2 hj2 with h | h
        · exact Or.inl h
        · refine Or.inr (fun b hb => ?_)
          rcases h b hb with h2 | h2
          · exact Or.inl h2
          · rcases List.mem_cons.mp h2 with rfl | h3
            · exact Or.inl hcur
            · exact Or.inr h3
      · have hcur0 : zoneMap.getD current 0 = 0 := not_not.mp hcur
        have hcL : current < tileTypes.length := hstkb current (List.mem_cons_self _ _)
        rw [exploreZoneGo_cons_unmarked n _ _ _ _ _ _ _ _ hcur0] at hrun
        have hcv : (zoneMap.set current (zoneId % 65536)).getD current 0 =
            zoneId % 65536 :=
          getD_set_self _ _ _ (by rw [hmlen]; exact hcL)
        refine ih _ _ _ _ _ _ _ _ hrun hid (by rw [List.length_set]; exact hmlen) ?_ ?_ j hj
        · intro c hc
          rcases mem_bigstack _ _ _ _ _ hc with hadj | hmem
          · exact zoneAdj_bound tileTypes width height hL hadj hcL
          · exact hstkb c (List.mem_cons_of_mem _ hmem)
        · intro j2 hj2
          by_cases hj2c : j2 = current
          · subst hj2c
            exact Or.inr (fun b hb => Or.inr (adj_mem_bigstack _ _ _ _ _ hb))
          · rw [getD_set_ne _ _ _ _ hj2c] at hj2
            rcases hinv j2 hj2 with h | h
            · exact Or.inl h
            · refine Or.inr (fun b hb => ?_)
              rcases h b hb with h2 | h2
              · exact Or.inl (getD_set_ne_zero hid h2)
              · rcases List.mem_cons.mp h2 with rfl | h3
                · exact Or.inl (by rw [hcv]; exact hid)
                · exact Or.inr (List.mem_append_right _ h3)

/-- `exploreZone` marks exactly the zone of its seed: every cell of the zone
receives the (wrapped) id, and only zone cells are touched. -/
theorem exploreZone_marks (fuel : Nat) (tileTypes : List Nat) (width height : Nat)
    (hL : tileTypes.length = width * height)
    (t : Nat) (m : List Nat) (zoneId : Nat) (zone : TileZone) (zm1 : List Nat)
    (hexp : exploreZone fuel t tileTypes width m zoneId = some (zone, zm1))
    (hmL : m.length = tileTypes.length)
    (ht0 : m.getD t 0 = 0) (htL : t < tileTypes.length)
    (hid : zoneId % 65536 ≠ 0)
    (hcomp : ∀ j, zoneReach tileTypes width t j → m.getD j 0 = 0) :
    (∀ j, zoneReach tileTypes width t j → zm1.getD j 0 = zoneId % 65536) ∧
    (∀ j, zm1.getD j 0 ≠ m.getD j 0 →
      zoneReach tileTypes width t j ∧ zm1.getD j 0 = zoneId % 65536) := by
  unfold exploreZone at hexp
  cases hgo : exploreZoneGo fuel tileTypes width [t] m zoneId [] [] with
  | none =>
    rw [hgo] at hexp
    exact Option.noConfusion hexp
  | some r =>
    obtain ⟨zmr, lbr, tbr⟩ := r
    rw [hgo] at hexp
    simp only [Option.map_some', Prod.mk.injEq] at hexp
    obtain ⟨-, rfl⟩ := hexp
    have hsingle : ∀ c ∈ ([t] : List Nat), zoneReach tileTypes width t c := by
      intro c hc
      rcases List.mem_singleton.mp hc with rfl
      exact Relation.ReflTransGen.refl
    have hsound : ∀ j, zm1.getD j 0 ≠ m.getD j 0 → zoneReach tileTypes width t j :=
      fun j hj => exploreZoneGo_sound tileTypes width t fuel [t] m zoneId [] []
        zm1 lbr tbr hgo hsingle j hj
    have hwrites : ∀ j, zm1.getD j 0 ≠ m.getD j 0 → zm1.getD j 0 = zoneId % 65536 :=
      fun j hj => exploreZoneGo_writes tileTypes width fuel [t] m zoneId [] []
        zm1 lbr tbr hgo j hj
    have hclosed := exploreZoneGo_closed tileTypes width height hL m fuel [t] m zoneId
      [] [] zm1 lbr tbr hgo hid hmL
      (fun c hc => by rcases List.mem_singleton.mp hc with rfl; exact htL)
      (fun j hj => Or.inl hj)
    have hseedv : zm1.getD t 0 = zoneId % 65536 :=
      exploreZoneGo_seed fuel tileTypes width t [] m zoneId [] [] zm1 lbr tbr hgo ht0
        (by rw [hmL]; exact htL) hid
    refine ⟨?_, fun j hj => ⟨hsound j hj, hwrites j hj⟩⟩
    intro j hreach
    induction hreach with
    | refl => exact hseedv
    | @tail b c hab hadj ih =>
      have hbv : zm1.getD b 0 = zoneId % 65536 := ih
      have hbne : zm1.getD b 0 ≠ 0 := by
        rw [hbv]
        exact hid
      rcases hclosed b hbne with hold | hcl
      · exact absurd (hcomp b hab) hold
      · have hcne : zm1.getD c 0 ≠ 0 := hcl c hadj
        have hchanged : zm1.getD c 0 ≠ m.getD c 0 := by
          rw [hcomp c (Relation.ReflTransGen.tail hab hadj)]
          exact hcne
        exact hwrites c hchanged

set_option maxRecDepth 100000 in
/-- The scan-loop invariant of `buildZones`: cells before the scan point are
marked, ids agree exactly on zones, seeds of marked zones lie before the scan
point with ids increasing in seed order, and every id handed out so far is
realised at a seed. -/
theorem buildZonesFold_zones (data : RawMapData)
    (hL : data.tiles.length = data.width * data.height) :
    ∀ (q p : Nat) (zA : List TileZone) (zM : List Nat)
      (zones : List TileZone) (zm : List Nat),
      List.foldl (buildZonesStep data) (some (zA, zM)) (List.range' p q) =
        some (zones, zm) →
      zones.length ≤ 65535 →
      p + q ≤ data.tiles.length →
      zM.length = data.tiles.length →
      (∀ j, j < zM.length → zM.getD j 0 = 0 → p ≤ j) →
      (∀ j, zM.getD j 0 ≠ 0 → j < data.tiles.length ∧ zM.getD j 0 ≤ zA.length) →
      (∀ j1 j2, zM.getD j1 0 ≠ 0 → zoneReach data.tiles data.width j1 j2 →
        zM.getD j2 0 = zM.getD j1 0) →
      (∀ j1 j2, zM.getD j1 0 ≠ 0 → zM.getD j1 0 = zM.getD j2 0 →
        zoneReach data.tiles data.width j1 j2) →
      (∀ s t, zoneSeed data.tiles data.width s → zoneSeed data.tiles data.width t →
        zM.getD s 0 ≠ 0 → zM.getD t 0 ≠ 0 → s < t → zM.getD s 0 < zM.getD t 0) →
      (∀ s, zoneSeed data.tiles data.width s → zM.getD s 0 ≠ 0 → s < p) →
      (∀ k, k < zA.length → ∃ s, s < data.tiles.length ∧
        zoneSeed data.tiles data.width s ∧ zM.getD s 0 = k + 1) →
      ((∀ j, j < zm.length → zm.getD j 0 = 0 → p + q ≤ j) ∧
       zm.length = data.tiles.length ∧
       (∀ j, zm.getD j 0 ≠ 0 → j < data.tiles.length ∧ zm.getD j 0 ≤ zones.length) ∧
       (∀ j1 j2, zm.getD j1 0 ≠ 0 → zoneReach data.tiles data.width j1 j2 →
         zm.getD j2 0 = zm.getD j1 0) ∧
       (∀ j1 j2, zm.getD j1 0 ≠ 0 → zm.getD j1 0 = zm.getD j2 0 →
         zoneReach data.tiles data.width j1 j2) ∧
       (∀ s t, zoneSeed data.tiles data.width s → zoneSeed data.tiles data.width t →
         zm.getD s 0 ≠ 0 → zm.getD t 0 ≠ 0 → s < t → zm.getD s 0 < zm.getD t 0) ∧
       (∀ k, k < zones.length → ∃ s, s < data.tiles.length ∧
         zoneSeed data.tiles data.width s ∧ zm.getD s 0 = k + 1)) := by
  intro q
  induction q with
  | zero =>
    intro p zA zM zones zm hrun hcount hpq hlen hS7 hS2 hS3 hS4 hS6 hS9 hS5
    simp only [List.range', List.foldl_nil, Option.some.injEq, Prod.mk.injEq] at hrun
    obtain ⟨rfl, rfl⟩ := hrun
    exact ⟨fun j hj h0 => by have := hS7 j hj h0; omega, hlen, hS2, hS3, hS4, hS6, hS5⟩
  | succ q ih =>
    intro p zA zM zones zm hrun hcount hpq hlen hS7 hS2 hS3 hS4 hS6 hS9 hS5
    have hr : List.range' p (q + 1) = p :: List.range' (p + 1) q := rfl
    rw [hr, List.foldl_cons] at hrun
    have hstep : buildZonesStep data (some (zA, zM)) p =
        if zM.getD p 0 = 0 then
          match exploreZone (exploreFuel data) p data.tiles data.width zM
              (zA.length + 1) with
          | none => none
          | some (zone, zoneMap) => some (zA ++ [zone], zoneMap)
        else some (zA, zM) := rfl
    rw [hstep] at hrun
    by_cases hz : zM.getD p 0 = 0
    · rw [if_pos hz] at hrun
      cases hexp : exploreZone (exploreFuel data) p data.tiles data.width zM
          (zA.length + 1) with
      | none =>
        rw [hexp] at hrun
        rw [buildZonesFold_none data _] at hrun
        exact Option.noConfusion hrun
      | some pr =>
        obtain ⟨zone, zM1⟩ := pr
        simp only [hexp] at hrun
        obtain ⟨hcnt, -, -⟩ := buildZonesFold_keep data _ _ _ _ _ hrun
        have hid_le : zA.length + 1 ≤ 65535 := by
          simp only [List.length_append, List.length_cons, List.length_nil] at hcnt
          omega
        have hmod : (zA.length + 1) % 65536 = zA.length + 1 :=
          Nat.mod_eq_of_lt (by omega)
        have hidnz : (zA.length + 1) % 65536 ≠ 0 := by
          rw [hmod]
          omega
        have hplen : p < data.tiles.length := by omega
        have hcomp : ∀ j, zoneReach data.tiles data.width p j → zM.getD j 0 = 0 := by
          intro j hreach
          by_contra hne
          have hback := zoneReach_symm data.tiles data.width data.height hL hplen hreach
          have h3 := hS3 j p hne hback
          rw [hz] at h3
          exact hne h3.symm
        obtain ⟨hall, hchg⟩ := exploreZone_marks (exploreFuel data) data.tiles
          data.width data.height hL p zM (zA.length + 1) zone zM1 hexp hlen hz hplen
          hidnz hcomp
        obtain ⟨hlen1, hkeep1, -, -⟩ := exploreZone_facts _ _ _ _ _ _ _ _ hexp
        have hseedp : zoneSeed data.tiles data.width p := by
          intro j hreach
          have hjL : j < data.tiles.length :=
            zoneReach_bound data.tiles data.width data.height hL hplen hreach
          exact hS7 j (by rw [hlen]; exact hjL) (hcomp j hreach)
        have hpm : zM1.getD p 0 = zA.length + 1 := by
          rw [hall p Relation.ReflTransGen.refl, hmod]
        have hnew : ∀ j, zM.getD j 0 = 0 → zM1.getD j 0 ≠ 0 →
            zoneReach data.tiles data.width p j ∧ zM1.getD j 0 = zA.length + 1 := by
          intro j h0 hne
          have hch : zM1.getD j 0 ≠ zM.getD j 0 := by
            rw [h0]
            exact hne
          obtain ⟨hr2, hv⟩ := hchg j hch
          exact ⟨hr2, by rw [hv, hmod]⟩
        have hseed_new : ∀ s, zoneSeed data.tiles data.width s → zM.getD s 0 = 0 →
            zM1.getD s 0 ≠ 0 → s = p := by
          intro s hs h0 hne
          obtain ⟨hrp, -⟩ := hnew s h0 hne
          have h1 : p ≤ s := hseedp s hrp
          have h2 : s ≤ p := hs p
            (zoneReach_symm data.tiles data.width data.height hL hplen hrp)
          omega
        rw [show p + (q + 1) = p + 1 + q by omega]
        refine ih (p + 1) (zA ++ [zone]) zM1 zones zm hrun hcount (by omega)
          (by rw [hlen1, hlen]) ?_ ?_ ?_ ?_ ?_ ?_ ?_
        · intro j hj h0
          have hj' : j < zM.length := by
            rw [← hlen1]
            exact hj
          have h0' : zM.getD j 0 = 0 := by
            by_contra hne
            rw [hkeep1 j hne] at h0
            exact hne h0
          have hple := hS7 j hj' h0'
          have hjp : j ≠ p := by
            intro hjp
            subst hjp
            rw [hpm] at h0
            omega
          omega
        · intro j hne
          by_cases hzj : zM.getD j 0 = 0
          · obtain ⟨hrp, hv⟩ := hnew j hzj hne
            refine ⟨zoneReach_bound data.tiles data.width data.height hL hplen hrp, ?_⟩
            rw [hv]
            simp only [List.length_append, List.length_cons, List.length_nil]
            omega
          · rw [hkeep1 j hzj] at hne ⊢
            obtain ⟨hjL, hble⟩ := hS2 j hne
            refine ⟨hjL, ?_⟩
            simp only [List.length_append, List.length_cons, List.length_nil]
            omega
        · intro j1 j2 hne1 hreach
          by_cases hzj1 : zM.getD j1 0 = 0
          · obtain ⟨hrp, hv⟩ := hnew j1 hzj1 hne1
            have hrp2 : zoneReach data.tiles data.width p j2 :=
              Relation.ReflTransGen.trans hrp hreach
            rw [hall j2 hrp2, hall j1 hrp]
          · rw [hkeep1 j1 hzj1] at hne1 ⊢
            have h32 := hS3 j1 j2 hne1 hreach
            have hne2 : zM.getD j2 0 ≠ 0 := by
              rw [h32]
              exact hne1
            rw [hkeep1 j2 hne2, h32]
        · intro j1 j2 hne1 heq
          by_cases hzj1 : zM.getD j1 0 = 0
          · obtain ⟨hrp1, hv1⟩ := hnew j1 hzj1 hne1
            by_cases hzj2 : zM.getD j2 0 = 0
            · have hne2 : zM1.getD j2 0 ≠ 0 := by
                rw [← heq]
                exact hne1
              obtain ⟨hrp2, -⟩ := hnew j2 hzj2 hne2
              exact Relation.ReflTransGen.trans
                (zoneReach_symm data.tiles data.width data.height hL hplen hrp1) hrp2
            · rw [hkeep1 j2 hzj2] at heq
              obtain ⟨-, hble⟩ := hS2 j2 hzj2
              rw [hv1] at heq
              omega
          · rw [hkeep1 j1 hzj1] at hne1 heq
            by_cases hzj2 : zM.getD j2 0 = 0
            · by_cases hne2 : zM1.getD j2 0 = 0
              · rw [hne2] at heq
                exact absurd heq hne1
              · obtain ⟨-, hv2⟩ := hnew j2 hzj2 hne2
                obtain ⟨-, hble⟩ := hS2 j1 hne1
                rw [hv2] at heq
                omega
            · rw [hkeep1 j2 hzj2] at heq
              exact hS4 j1 j2 hne1 heq
        · intro s t hs ht hnes hnet hst
          by_cases hzs : zM.getD s 0 = 0
          · have hsp := hseed_new s hs hzs hnes
            subst hsp
            by_cases hzt : zM.getD t 0 = 0
            · have htp := hseed_new t ht hzt hnet
              omega
            · have h9 := hS9 t ht hzt
              omega
          · by_cases hzt : zM.getD t 0 = 0
            · have htp := hseed_new t ht hzt hnet
              subst htp
              rw [hkeep1 s hzs, hpm]
              obtain ⟨-, hble⟩ := hS2 s hzs
              omega
            · rw [hkeep1 s hzs, hkeep1 t hzt]
              exact hS6 s t hs ht hzs hzt hst
        · intro s hs hne
          by_cases hzs : zM.getD s 0 = 0
          · have := hseed_new s hs hzs hne
            omega
          · have := hS9 s hs hzs
            omega
        · intro k hk
          simp only [List.length_append, List.length_cons, List.length_nil] at hk
          by_cases hkA : k < zA.length
          · obtain ⟨s, hsL, hseed, hval⟩ := hS5 k hkA
            refine ⟨s, hsL, hseed, ?_⟩
            rw [hkeep1 s (by rw [hval]; omega), hval]
          · have hkeq : k = zA.length := by omega
            subst hkeq
            exact ⟨p, hplen, hseedp, hpm⟩
    · rw [if_neg hz] at hrun
      rw [show p + (q + 1) = p + 1 + q by omega]
      refine ih (p + 1) zA zM zones zm hrun hcount (by omega) hlen ?_ hS2 hS3 hS4 hS6
        ?_ hS5
      · intro j hj h0
        have := hS7 j hj h0
        have hjp : j ≠ p := by
          intro hjp
          subst hjp
          exact hz h0
        omega
      · intro s hs hne
        have := hS9 s hs hne
        omega

set_option maxRecDepth 100000 in
/-- **C10** (amended): zone ids are stored modulo `2^16`.  Whenever
`buildZones` returns having created at most 65535 zones (its ids `1 ..
|zones|` then survive the `Uint16` store unchanged), every grid cell's zone
map entry is nonzero and equals one plus the first-encounter index of that
cell's own zone: entries are bounded by the zone count, two cells carry the
same entry exactly when they lie in the same zone, zones' first cells in scan
order (`zoneSeed`) receive strictly increasing entries, and every id up to
the zone count is realised — together this pins each cell's entry to one plus
the rank of its zone's first encounter in the row-major scan. -/
theorem buildZones_zoneMap_marks (data : RawMapData) (zones : List TileZone) (zm : List Nat)
    (hlen : data.tiles.length = data.width * data.height)
    (hrun : buildZones data = some (zones, zm))
    (hcount : zones.length ≤ 65535) :
    (∀ i, i < data.width * data.height →
      1 ≤ zm.getD i 0 ∧ zm.getD i 0 ≤ zones.length) ∧
    (∀ i j, i < data.width * data.height → j < data.width * data.height →
      (zoneReach data.tiles data.width i j ↔ zm.getD i 0 = zm.getD j 0)) ∧
    (∀ s t, zoneSeed data.tiles data.width s → zoneSeed data.tiles data.width t →
      s < data.width * data.height → t < data.width * data.height → s < t →
      zm.getD s 0 < zm.getD t 0) ∧
    (∀ k, k < zones.length → ∃ s, s < data.width * data.height ∧
      zoneSeed data.tiles data.width s ∧ zm.getD s 0 = k + 1) := by
  rw [buildZones_eq, List.range_eq_range'] at hrun
  obtain ⟨f7, flen, f2, f3, f4, f6, f5⟩ := buildZonesFold_zones data hlen
    data.tiles.length 0 [] (List.replicate (data.width * data.height) 0) zones zm hrun
    hcount (by omega) (by rw [List.length_replicate]; exact hlen.symm)
    (fun j hj h0 => Nat.zero_le j)
    (fun j hj => absurd (getD_replicate_zero _ j) hj)
    (fun j1 j2 h1 => absurd (getD_replicate_zero _ j1) h1)
    (fun j1 j2 h1 => absurd (getD_replicate_zero _ j1) h1)
    (fun s t _ _ h1 => absurd (getD_replicate_zero _ s) h1)
    (fun s _ h1 => absurd (getD_replicate_zero _ s) h1)
    (fun k hk => absurd hk (Nat.not_lt_zero k))
  have hmarked : ∀ i, i < data.width * data.height → zm.getD i 0 ≠ 0 := by
    intro i hi h0
    have h7 := f7 i (by rw [flen, hlen]; exact hi) h0
    omega
  refine ⟨?_, ?_, ?_, ?_⟩
  · intro i hi
    have hne := hmarked i hi
    obtain ⟨-, hbound⟩ := f2 i hne
    exact ⟨Nat.one_le_iff_ne_zero.mpr hne, hbound⟩
  · intro i j hi hj
    constructor
    · intro hreach
      exact (f3 i j (hmarked i hi) hreach).symm
    · intro heq
      exact f4 i j (hmarked i hi) heq
  · intro s t hs ht hsL htL hst
    exact f6 s t hs ht (hmarked s hsL) (hmarked t htL) hst
  · intro k hk
    obtain ⟨s, hsL, hseed, hval⟩ := f5 k hk
    refine ⟨s, ?_, hseed, hval⟩
    rw [← hlen]
    exact hsL

set_option maxRecDepth 100000 in
/-- **C10** (amended, witness): on a 2×2 map with two 2-cell zones the zone
map is `[1, 1, 2, 2]` and the first cell's entry lies in `[1, 2]`. -/
theorem buildZones_zoneMap_marks_witness :
    1 ≤ ([1, 1, 2, 2] : List Nat).getD 0 0 ∧
      ([1, 1, 2, 2] : List Nat).getD 0 0 ≤
        ([⟨5, [0], [0, 1]⟩, ⟨7, [2], [2, 3]⟩] : List TileZone).length :=
  (buildZones_zoneMap_marks ⟨2, 2, [5, 5, 7, 7], []⟩
    [⟨5, [0], [0, 1]⟩, ⟨7, [2], [2, 3]⟩] [1, 1, 2, 2]
    (by decide) (by rfl) (by decide)).1 0 (by decide)

/-- The period-2 cycle of the flood fill once a two-cell zone has been marked
with the wrapped id 0: both cells always look unvisited again. -/
theorem exploreZoneGo_cycle : ∀ fuel : Nat,
    exploreZoneGo fuel [5, 5] 2 [0] [0, 0] 65536 [0] [0, 1] = none ∧
    exploreZoneGo fuel [5, 5] 2 [1] [0, 0] 65536 [0] [0, 1] = none := by
  intro fuel
  induction fuel with
  | zero => exact ⟨rfl, rfl⟩
  | succ n ih =>
    refine ⟨?_, ?_⟩
    · have h : exploreZoneGo (n + 1) [5, 5] 2 [0] [0, 0] 65536 [0] [0, 1] =
          exploreZoneGo n [5, 5] 2 [1] [0, 0] 65536 [0] [0, 1] := rfl
      rw [h]
      exact ih.2
    · have h : exploreZoneGo (n + 1) [5, 5] 2 [1] [0, 0] 65536 [0] [0, 1] =
          exploreZoneGo n [5, 5] 2 [0] [0, 0] 65536 [0] [0, 1] := rfl
      rw [h]
      exact ih.1

/-- **C10** (counterexample to the unamended claim): called for the 65536th
zone (`zoneId = 65536`, stored as `0`), the flood fill of a two-cell zone
never returns — for every fuel the model yields `none`, because the wiped
cells look unvisited and are re-explored forever.  The same zone one id
earlier terminates with both cells marked 65535, and a single-cell 65536th
zone does return, leaving its cell unassigned (entry 0). -/
theorem exploreZone_wrap_divergence :
    (∀ fuel : Nat, exploreZone fuel 0 [5, 5] 2 [0, 0] 65536 = none) ∧
    exploreZone 20 0 [5, 5] 2 [0, 0] 65535 =
      some (⟨5, [0], [0, 1]⟩, [65535, 65535]) ∧
    exploreZone 20 0 [5, 7] 2 [0, 0] 65536 = some (⟨5, [0], [0]⟩, [0, 0]) := by
  refine ⟨?_, by rfl, by rfl⟩
  intro fuel
  match fuel with
  | 0 => rfl
  | 1 => rfl
  | n + 2 =>
    unfold exploreZone
    have h : exploreZoneGo (n + 2) [5, 5] 2 [0] [0, 0] 65536 [] [] =
        exploreZoneGo n [5, 5] 2 [0] [0, 0] 65536 [0] [0, 1] := rfl
    rw [h, (exploreZoneGo_cycle n).1]
    rfl

/-! ### C5: chunk sorting -/

/-- Filtering for one chunk key commutes with `orderedInsert`: every element
the insertion skips over has a strictly smaller key than the inserted one. -/
theorem filter_orderedInsert_chunk (width k : Nat) (a : LineData) (l : List LineData) :
    (l.orderedInsert (chunkLE width) a).filter (fun x => chunkOfLine width x == k) =
      if chunkOfLine width a == k then
        a :: l.filter (fun x => chunkOfLine width x == k)
      else l.filter (fun x => chunkOfLine width x == k) := by
  induction l with
  | nil =>
    by_cases hak : chunkOfLine width a = k
    · have hb : (chunkOfLine width a == k) = true := by simpa using hak
      simp [List.orderedInsert, List.filter, hb]
    · have hb : (chunkOfLine width a == k) = false := by simpa using hak
      simp [List.orderedInsert, List.filter, hb]
  | cons b t ih =>
    show ((if chunkLE width a b then a :: b :: t else
      b :: t.orderedInsert (chunkLE width) a).filter (fun x => chunkOfLine width x == k)) = _
    by_cases hab : chunkLE width a b
    · rw [if_pos hab]
      by_cases hak : chunkOfLine width a = k <;>
        simp [List.filter_cons, hak]
    · rw [if_neg hab]
      have hb_lt : chunkOfLine width b < chunkOfLine width a := by
        simp only [chunkLE] at hab
        omega
      by_cases hak : chunkOfLine width a = k
      · have hbk : chunkOfLine width b ≠ k := by omega
        simp [List.filter_cons, ih, hak, hbk]
      · simp [List.filter_cons, ih, hak]

/-- Filtering for one chunk key commutes with the whole sort (stability). -/
theorem filter_chunkLines (width k : Nat) (lines : List LineData) :
    (chunkLines width lines).filter (fun x => chunkOfLine width x == k) =
      lines.filter (fun x => chunkOfLine width x == k) := by
  induction lines with
  | nil => rfl
  | cons a l ih =>
    simp only [chunkLines] at ih ⊢
    show ((l.insertionSort (chunkLE width)).orderedInsert (chunkLE width) a).filter _ = _
    rw [filter_orderedInsert_chunk]
    by_cases hak : chunkOfLine width a = k
    · have hb : (chunkOfLine width a == k) = true := by simpa using hak
      simp [hb, ih, List.filter_cons]
    · have hb : (chunkOfLine width a == k) = false := by simpa using hak
      simp [hb, ih, List.filter_cons]

/-- **C5**: `chunkLines` stably sorts the candidate lines by the chunk id of
their first cell (`floor(y/32)·ceil(width/32) + floor(x/32)`): the chunk ids
are nondecreasing in emission order, the lines of each chunk id keep their
prior relative order, and the multiset of lines is unchanged. -/
theorem chunkLines_stable_sorted (width : Nat) (hw : 1 ≤ width) (lines : List LineData) :
    (chunkLines width lines).Pairwise
        (fun a b => chunkOfLine width a ≤ chunkOfLine width b) ∧
    (∀ k, (chunkLines width lines).filter (fun x => chunkOfLine width x == k) =
        lines.filter (fun x => chunkOfLine width x == k)) ∧
    (chunkLines width lines).Perm lines := by
  refine ⟨?_, fun k => filter_chunkLines width k lines, List.perm_insertionSort _ lines⟩
  have hs := List.sorted_insertionSort (chunkLE width) lines
  exact hs

/-- **C5** (witness): a three-line list over a width-1 map; the two chunk-0
lines keep their relative order ahead of the chunk-1 line. -/
theorem chunkLines_stable_sorted_witness :
    (chunkLines 1 [⟨0, [40]⟩, ⟨1, [0]⟩, ⟨2, [1]⟩]).Pairwise
        (fun a b => chunkOfLine 1 a ≤ chunkOfLine 1 b) ∧
    (chunkLines 1 [⟨0, [40]⟩, ⟨1, [0]⟩, ⟨2, [1]⟩]).filter
        (fun x => chunkOfLine 1 x == 0) =
      [⟨0, [40]⟩, ⟨1, [0]⟩, ⟨2, [1]⟩].filter (fun x => chunkOfLine 1 x == 0) ∧
    (chunkLines 1 [⟨0, [40]⟩, ⟨1, [0]⟩, ⟨2, [1]⟩]).Perm [⟨0, [40]⟩, ⟨1, [0]⟩, ⟨2, [1]⟩] := by
  obtain ⟨h1, h2, h3⟩ := chunkLines_stable_sorted 1 (by decide) [⟨0, [40]⟩, ⟨1, [0]⟩, ⟨2, [1]⟩]
  exact ⟨h1, h2 0, h3⟩

end MapCodec
